import Mathlib

/-!
Directory tree listing (`tree/main.go`).

A shallow embedding of the program `tree/main.go` and a verification of its
specification.

Modelling conventions.

* Go `string` values are Lean `String`s.  Go compares strings byte by byte;
  for well-formed UTF-8 that is the order of the code point sequences, which is
  what `nameLess` computes.
* `int` and `int64` values are `Int` (no arithmetic in the program can overflow
  short of a tree of depth `2^63`).
* A pointer `*TreeItem` is a natural number, the address of the node.  The
  builder works on an explicit heap of cells (`Cell`); the renderer takes the
  tree the root pointer denotes (`TreeItem`), each node carrying its own address
  in the field `ptr`.
* The writer `out` is the list of the byte strings passed to `out.Write`, one
  element per call, in order.
* A run-time panic is a `Fault`.  Loops carry a fuel argument; running out of
  it is the fault `fuelExhausted`, an artefact of the embedding.  The queue loop
  of the renderer is given one unit per node, which is enough
  (`printLoop_fuel`).  The loop of the builder runs once per node it creates;
  its fuel is an argument of `buildTree` and `dirTree`, and the results are
  stated for every fuel that suffices.
* `fmt.Println` of an error goes to the standard output of the process, not to
  `out`, and is not modelled.
-/

namespace Tree

/-! ## Data model -/

/-- The part of `fs.FileInfo` the program reads: `Name()`, `Size()`, `IsDir()`. -/
structure FileInfo where
  name : String
  size : Int
  isDir : Bool
deriving DecidableEq, Repr

/-- A Go `error` value. -/
structure IOError where
  msg : String
deriving DecidableEq, Repr

/-- The ways a run can stop without returning: the two Go run-time panics the
program can raise, and the exhaustion of the fuel of the embedding. -/
inductive Fault where
  | indexOutOfRange
  | nilDereference
  | fuelExhausted
deriving DecidableEq, Repr

deriving instance DecidableEq for Except

/-- The tree denoted by a `*TreeItem`: `ptr` is the address of the node,
`parent` the address stored in the field `Parent`.  `FileInfo` is not nil: the
only node that can hold a nil `FileInfo` is the root after a failed `Lstat`, and
`buildTree` dereferences it before returning. -/
inductive TreeItem where
  | mk (ptr : Nat) (parent : Option Nat) (children : List TreeItem)
      (fileInfo : FileInfo) (path : String) (level : Int)
deriving Repr

namespace TreeItem

/-- Address of the node. -/
def ptr : TreeItem → Nat
  | mk p _ _ _ _ _ => p

/-- Field `Parent`. -/
def parent : TreeItem → Option Nat
  | mk _ p _ _ _ _ => p

/-- Field `Children`. -/
def children : TreeItem → List TreeItem
  | mk _ _ c _ _ _ => c

/-- Field `FileInfo`. -/
def fileInfo : TreeItem → FileInfo
  | mk _ _ _ f _ _ => f

/-- Field `Path`. -/
def path : TreeItem → String
  | mk _ _ _ _ p _ => p

/-- Field `Level`. -/
def level : TreeItem → Int
  | mk _ _ _ _ _ l => l

end TreeItem

mutual
/-- Number of nodes of a tree. -/
def size : TreeItem → Nat
  | .mk _ _ cs _ _ _ => 1 + sizeL cs
/-- Number of nodes of a forest. -/
def sizeL : List TreeItem → Nat
  | [] => 0
  | c :: cs => size c + sizeL cs
end

mutual
/-- The nodes of a tree, the root first. -/
def nodes : TreeItem → List TreeItem
  | .mk p q cs f s l => .mk p q cs f s l :: nodesL cs
/-- The nodes of a forest. -/
def nodesL : List TreeItem → List TreeItem
  | [] => []
  | c :: cs => nodes c ++ nodesL cs
end

mutual
/-- Every child is one level below its parent, throughout the tree. -/
def levelsOk : TreeItem → Bool
  | .mk _ _ cs _ _ l => levelsOkL l cs
/-- Every tree of the forest is at level `l + 1` and satisfies `levelsOk`. -/
def levelsOkL (l : Int) : List TreeItem → Bool
  | [] => true
  | c :: cs => decide (c.level = l + 1) && levelsOk c && levelsOkL l cs
end

mutual
/-- The children of every node have pairwise distinct names. -/
def namesOk : TreeItem → Bool
  | .mk _ _ cs _ _ _ => decide ((cs.map fun c => c.fileInfo.name).Nodup) && namesOkL cs
/-- Every tree of the forest satisfies `namesOk`. -/
def namesOkL : List TreeItem → Bool
  | [] => true
  | c :: cs => namesOk c && namesOkL cs
end

/-! ## Renderer -/

/-- Go's `<` on strings. -/
def nameLess (a b : String) : Bool := decide (a.toList < b.toList)

/-- Insertion of `x` into a list sorted by `less`. -/
def insertSorted (less : TreeItem → TreeItem → Bool) (x : TreeItem) :
    List TreeItem → List TreeItem
  | [] => [x]
  | y :: ys => if less x y then x :: y :: ys else y :: insertSorted less x ys

/-- The call `sort.Slice(children, less)`, as an insertion sort.  The callers
sort siblings by name; when the names are pairwise distinct the sorted order is
unique, so every sorting algorithm returns this list (`sortSlice_unique`). -/
def sortSlice (less : TreeItem → TreeItem → Bool) : List TreeItem → List TreeItem
  | [] => []
  | x :: xs => insertSorted less x (sortSlice less xs)

/-- The comparison of `printTree`'s first `sort.Slice`: ascending by name. -/
def lessAsc (a b : TreeItem) : Bool := nameLess a.fileInfo.name b.fileInfo.name

/-- The comparison of `printTree`'s second `sort.Slice`: descending by name. -/
def lessDesc (a b : TreeItem) : Bool := nameLess b.fileInfo.name a.fileInfo.name

/-- The function `prepend`: a slice with `y` in front of the elements of `x`. -/
def prepend (x : List TreeItem) (y : TreeItem) : List TreeItem := y :: x

/-- The access `levels[i]`. -/
def getLevel (levels : List Bool) (i : Nat) : Except Fault Bool :=
  match levels[i]? with
  | none => .error .indexOutOfRange
  | some b => .ok b

/-- The assignment `levels[i] = v`. -/
def setLevel (levels : List Bool) (i : Int) (v : Bool) : Except Fault (List Bool) :=
  if 0 ≤ i ∧ i < levels.length then .ok (levels.set i.toNat v) else .error .indexOutOfRange

/-- The loop `for i := 1; i < item.Level; i++` of `printLine`, with `n`
iterations left, the next one at index `i`. -/
def indentLoop (levels : List Bool) : Nat → Nat → String → Except Fault String
  | _, 0, result => .ok result
  | i, n + 1, result =>
    match getLevel levels i with
    | .error e => .error e
    | .ok b => indentLoop levels (i + 1) n ((if b then result ++ "│" else result) ++ "\t")

/-- The function `printLine`: the bytes of its single `out.Write`. -/
def printLine (item : TreeItem) (levels : List Bool) (isLast : Bool) : Except Fault String :=
  match indentLoop levels 1 (item.level - 1).toNat "" with
  | .error e => .error e
  | .ok result =>
    let result := if isLast then result ++ "└───" else result ++ "├───"
    let result := result ++ item.fileInfo.name
    let result :=
      if !item.fileInfo.isDir then
        if item.fileInfo.size = 0 then result ++ " (empty)"
        else result ++ " (" ++ toString item.fileInfo.size ++ "b)"
      else result
    .ok (result ++ "\n")

/-- The queue loop of `printTree`.  The log `out` holds one entry per write:
the bytes written, paired with the node they were written for. -/
def printLoop : Nat → List TreeItem → List Bool → List (TreeItem × String) →
    Except Fault (List (TreeItem × String))
  | _, [], _, out => .ok out
  | 0, _ :: _, _, _ => .error .fuelExhausted
  | fuel + 1, treeItem :: queue, levels, out =>
    match (if (levels.length : Int) ≤ treeItem.level then .ok (levels ++ [true])
      else setLevel levels treeItem.level true) with
    | .error e => .error e
    | .ok levels =>
      let children := sortSlice lessDesc treeItem.children
      let more : Bool :=
        match queue with
        | [] => false
        | next :: _ => decide (treeItem.level = next.level)
      match (if !more then setLevel levels treeItem.level false else .ok levels) with
      | .error e => .error e
      | .ok levels =>
        match printLine treeItem levels (!more) with
        | .error e => .error e
        | .ok line =>
          printLoop fuel (children.foldl prepend queue) levels (out ++ [(treeItem, line)])

/-- The function `printTree`, with the log of its writes.  The loop runs once
per proper descendant of the root, so `sizeL root.children` is fuel enough. -/
def printTreeLog (root : TreeItem) : Except Fault (List (TreeItem × String)) :=
  let levels := [false]
  if root.children.length = 0 then .ok []
  else
    let children := sortSlice lessAsc root.children
    let queue := children.reverse.foldl prepend []
    printLoop (sizeL root.children) queue levels []

/-- The function `printTree`: the byte strings written to `out`, and the
returned `error`. -/
def printTree (root : TreeItem) : Except Fault (List String × Option IOError) :=
  match printTreeLog root with
  | .error e => .error e
  | .ok log => .ok (log.map Prod.snd, none)

/-! ## Builder -/

/-- The file system as the program sees it.  `lstat` is `os.Lstat`; `readdir`
is `os.Open` followed by `Readdir(0)` on the handle, failing when either call
does. -/
structure FileSystem where
  lstat : String → Except IOError FileInfo
  readdir : String → Except IOError (List FileInfo)

/-- A `TreeItem` in the heap of the builder; `parent` and `children` hold
addresses.  The address of a cell is its index in the heap. -/
structure Cell where
  parent : Option Nat
  children : List Nat
  fileInfo : FileInfo
  path : String
  level : Int
deriving DecidableEq, Repr

/-- The function `getChildren`: the returned slice (nil is the empty list) and
the returned `error`. -/
def getChildren (fs : FileSystem) (treeItem : Cell) : List FileInfo × Option IOError :=
  if treeItem.fileInfo.isDir then
    match fs.readdir treeItem.path with
    | .error err => ([], some err)
    | .ok files => (files, none)
  else ([], none)

/-- The statement `curr.Children = append(curr.Children, &childItem)`. -/
def appendChild (heap : List Cell) (curr child : Nat) : List Cell :=
  heap.modify (fun c => { c with children := c.children ++ [child] }) curr

/-- The loop `for _, file := range files` of `buildTree`.  `currPath` and
`currLevel` are `curr.Path` and `curr.Level`, which the loop does not change.
A child that is not retained is unreachable and is not allocated. -/
def addChildren (printFiles : Bool) (curr : Nat) (currPath : String) (currLevel : Int) :
    List FileInfo → List Cell → List Nat → List Cell × List Nat
  | [], heap, stack => (heap, stack)
  | file :: files, heap, stack =>
    let childItem : Cell :=
      { parent := some curr, children := [], fileInfo := file,
        path := currPath ++ "/" ++ file.name, level := currLevel + 1 }
    if childItem.fileInfo.isDir || (printFiles && !childItem.fileInfo.isDir) then
      let child := heap.length
      addChildren printFiles curr currPath currLevel files
        (appendChild heap curr child ++ [childItem]) (stack ++ [child])
    else
      addChildren printFiles curr currPath currLevel files heap stack

/-- The loop `for len(stack) > 0` of `buildTree`.  The top of the stack is the
last element of the list. -/
def buildLoop (fs : FileSystem) (printFiles : Bool) :
    Nat → List Cell → List Nat → Except Fault (List Cell)
  | fuel, heap, stack =>
    match stack.getLast? with
    | none => .ok heap
    | some curr =>
      match fuel with
      | 0 => .error .fuelExhausted
      | fuel + 1 =>
        match heap[curr]? with
        | none => .error .nilDereference
        | some cell =>
          let files := (getChildren fs cell).1
          let next := addChildren printFiles curr cell.path cell.level files heap stack.dropLast
          buildLoop fs printFiles fuel next.1 next.2

/-- Collects a list of optional values, failing when one of them is missing. -/
def collect : List (Option TreeItem) → Option (List TreeItem)
  | [] => some []
  | none :: _ => none
  | some t :: rest =>
    match collect rest with
    | none => none
    | some ts => some (t :: ts)

/-- The tree an address denotes in a heap.  The depth of the tree is bounded by
the first argument; `none` when the bound is reached or an address is not in
the heap. -/
def toTree (heap : List Cell) : Nat → Nat → Option TreeItem
  | 0, _ => none
  | depth + 1, p =>
    match heap[p]? with
    | none => none
    | some cell =>
      match collect (cell.children.map (toTree heap depth)) with
      | none => none
      | some cs => some (.mk p cell.parent cs cell.fileInfo cell.path cell.level)

/-- The function `buildTree`: the tree of the returned root, and the returned
`error`.  When `os.Lstat` fails the error is printed and the root is built with
a nil `FileInfo`; the first iteration of the loop pops the root and
`getChildren` calls `IsDir` on it, which panics.  The root pointer always
denotes a tree in the heap the loop returns (`buildTree_returns`). -/
def buildTree (fs : FileSystem) (fuel : Nat) (path : String) (printFiles : Bool) :
    Except Fault (TreeItem × Option IOError) :=
  match fs.lstat path with
  | .error _ => .error .nilDereference
  | .ok fileInfo =>
    let root : Cell :=
      { parent := none, children := [], fileInfo := fileInfo, path := path, level := 0 }
    match buildLoop fs printFiles fuel [root] [0] with
    | .error e => .error e
    | .ok heap =>
      match toTree heap heap.length 0 with
      | none => .error .nilDereference
      | some tree => .ok (tree, none)

/-- The function `dirTree`: the byte strings written to `out`, and the returned
`error`. -/
def dirTree (fs : FileSystem) (fuel : Nat) (path : String) (printFiles : Bool) :
    Except Fault (List String × Option IOError) :=
  match buildTree fs fuel path printFiles with
  | .error e => .error e
  | .ok (_, some err) => .ok ([], some err)
  | .ok (root, none) =>
    match printTree root with
    | .error e => .error e
    | .ok (written, _) => .ok (written, none)

/-! ## Notions of the specification -/

/-- The size annotation of the specification: nothing for a directory,
`" (empty)"` for a plain file of size zero, `" (<size>b)"` otherwise. -/
def sizeNote (info : FileInfo) : String :=
  if info.isDir then ""
  else if info.size = 0 then " (empty)"
  else " (" ++ toString info.size ++ "b)"

/-- The connector of a line. -/
def connector (isLast : Bool) : String := if isLast then "└───" else "├───"

/-- The indentation a node contributes to the lines of its descendants. -/
def segment (isLast : Bool) : String := if isLast then "\t" else "│\t"

/-- The addresses of the nodes of a log of writes, in the order of the writes. -/
def order (log : List (TreeItem × String)) : List Nat := log.map fun e => e.1.ptr

/-- The node `c` is written after every other node of `sibs`: it is the last
of its siblings in render order. -/
def renderedLast (ord : List Nat) (sibs : List TreeItem) (c : TreeItem) : Prop :=
  ∀ d ∈ sibs, d.ptr ≠ c.ptr → List.Sublist [d.ptr, c.ptr] ord

/-- Some other node of `sibs` is written after the node `c`. -/
def hasLaterSibling (ord : List Nat) (sibs : List TreeItem) (c : TreeItem) : Prop :=
  ∃ d ∈ sibs, d.ptr ≠ c.ptr ∧ List.Sublist [c.ptr, d.ptr] ord

/-- No node of `sibs` has a name greater than the name of `c`. -/
def lastByName (sibs : List TreeItem) (c : TreeItem) : Bool :=
  sibs.all fun d => !lessAsc c d

/-- A string made of continuation bars and tabs only. -/
def isIndent (s : String) : Prop := ∀ ch ∈ s.toList, ch = '│' ∨ ch = '\t'

/-- A chain of nodes, the first among `sibs`, each next one a child of the one
before it. -/
def isChain : List TreeItem → List TreeItem → Prop
  | _, [] => True
  | sibs, a :: rest => a ∈ sibs ∧ isChain a.children rest

/-- The siblings among which the node following a chain is found: the children
of the last node of the chain. -/
def kidsAt : List TreeItem → List TreeItem → List TreeItem
  | sibs, [] => sibs
  | _, a :: rest => kidsAt a.children rest

/-- The indentation segments contributed by the nodes of a chain. -/
def segsOf : List TreeItem → List TreeItem → List String
  | _, [] => []
  | sibs, a :: rest => segment (lastByName sibs a) :: segsOf a.children rest

/-- The indentation `printLine` builds from the entries of `levels`. -/
def indentOf : List Bool → String
  | [] => ""
  | b :: bs => (if b then "│\t" else "\t") ++ indentOf bs

/-! ## Invariant of the builder -/

/-- The entries of a listing that `buildTree` retains. -/
def kept (printFiles : Bool) (files : List FileInfo) : List FileInfo :=
  files.filter fun f => f.isDir || (printFiles && !f.isDir)

/-- The cell `buildTree` allocates for the entry `file` of the directory at
address `curr`. -/
def childCell (curr : Nat) (currPath : String) (currLevel : Int) (file : FileInfo) : Cell :=
  { parent := some curr, children := [], fileInfo := file,
    path := currPath ++ "/" ++ file.name, level := currLevel + 1 }

/-- The cell at address `p` has been expanded: its children are, in order, the
cells of the retained entries of its listing, each one level below it, at a
greater address, with the path of the entry and `p` as parent. -/
def Expanded (fs : FileSystem) (printFiles : Bool) (heap : List Cell) (p : Nat) (cell : Cell) :
    Prop :=
  List.Forall₂
    (fun q f => p < q ∧ ∃ c : Cell, heap[q]? = some c ∧ c.fileInfo = f ∧
      c.path = cell.path ++ "/" ++ f.name ∧ c.level = cell.level + 1 ∧ c.parent = some p)
    cell.children (kept printFiles (getChildren fs cell).1)

/-- The invariant of the loop of `buildTree`: the addresses on the stack are
distinct cells of the heap without children, and every other cell is expanded. -/
def BuildInv (fs : FileSystem) (printFiles : Bool) (heap : List Cell) (stack : List Nat) :
    Prop :=
  (∀ p ∈ stack, p < heap.length) ∧ stack.Nodup ∧
  (∀ (p : Nat) (cell : Cell), heap[p]? = some cell → p ∈ stack → cell.children = []) ∧
  (∀ (p : Nat) (cell : Cell), heap[p]? = some cell → p ∉ stack →
    Expanded fs printFiles heap p cell)

/-- The heap `heap'` holds every cell of `heap`, with the same fields except
possibly `children`. -/
def Extends (heap heap' : List Cell) : Prop :=
  ∀ (q : Nat) (c : Cell), heap[q]? = some c → ∃ c' : Cell, heap'[q]? = some c' ∧
    c'.fileInfo = c.fileInfo ∧
    c'.path = c.path ∧ c'.level = c.level ∧ c'.parent = c.parent

/-! ## Examples -/

/-- The example file system of the specification: `/a` holds the empty
directory `b` and the file `c.txt` of 5 bytes. -/
def exampleFS : FileSystem where
  lstat := fun p =>
    if p = "/a" then .ok ⟨"a", 4096, true⟩
    else if p = "/a/b" then .ok ⟨"b", 4096, true⟩
    else if p = "/a/c.txt" then .ok ⟨"c.txt", 5, false⟩
    else .error ⟨"no such file or directory"⟩
  readdir := fun p =>
    if p = "/a" then .ok [⟨"c.txt", 5, false⟩, ⟨"b", 4096, true⟩]
    else if p = "/a/b" then .ok []
    else .error ⟨"not a directory"⟩


/-- The directory `/a/b/d/q` of `exampleTree`. -/
def exampleQ : TreeItem := .mk 5 (some 4) [] ⟨"q", 4096, true⟩ "/a/b/d/q" 3

/-- The directory `/a/b/d` of `exampleTree`. -/
def exampleD : TreeItem := .mk 4 (some 2) [exampleQ] ⟨"d", 4096, true⟩ "/a/b/d" 2

/-- The empty file `/a/b/z` of `exampleTree`. -/
def exampleZ : TreeItem := .mk 3 (some 2) [] ⟨"z", 0, false⟩ "/a/b/z" 2

/-- The directory `/a/b` of `exampleTree`. -/
def exampleB : TreeItem := .mk 2 (some 0) [exampleZ, exampleD] ⟨"b", 4096, true⟩ "/a/b" 1

/-- The file `/a/c.txt`, of 5 bytes, of `exampleTree`. -/
def exampleC : TreeItem := .mk 1 (some 0) [] ⟨"c.txt", 5, false⟩ "/a/c.txt" 1

/-- The tree of a directory `/a` holding the file `c.txt` and the directory
`b`, itself holding the file `z` and the directory `d`, which holds the
directory `q`; the children are listed in descending order of name. -/
def exampleTree : TreeItem := .mk 0 none [exampleC, exampleB] ⟨"a", 4096, true⟩ "/a" 0

/-- The tree `buildTree` returns on `exampleFS` with the files included. -/
def exampleBuilt : TreeItem :=
  .mk 0 none
    [.mk 1 (some 0) [] ⟨"c.txt", 5, false⟩ "/a/c.txt" 1,
     .mk 2 (some 0) [] ⟨"b", 4096, true⟩ "/a/b" 1]
    ⟨"a", 4096, true⟩ "/a" 0

/-! ## Entry point -/

/-- The ways a run of `main` ends: the panic with the usage message, the panic
with the message of the error `dirTree` returned, a run-time panic inside
`dirTree`, or the return of `main` after the writes to standard output. -/
inductive Outcome where
  | usagePanic
  | errorPanic (msg : String)
  | fault (f : Fault)
  | done (written : List String)
deriving DecidableEq, Repr

/-- The end of `main` once `dirTree` is over: `panic(err.Error())` on a
non-nil error. -/
def finish : Except Fault (List String × Option IOError) → Outcome
  | .error f => .fault f
  | .ok (_, some err) => .errorPanic err.msg
  | .ok (written, none) => .done written

/-- The function `main` on the argument vector `os.Args`, the call of `dirTree`
being the parameter `run`. -/
def mainWith (run : String → Bool → Except Fault (List String × Option IOError))
    (args : List String) : Outcome :=
  if !(args.length == 2 || args.length == 3) then .usagePanic
  else
    match args[1]? with
    | none => .fault .indexOutOfRange
    | some path =>
      let printFiles := args.length == 3 && args[2]? == some "-f"
      finish (run path printFiles)

/-- The function `main`. -/
def main (fs : FileSystem) (fuel : Nat) (args : List String) : Outcome :=
  mainWith (dirTree fs fuel) args

/-! ## One iteration of the queue loop -/

/-- The body of the queue loop of `printTree`, run on the dequeued node, the rest
of the queue and `levels`: the new queue, the new `levels` and the line written. -/
def printStep (treeItem : TreeItem) (queue : List TreeItem) (levels : List Bool) :
    Except Fault (List TreeItem × List Bool × String) :=
  match (if (levels.length : Int) ≤ treeItem.level then .ok (levels ++ [true])
    else setLevel levels treeItem.level true) with
  | .error e => .error e
  | .ok levels =>
    let children := sortSlice lessDesc treeItem.children
    let more : Bool :=
      match queue with
      | [] => false
      | next :: _ => decide (treeItem.level = next.level)
    match (if !more then setLevel levels treeItem.level false else .ok levels) with
    | .error e => .error e
    | .ok levels =>
      match printLine treeItem levels (!more) with
      | .error e => .error e
      | .ok line => .ok (children.foldl prepend queue, levels, line)

/-- The queue and `levels` after `k` iterations of the queue loop (fewer when
the queue empties before). -/
def loopStates : Nat → List TreeItem → List Bool → Except Fault (List TreeItem × List Bool)
  | 0, queue, levels => .ok (queue, levels)
  | _ + 1, [], levels => .ok ([], levels)
  | k + 1, treeItem :: queue, levels =>
    match printStep treeItem queue levels with
    | .error e => .error e
    | .ok next => loopStates k next.1 next.2.1

/-- The queue with which `printTree` enters its loop. -/
def initialQueue (root : TreeItem) : List TreeItem :=
  (sortSlice lessAsc root.children).reverse.foldl prepend []

/-- The invariant of the queue loop on trees whose children are one level below
their parents: every queued node is at a level between 1 and `len(levels)`. -/
def QueueInv (queue : List TreeItem) (levels : List Bool) : Prop :=
  ∀ c ∈ queue, 1 ≤ c.level ∧ c.level ≤ levels.length ∧ levelsOk c = true

/-! ## Trees that differ in the order of children -/

/-- The tree on the right is the tree on the left with the `Children` list of
some nodes in another order: the two nodes have the same `FileInfo`, `Path` and
`Level`, and the children on the right are, up to a permutation, the children
on the left, reordered in turn.  The addresses of the nodes, and with them the
`Parent` pointers, are not compared: `buildTree` allocates the nodes in the
order of the listings, so that two listing orders of one directory give the
same nodes at other addresses. -/
inductive Reordered : TreeItem → TreeItem → Prop where
  | node (p p' : Nat) (q q' : Option Nat) (f : FileInfo) (s : String) (l : Int)
      (cs mid cs' : List TreeItem) :
      List.Forall₂ Reordered cs mid → mid.Perm cs' →
      Reordered (.mk p q cs f s l) (.mk p' q' cs' f s l)

/-- The tree `exampleTree` with the children of `/a` and of `/a/b` in the other
order. -/
def exampleSwapped : TreeItem :=
  .mk 0 none
    [.mk 2 (some 0) [exampleD, exampleZ] ⟨"b", 4096, true⟩ "/a/b" 1, exampleC]
    ⟨"a", 4096, true⟩ "/a" 0

/-! ## The shape of the built tree -/

/-- The entries `getChildren` returns for a node with the given `FileInfo` and
path: the listing of a directory, nothing for a plain file or when the listing
fails. -/
def entriesOf (fs : FileSystem) (info : FileInfo) (path : String) : List FileInfo :=
  if info.isDir then
    match fs.readdir path with
    | .error _ => []
    | .ok files => files
  else []

/-- The node is expanded as `buildTree` does it: its children are, in order,
the retained entries of its listing, one level below it, under its path. -/
def ExpandedNode (fs : FileSystem) (printFiles : Bool) (n : TreeItem) : Prop :=
  n.children.map (fun c => c.fileInfo) = kept printFiles (entriesOf fs n.fileInfo n.path) ∧
  ∀ c ∈ n.children, c.level = n.level + 1 ∧ c.path = n.path ++ "/" ++ c.fileInfo.name

/-- Every node of the tree is expanded as `buildTree` does it. -/
def Conforms (fs : FileSystem) (printFiles : Bool) (t : TreeItem) : Prop :=
  ∀ n ∈ nodes t, ExpandedNode fs printFiles n

mutual
/-- The tree without its addresses: `ptr` and `Parent` are forgotten, the
structure and the other fields are kept. -/
def eraseAddr : TreeItem → TreeItem
  | .mk _ _ cs f s l => .mk 0 none (eraseAddrL cs) f s l
/-- The forest without its addresses. -/
def eraseAddrL : List TreeItem → List TreeItem
  | [] => []
  | c :: cs => eraseAddr c :: eraseAddrL cs
end

/-- The listing of the path fails. -/
def readdirFails (fs : FileSystem) (path : String) : Bool :=
  match fs.readdir path with
  | .error _ => true
  | .ok _ => false

mutual
/-- The tree in which every directory whose listing fails has lost its
children. -/
def pruneFailed (fs : FileSystem) : TreeItem → TreeItem
  | .mk p q cs f s l =>
    .mk p q (if f.isDir && readdirFails fs s then [] else pruneFailedL fs cs) f s l
/-- The forest in which every directory whose listing fails has lost its
children. -/
def pruneFailedL (fs : FileSystem) : List TreeItem → List TreeItem
  | [] => []
  | c :: cs => pruneFailed fs c :: pruneFailedL fs cs
end

mutual
/-- The tree without the plain files below the root. -/
def dirsOnly : TreeItem → TreeItem
  | .mk p q cs f s l => .mk p q (dirsOnlyL cs) f s l
/-- The directories of a forest, without the plain files below them. -/
def dirsOnlyL : List TreeItem → List TreeItem
  | [] => []
  | c :: cs => if c.fileInfo.isDir then dirsOnly c :: dirsOnlyL cs else dirsOnlyL cs
end

/-- A deeper file system, the one `exampleTree` is built from: `/a` holds the
file `c.txt` and the directory `b`, which holds the empty file `z` and the
directory `d`, which holds the empty directory `q`. -/
def exampleDeepFS : FileSystem where
  lstat := fun p =>
    if p = "/a" then .ok ⟨"a", 4096, true⟩
    else .error ⟨"no such file or directory"⟩
  readdir := fun p =>
    if p = "/a" then .ok [⟨"c.txt", 5, false⟩, ⟨"b", 4096, true⟩]
    else if p = "/a/b" then .ok [⟨"z", 0, false⟩, ⟨"d", 4096, true⟩]
    else if p = "/a/b/d" then .ok [⟨"q", 4096, true⟩]
    else if p = "/a/b/d/q" then .ok []
    else .error ⟨"not a directory"⟩

/-- The file system `exampleDeepFS` in which the directory `/a/b` cannot be
listed. -/
def exampleFailFS : FileSystem where
  lstat := exampleDeepFS.lstat
  readdir := fun p =>
    if p = "/a/b" then .error ⟨"permission denied"⟩ else exampleDeepFS.readdir p

/-- The tree `buildTree` returns on `exampleDeepFS` with the files excluded. -/
def exampleDirs : TreeItem :=
  .mk 0 none
    [.mk 1 (some 0)
      [.mk 2 (some 1) [.mk 3 (some 2) [] ⟨"q", 4096, true⟩ "/a/b/d/q" 3]
        ⟨"d", 4096, true⟩ "/a/b/d" 2]
      ⟨"b", 4096, true⟩ "/a/b" 1]
    ⟨"a", 4096, true⟩ "/a" 0

/-- The file system `exampleFS` with the entries of `/a` listed in the other
order. -/
def exampleSwapFS : FileSystem where
  lstat := exampleFS.lstat
  readdir := fun p =>
    if p = "/a" then .ok [⟨"b", 4096, true⟩, ⟨"c.txt", 5, false⟩]
    else exampleFS.readdir p

/-- The tree `buildTree` returns on `exampleSwapFS` with the files included:
the nodes of `exampleBuilt`, allocated in the other order. -/
def exampleBuiltSwapped : TreeItem :=
  .mk 0 none
    [.mk 1 (some 0) [] ⟨"b", 4096, true⟩ "/a/b" 1,
     .mk 2 (some 0) [] ⟨"c.txt", 5, false⟩ "/a/c.txt" 1]
    ⟨"a", 4096, true⟩ "/a" 0

/-- The listings of two file systems agree up to the order of the entries: a
listing fails in both, or returns a permutation of the same entries. -/
def SameListings (fs fs2 : FileSystem) : Prop :=
  ∀ p, (readdirFails fs p = true ∧ readdirFails fs2 p = true) ∨
    ∃ l l2, fs.readdir p = .ok l ∧ fs2.readdir p = .ok l2 ∧ l.Perm l2

/-! ## Sorting -/

theorem lessAsc_iff (a b : TreeItem) :
    lessAsc a b = true ↔ a.fileInfo.name < b.fileInfo.name := by
  simp [lessAsc, nameLess, String.lt_iff_toList_lt]

theorem lessDesc_iff (a b : TreeItem) :
    lessDesc a b = true ↔ b.fileInfo.name < a.fileInfo.name := by
  simp [lessDesc, nameLess, String.lt_iff_toList_lt]

theorem insertSorted_perm (less : TreeItem → TreeItem → Bool) (x : TreeItem)
    (l : List TreeItem) : (insertSorted less x l).Perm (x :: l) := by
  induction l with
  | nil => simp [insertSorted]
  | cons y ys ih =>
    unfold insertSorted
    split
    · exact List.Perm.refl _
    · exact (List.Perm.cons y ih).trans (List.Perm.swap x y ys)

theorem sortSlice_perm (less : TreeItem → TreeItem → Bool) (l : List TreeItem) :
    (sortSlice less l).Perm l := by
  induction l with
  | nil => simp [sortSlice]
  | cons x xs ih =>
    unfold sortSlice
    exact (insertSorted_perm less x _).trans (List.Perm.cons x ih)

theorem mem_sortSlice (less : TreeItem → TreeItem → Bool) (l : List TreeItem) (c : TreeItem) :
    c ∈ sortSlice less l ↔ c ∈ l :=
  (sortSlice_perm less l).mem_iff

theorem insertSorted_pairwise (less : TreeItem → TreeItem → Bool) (r : TreeItem → TreeItem → Prop)
    (hyes : ∀ a b, less a b = true → r a b) (hno : ∀ a b, less a b = false → r b a)
    (htrans : ∀ a b c, r a b → r b c → r a c) (x : TreeItem) (l : List TreeItem)
    (hl : l.Pairwise r) : (insertSorted less x l).Pairwise r := by
  induction l with
  | nil => simp [insertSorted]
  | cons y ys ih =>
    unfold insertSorted
    rw [List.pairwise_cons] at hl
    split
    · rename_i h
      refine List.pairwise_cons.2 ⟨?_, List.pairwise_cons.2 hl⟩
      intro z hz
      rcases List.mem_cons.1 hz with rfl | hz
      · exact hyes _ _ h
      · exact htrans _ _ _ (hyes _ _ h) (hl.1 z hz)
    · rename_i h
      refine List.pairwise_cons.2 ⟨?_, ih hl.2⟩
      intro z hz
      rcases List.mem_cons.1 ((insertSorted_perm less x ys).mem_iff.1 hz) with rfl | hz
      · exact hno _ _ (by simpa using h)
      · exact hl.1 z hz

theorem sortSlice_pairwise (less : TreeItem → TreeItem → Bool) (r : TreeItem → TreeItem → Prop)
    (hyes : ∀ a b, less a b = true → r a b) (hno : ∀ a b, less a b = false → r b a)
    (htrans : ∀ a b c, r a b → r b c → r a c) (l : List TreeItem) :
    (sortSlice less l).Pairwise r := by
  induction l with
  | nil => simp [sortSlice]
  | cons x xs ih =>
    unfold sortSlice
    exact insertSorted_pairwise less r hyes hno htrans x _ ih

/-- The ascending sort of siblings with distinct names is strictly ascending. -/
theorem sortAsc_sorted (l : List TreeItem) (hl : (l.map fun c => c.fileInfo.name).Nodup) :
    (sortSlice lessAsc l).Pairwise (fun a b => a.fileInfo.name < b.fileInfo.name) := by
  have h1 : (sortSlice lessAsc l).Pairwise (fun a b => a.fileInfo.name ≤ b.fileInfo.name) := by
    apply sortSlice_pairwise
    · intro a b h
      exact le_of_lt ((lessAsc_iff a b).1 h)
    · intro a b h
      have : ¬ a.fileInfo.name < b.fileInfo.name := by
        rw [← lessAsc_iff]; simp [h]
      exact not_lt.1 this
    · intro a b c
      exact le_trans
  have h2 : (sortSlice lessAsc l).Pairwise (fun a b => a.fileInfo.name ≠ b.fileInfo.name) := by
    have : ((sortSlice lessAsc l).map fun c => c.fileInfo.name).Nodup :=
      ((sortSlice_perm lessAsc l).map _).nodup_iff.2 hl
    exact (List.pairwise_map.1 this)
  exact (h1.and h2).imp (fun h => lt_of_le_of_ne h.1 h.2)

/-- The descending sort of siblings with distinct names, read backwards, is
strictly ascending. -/
theorem sortDesc_reverse_sorted (l : List TreeItem)
    (hl : (l.map fun c => c.fileInfo.name).Nodup) :
    (sortSlice lessDesc l).reverse.Pairwise (fun a b => a.fileInfo.name < b.fileInfo.name) := by
  have h1 : (sortSlice lessDesc l).Pairwise (fun a b => b.fileInfo.name ≤ a.fileInfo.name) := by
    apply sortSlice_pairwise
    · intro a b h
      exact le_of_lt ((lessDesc_iff a b).1 h)
    · intro a b h
      have : ¬ b.fileInfo.name < a.fileInfo.name := by
        rw [← lessDesc_iff]; simp [h]
      exact not_lt.1 this
    · intro a b c h1 h2
      exact le_trans h2 h1
  have h2 : (sortSlice lessDesc l).Pairwise (fun a b => b.fileInfo.name ≠ a.fileInfo.name) := by
    have : ((sortSlice lessDesc l).map fun c => c.fileInfo.name).Nodup :=
      ((sortSlice_perm lessDesc l).map _).nodup_iff.2 hl
    exact (List.pairwise_map.1 this).imp (fun h => Ne.symm h)
  rw [List.pairwise_reverse]
  exact (h1.and h2).imp (fun h => lt_of_le_of_ne h.1 h.2)

/-- A strictly ascending arrangement of siblings is unique: whatever algorithm
`sort.Slice` runs, on siblings with distinct names it returns `sortSlice`. -/
theorem sortSlice_unique (l sorted : List TreeItem)
    (hperm : sorted.Perm l)
    (hsorted : sorted.Pairwise (fun a b => a.fileInfo.name < b.fileInfo.name)) :
    sorted = sortSlice lessAsc l := by
  have hl : (l.map fun c => c.fileInfo.name).Nodup := by
    have : (sorted.map fun c => c.fileInfo.name).Nodup :=
      List.pairwise_map.2 (hsorted.imp (fun h => ne_of_lt h))
    exact ((hperm.map _).nodup_iff).1 this
  refine List.Perm.eq_of_sorted ?_ hsorted (sortAsc_sorted l hl)
    (hperm.trans (sortSlice_perm lessAsc l).symm)
  intro a b _ _ h1 h2
  exact absurd h1 (not_lt_of_gt h2)

/-- Pushing the descending sort to the front one by one leaves the ascending
sort at the front. -/
theorem sortDesc_reverse (l : List TreeItem) (hl : (l.map fun c => c.fileInfo.name).Nodup) :
    (sortSlice lessDesc l).reverse = sortSlice lessAsc l :=
  sortSlice_unique l _ ((List.reverse_perm _).trans (sortSlice_perm lessDesc l))
    (sortDesc_reverse_sorted l hl)

theorem foldl_prepend (l queue : List TreeItem) :
    l.foldl prepend queue = l.reverse ++ queue := by
  induction l generalizing queue with
  | nil => rfl
  | cons x xs ih => simp [List.foldl_cons, ih, prepend]

theorem sizeL_append (l₁ l₂ : List TreeItem) : sizeL (l₁ ++ l₂) = sizeL l₁ + sizeL l₂ := by
  induction l₁ with
  | nil => simp [sizeL]
  | cons x xs ih => simp [sizeL, ih, Nat.add_assoc]

theorem sizeL_perm {l₁ l₂ : List TreeItem} (h : l₁.Perm l₂) : sizeL l₁ = sizeL l₂ := by
  induction h with
  | nil => rfl
  | cons x _ ih => simp [sizeL, ih]
  | swap x y l => simp [sizeL]; omega
  | trans _ _ ih1 ih2 => exact ih1.trans ih2

theorem sizeL_sortSlice (less : TreeItem → TreeItem → Bool) (l : List TreeItem) :
    sizeL (sortSlice less l) = sizeL l :=
  sizeL_perm (sortSlice_perm less l)

theorem size_eq (c : TreeItem) : size c = 1 + sizeL c.children := by
  cases c
  simp [size, TreeItem.children]

/-! ## The recursive renderer of the specification

Its termination rests on `sizeL_sortSlice`: sorting does not change the number
of nodes of a forest. -/

/-- The lines of the recursive renderer for a list of siblings already in
ascending order, each line paired with its node. -/
def recLog (pre : String) : List TreeItem → List (TreeItem × String)
  | [] => []
  | c :: rest =>
    (c, pre ++ connector rest.isEmpty ++ c.fileInfo.name ++ sizeNote c.fileInfo ++ "\n")
      :: (recLog (pre ++ segment rest.isEmpty) (sortSlice lessAsc c.children) ++ recLog pre rest)
termination_by cs => sizeL cs
decreasing_by
  · simp only [sizeL, size_eq, sizeL_sortSlice]; omega
  · simp only [sizeL, size_eq]; omega

/-- The text the recursive renderer of the specification emits for a list of
siblings in ascending order: for each child `c` the line
`pre + connector + name + annotation + newline`, followed by the text for the
children of `c`, in ascending order of name, under the extended indentation. -/
def recChildren (pre : String) : List TreeItem → String
  | [] => ""
  | c :: rest =>
    pre ++ (if rest.isEmpty then "└───" else "├───") ++ c.fileInfo.name
        ++ sizeNote c.fileInfo ++ "\n"
      ++ recChildren (pre ++ (if rest.isEmpty then "\t" else "│\t"))
          (sortSlice lessAsc c.children)
      ++ recChildren pre rest
termination_by cs => sizeL cs
decreasing_by
  · simp only [sizeL, size_eq, sizeL_sortSlice]; omega
  · simp only [sizeL, size_eq]; omega

/-- The renderer `rec(prefix, n)` of the specification. -/
def recRender (pre : String) (n : TreeItem) : String :=
  recChildren pre (sortSlice lessAsc n.children)

/-! ## The queue loop is the recursive renderer -/

theorem forest_induction (P : List TreeItem → Prop) (hnil : P [])
    (hcons : ∀ c rest, P (sortSlice lessAsc c.children) → P rest → P (c :: rest)) :
    ∀ cs, P cs := by
  have key : ∀ n cs, sizeL cs ≤ n → P cs := by
    intro n
    induction n with
    | zero =>
      intro cs h
      cases cs with
      | nil => exact hnil
      | cons c rest => simp [sizeL, size_eq] at h
    | succ n ih =>
      intro cs h
      cases cs with
      | nil => exact hnil
      | cons c rest =>
        simp only [sizeL, size_eq] at h
        apply hcons
        · apply ih
          rw [sizeL_sortSlice]
          omega
        · apply ih
          omega
  intro cs
  exact key _ cs (le_refl _)

theorem indentOf_append (l₁ l₂ : List Bool) :
    indentOf (l₁ ++ l₂) = indentOf l₁ ++ indentOf l₂ := by
  induction l₁ with
  | nil => simp [indentOf]
  | cons b bs ih => simp [indentOf, ih, String.append_assoc]

theorem indentLoop_eq (levels : List Bool) (n i : Nat) (acc : String)
    (h : i + n ≤ levels.length) :
    indentLoop levels i n acc = .ok (acc ++ indentOf ((levels.drop i).take n)) := by
  induction n generalizing i acc with
  | zero => simp [indentLoop, indentOf]
  | succ n ih =>
    have hi : i < levels.length := by omega
    have hd : levels.drop i = levels[i] :: levels.drop (i + 1) := by
      simp
    rw [indentLoop, getLevel, List.getElem?_eq_getElem hi]
    simp only
    rw [ih (i + 1) _ (by omega), hd, List.take_succ_cons, indentOf]
    cases levels[i] <;> simp [String.append_assoc]

/-- The line `printLine` writes for a node at level `base.length`, when `levels`
starts with `base`: only the entries `1 .. Level - 1` are read. -/
theorem printLine_eq (item : TreeItem) (base rest : List Bool) (isLast : Bool)
    (hbase : base ≠ []) (hlevel : item.level = base.length) :
    printLine item (base ++ rest) isLast =
      .ok (indentOf base.tail ++ connector isLast ++ item.fileInfo.name
        ++ sizeNote item.fileInfo ++ "\n") := by
  obtain ⟨b, bs, rfl⟩ := List.exists_cons_of_ne_nil hbase
  have hn : (item.level - 1).toNat = bs.length := by
    rw [hlevel]; simp
  have hloop := indentLoop_eq ((b :: bs) ++ rest) bs.length 1 "" (by simp; omega)
  have hdrop : (List.drop 1 ((b :: bs) ++ rest)).take bs.length = bs := by
    simp
  rw [hdrop] at hloop
  unfold printLine
  rw [hn, hloop]
  simp only [List.tail_cons, connector, sizeNote]
  cases isLast <;> cases hd : item.fileInfo.isDir <;> by_cases hs : item.fileInfo.size = 0 <;>
    simp [hs, String.append_assoc]

theorem recLog_cons (pre : String) (c : TreeItem) (rest : List TreeItem) :
    recLog pre (c :: rest) =
      (c, pre ++ connector rest.isEmpty ++ c.fileInfo.name ++ sizeNote c.fileInfo ++ "\n")
        :: (recLog (pre ++ segment rest.isEmpty) (sortSlice lessAsc c.children)
          ++ recLog pre rest) := by
  rw [recLog]

theorem recLog_nil (pre : String) : recLog pre [] = [] := by
  rw [recLog]

theorem levelsOkL_iff (l : Int) (cs : List TreeItem) :
    levelsOkL l cs = true ↔ ∀ c ∈ cs, c.level = l + 1 ∧ levelsOk c = true := by
  induction cs with
  | nil => simp [levelsOkL]
  | cons c cs ih => simp [levelsOkL, ih, and_assoc]

theorem levelsOk_iff (c : TreeItem) :
    levelsOk c = true ↔ ∀ d ∈ c.children, d.level = c.level + 1 ∧ levelsOk d = true := by
  cases c
  simp [levelsOk, levelsOkL_iff, TreeItem.children, TreeItem.level]

theorem namesOkL_iff (cs : List TreeItem) :
    namesOkL cs = true ↔ ∀ c ∈ cs, namesOk c = true := by
  induction cs with
  | nil => simp [namesOkL]
  | cons c cs ih => simp [namesOkL, ih]

theorem namesOk_iff (c : TreeItem) :
    namesOk c = true ↔
      (c.children.map fun d => d.fileInfo.name).Nodup ∧ ∀ d ∈ c.children, namesOk d = true := by
  cases c
  simp [namesOk, namesOkL_iff, TreeItem.children]

/-- One iteration of the queue loop on a node at level `base.length`, with
`levels` starting with `base`. -/
theorem printLoop_step (fuel : Nat) (c : TreeItem) (queue : List TreeItem)
    (base tail : List Bool) (out : List (TreeItem × String)) (more : Bool)
    (hbase : base ≠ []) (hlevel : c.level = base.length)
    (hmore : more = match queue with
      | [] => false
      | next :: _ => decide (c.level = next.level)) :
    printLoop (fuel + 1) (c :: queue) (base ++ tail) out =
      printLoop fuel ((sortSlice lessDesc c.children).reverse ++ queue)
        ((base ++ [more]) ++ tail.drop 1)
        (out ++ [(c, indentOf base.tail ++ connector (!more) ++ c.fileInfo.name
          ++ sizeNote c.fileInfo ++ "\n")]) := by
  have h1 : (if ((base ++ tail).length : Int) ≤ c.level then
        (Except.ok ((base ++ tail) ++ [true]) : Except Fault (List Bool))
      else setLevel (base ++ tail) c.level true) = .ok (base ++ true :: tail.drop 1) := by
    cases tail with
    | nil => simp [hlevel]
    | cons t ts =>
      have : ¬ (((base ++ t :: ts).length : Int) ≤ c.level) := by
        rw [hlevel]; simp
      rw [if_neg this, setLevel, hlevel]
      simp
  have h2 : (if (!more) = true then setLevel (base ++ true :: tail.drop 1) c.level false
      else Except.ok (base ++ true :: tail.drop 1)) = .ok (base ++ more :: tail.drop 1) := by
    cases more
    · simp [setLevel, hlevel]
    · simp
  have h3 := printLine_eq c base (more :: tail.drop 1) (!more) hbase hlevel
  simp only [printLoop, h1, ← hmore, h2, h3, foldl_prepend]
  simp

/-- The queue loop, started on a run of siblings in ascending order followed by
nodes of lower level, writes the lines of the recursive renderer for those
siblings and carries on with the rest of the queue. -/
theorem printLoop_forest : ∀ (cs : List TreeItem) (base tail : List Bool) (rest : List TreeItem)
    (out : List (TreeItem × String)), base ≠ [] →
    (∀ c ∈ cs, c.level = base.length ∧ levelsOk c = true ∧ namesOk c = true) →
    cs.Pairwise (fun a b => a.fileInfo.name < b.fileInfo.name) →
    (∀ r ∈ rest.head?, r.level < base.length) →
    ∃ tail', ∀ fuel, printLoop (fuel + sizeL cs) (cs ++ rest) (base ++ tail) out =
      printLoop fuel rest (base ++ tail') (out ++ recLog (indentOf base.tail) cs) := by
  intro cs
  induction cs using forest_induction with
  | hnil =>
    intro base tail rest out _ _ _ _
    exact ⟨tail, fun fuel => by simp [sizeL, recLog_nil]⟩
  | hcons c cs ih1 ih2 =>
    intro base tail rest out hbase hall hsorted hrest
    have hc := hall c (List.mem_cons_self _ _)
    have hmore : (!cs.isEmpty) = match cs ++ rest with
        | [] => false
        | next :: _ => decide (c.level = next.level) := by
      cases cs with
      | nil =>
        cases rest with
        | nil => simp
        | cons r rs =>
          have := hrest r (by simp)
          have hne : c.level ≠ r.level := by rw [hc.1]; omega
          simp [hne]
      | cons d ds =>
        have := (hall d (by simp)).1
        simp [hc.1, this]
    obtain ⟨hnodup, hkids⟩ := (namesOk_iff c).1 hc.2.2
    have hlev := (levelsOk_iff c).1 hc.2.1
    obtain ⟨t1, h1⟩ := ih1 (base ++ [!cs.isEmpty]) (tail.drop 1) (cs ++ rest)
      (out ++ [(c, indentOf base.tail ++ connector (!!cs.isEmpty) ++ c.fileInfo.name
          ++ sizeNote c.fileInfo ++ "\n")]) (by simp)
      (by
        intro d hd
        rw [mem_sortSlice] at hd
        refine ⟨?_, (hlev d hd).2, hkids d hd⟩
        rw [(hlev d hd).1, hc.1]
        simp)
      (sortAsc_sorted _ hnodup)
      (by
        intro r hr
        cases cs with
        | nil =>
          have := hrest r (by simpa using hr)
          simp; omega
        | cons d ds =>
          simp at hr
          subst hr
          rw [(hall d (by simp)).1]
          simp)
    obtain ⟨t2, h2⟩ := ih2 base ((!cs.isEmpty) :: t1) rest
      ((out ++ [(c, indentOf base.tail ++ connector (!!cs.isEmpty) ++ c.fileInfo.name
          ++ sizeNote c.fileInfo ++ "\n")])
        ++ recLog (indentOf (base ++ [!cs.isEmpty]).tail) (sortSlice lessAsc c.children))
      hbase (fun d hd => hall d (List.mem_cons_of_mem _ hd))
      (List.pairwise_cons.1 hsorted).2 hrest
    refine ⟨t2, fun fuel => ?_⟩
    have hfuel : fuel + sizeL (c :: cs) =
        (fuel + sizeL cs + sizeL (sortSlice lessAsc c.children)) + 1 := by
      simp only [sizeL, size_eq, sizeL_sortSlice]; omega
    have hpre : indentOf (base ++ [!cs.isEmpty]).tail
        = indentOf base.tail ++ segment cs.isEmpty := by
      obtain ⟨b, bs, rfl⟩ := List.exists_cons_of_ne_nil hbase
      simp only [List.cons_append, List.tail_cons, indentOf_append, indentOf, segment]
      cases cs.isEmpty <;> simp
    rw [hfuel, List.cons_append,
      printLoop_step _ c (cs ++ rest) base tail out (!cs.isEmpty) hbase hc.1 hmore,
      sortDesc_reverse _ hnodup, h1 (fuel + sizeL cs)]
    have happ : (base ++ [!cs.isEmpty]) ++ t1 = base ++ (!cs.isEmpty) :: t1 := by simp
    rw [happ, h2 fuel, recLog_cons, hpre]
    simp

/-- On a tree with the root at level 0 and every child one level below its
parent, siblings bearing distinct names, `printTree` writes the lines of the
recursive renderer, one write per line. -/
theorem printTreeLog_eq (root : TreeItem) (h0 : root.level = 0)
    (hlev : levelsOk root = true) (hnames : namesOk root = true) :
    printTreeLog root = .ok (recLog "" (sortSlice lessAsc root.children)) := by
  unfold printTreeLog
  by_cases hlen : root.children.length = 0
  · have : root.children = [] := List.length_eq_zero.1 hlen
    simp [this, sortSlice, recLog_nil]
  · obtain ⟨hnodup, hkids⟩ := (namesOk_iff root).1 hnames
    have hl := (levelsOk_iff root).1 hlev
    obtain ⟨t, ht⟩ := printLoop_forest (sortSlice lessAsc root.children) [false] [] [] []
      (by simp)
      (by
        intro c hc
        rw [mem_sortSlice] at hc
        refine ⟨?_, (hl c hc).2, hkids c hc⟩
        rw [(hl c hc).1, h0]
        simp)
      (sortAsc_sorted _ hnodup) (by simp)
    have := ht 0
    simp only [Nat.zero_add, List.append_nil, sizeL_sortSlice, List.nil_append] at this
    simp only [hlen, if_false, foldl_prepend, List.reverse_reverse, List.append_nil]
    rw [this]
    simp [printLoop, indentOf]

theorem join_cons (a : String) (l : List String) : String.join (a :: l) = a ++ String.join l := by
  have key : ∀ (l : List String) (acc : String),
      List.foldl (fun r s => r ++ s) acc l = acc ++ List.foldl (fun r s => r ++ s) "" l := by
    intro l
    induction l with
    | nil => intro acc; simp
    | cons x xs ih =>
      intro acc
      rw [List.foldl_cons, List.foldl_cons, ih (acc ++ x), ih ("" ++ x)]
      simp [String.append_assoc]
  unfold String.join
  rw [List.foldl_cons, key l ("" ++ a)]
  simp

theorem join_append (l₁ l₂ : List String) :
    String.join (l₁ ++ l₂) = String.join l₁ ++ String.join l₂ := by
  induction l₁ with
  | nil => simp [String.join]
  | cons a l ih => rw [List.cons_append, join_cons, join_cons, ih, String.append_assoc]

theorem join_recLog : ∀ (cs : List TreeItem) (pre : String),
    String.join ((recLog pre cs).map Prod.snd) = recChildren pre cs := by
  intro cs
  induction cs using forest_induction with
  | hnil =>
    intro pre
    rw [recLog_nil, recChildren]
    rfl
  | hcons c rest ih1 ih2 =>
    intro pre
    rw [recLog_cons, recChildren, List.map_cons, List.map_append, join_cons, join_append,
      ih1, ih2]
    cases rest.isEmpty <;> simp [connector, segment, String.append_assoc]

/-- The text of the recursive renderer on `exampleTree`. -/
theorem recRender_example :
    recRender "" exampleTree
      = "├───b\n│\t├───d\n│\t│\t└───q\n│\t└───z (empty)\n└───c.txt (5b)\n" := by
  have h1 : nameLess "b" "c.txt" = true := by decide
  have h2 : nameLess "c.txt" "b" = false := by decide
  have h3 : nameLess "d" "z" = true := by decide
  have h4 : nameLess "z" "d" = false := by decide
  simp [recRender, recChildren, exampleTree, exampleB, exampleC, exampleD, exampleZ, exampleQ,
    sortSlice, insertSorted, lessAsc, h1, h2, h3, h4, sizeNote, TreeItem.children,
    TreeItem.fileInfo]
  rfl

/-! ## The renderer: refinement, empty root, size annotation -/

/-- C6: on every tree with the root at level 0, every child one level below its
parent and siblings bearing distinct names, `printTree` returns, and the
concatenation of the byte strings it writes is `rec("", root)`, the text of the
recursive depth-first renderer of the specification. -/
theorem printTree_eq_recRender (root : TreeItem) (h0 : root.level = 0)
    (hlev : levelsOk root = true) (hnames : namesOk root = true) :
    ∃ written, printTree root = .ok (written, none) ∧
      String.join written = recRender "" root := by
  refine ⟨(recLog "" (sortSlice lessAsc root.children)).map Prod.snd, ?_, ?_⟩
  · simp [printTree, printTreeLog_eq root h0 hlev hnames]
  · rw [join_recLog, recRender]

/-- Witness of C6 on `exampleTree`, with the five lines `printTree` writes and
the text of the recursive renderer. -/
theorem printTree_eq_recRender_witness :
    (exampleTree.level = 0 ∧ levelsOk exampleTree = true ∧ namesOk exampleTree = true) ∧
      printTree exampleTree
        = .ok (["├───b\n", "│\t├───d\n", "│\t│\t└───q\n", "│\t└───z (empty)\n",
            "└───c.txt (5b)\n"], none) ∧
      recRender "" exampleTree
        = "├───b\n│\t├───d\n│\t│\t└───q\n│\t└───z (empty)\n└───c.txt (5b)\n" ∧
      ∃ written, printTree exampleTree = .ok (written, none) ∧
        String.join written = recRender "" exampleTree :=
  ⟨by decide, by decide, recRender_example,
    printTree_eq_recRender exampleTree (by decide) (by decide) (by decide)⟩

/-- C10: for every root with zero children, whatever its other fields,
`printTree` writes nothing and returns the nil error. -/
theorem printTree_childless (root : TreeItem) (h : root.children.length = 0) :
    printTree root = .ok ([], none) := by
  simp [printTree, printTreeLog, h]

/-- Witness of C10: a directory without entries. -/
theorem printTree_childless_witness :
    (TreeItem.mk 0 none [] ⟨"a", 4096, true⟩ "/a" 0).children.length = 0 ∧
      printTree (TreeItem.mk 0 none [] ⟨"a", 4096, true⟩ "/a" 0) = .ok ([], none) :=
  ⟨by decide, printTree_childless _ (by decide)⟩

theorem toString_of_pos (n : Int) (h : 0 < n) : toString n = Nat.repr n.toNat := by
  obtain ⟨m, rfl⟩ := Int.eq_ofNat_of_zero_le (le_of_lt h)
  rfl

/-- C9: `printLine` returns whenever the entries of `levels` it reads exist,
and whenever it returns, the line is the indentation and the connector, the
name, the size annotation and a newline, where the annotation of a plain file is
`" (empty)"` for size 0 and `" (Nb)"`, `N` in decimal, for a size `N > 0`, and a
directory has no annotation whatever its size. -/
theorem printLine_sizeNote (item : TreeItem) (levels : List Bool) (isLast : Bool) :
    (item.level ≤ levels.length → levels ≠ [] →
      ∃ line, printLine item levels isLast = .ok line) ∧
    ∀ line, printLine item levels isLast = .ok line →
      ∃ indent, indentLoop levels 1 (item.level - 1).toNat "" = .ok indent ∧
        (item.fileInfo.isDir = false → item.fileInfo.size = 0 →
          line = indent ++ connector isLast ++ item.fileInfo.name ++ " (empty)" ++ "\n") ∧
        (item.fileInfo.isDir = false → 0 < item.fileInfo.size →
          line = indent ++ connector isLast ++ item.fileInfo.name
            ++ " (" ++ Nat.repr item.fileInfo.size.toNat ++ "b)" ++ "\n") ∧
        (item.fileInfo.isDir = true →
          line = indent ++ connector isLast ++ item.fileInfo.name ++ "\n") := by
  constructor
  · intro hlen hne
    have hloop := indentLoop_eq levels (item.level - 1).toNat 1 ""
      (by
        have : 0 < levels.length := List.length_pos.2 hne
        omega)
    unfold printLine
    rw [hloop]
    exact ⟨_, rfl⟩
  · intro line hline
    unfold printLine at hline
    cases hloop : indentLoop levels 1 (item.level - 1).toNat "" with
    | error e =>
      rw [hloop] at hline
      cases hline
    | ok indent =>
      rw [hloop] at hline
      simp only [Except.ok.injEq] at hline
      subst hline
      refine ⟨indent, rfl, ?_, ?_, ?_⟩
      · intro hd hs
        cases isLast <;> simp [hd, hs, connector]
      · intro hd hs
        have hne : item.fileInfo.size ≠ 0 := ne_of_gt hs
        cases isLast <;> simp [hd, hne, connector, toString_of_pos _ hs, String.append_assoc]
      · intro hd
        cases isLast <;> simp [hd, connector]

/-- Witness of C9: the line of a file of 5 bytes, last of its siblings, at
level 2 under a parent that has later siblings. -/
theorem printLine_sizeNote_witness :
    printLine (.mk 3 (some 2) [] ⟨"c.txt", 5, false⟩ "/a/b/c.txt" 2) [false, true, false] true
        = .ok "│\t└───c.txt (5b)\n" ∧
      ∃ indent, indentLoop [false, true, false] 1 1 "" = .ok indent ∧
        "│\t└───c.txt (5b)\n"
          = indent ++ connector true ++ "c.txt" ++ " (" ++ Nat.repr 5 ++ "b)" ++ "\n" := by
  refine ⟨by decide, ?_⟩
  obtain ⟨indent, h1, _, h2, _⟩ :=
    (printLine_sizeNote (.mk 3 (some 2) [] ⟨"c.txt", 5, false⟩ "/a/b/c.txt" 2)
      [false, true, false] true).2 "│\t└───c.txt (5b)\n" (by decide)
  exact ⟨indent, h1, h2 (by decide) (by decide)⟩

/-! ## The order of the writes -/

theorem nodes_eq (c : TreeItem) : nodes c = c :: nodesL c.children := by
  cases c
  simp [nodes, TreeItem.children]

theorem nodesL_append (l₁ l₂ : List TreeItem) : nodesL (l₁ ++ l₂) = nodesL l₁ ++ nodesL l₂ := by
  induction l₁ with
  | nil => simp [nodesL]
  | cons x xs ih => simp [nodesL, ih]

theorem nodesL_perm {l₁ l₂ : List TreeItem} (h : l₁.Perm l₂) : (nodesL l₁).Perm (nodesL l₂) := by
  induction h with
  | nil => exact List.Perm.refl _
  | cons x _ ih =>
    simp only [nodesL]
    exact List.Perm.append_left _ ih
  | swap x y l =>
    simp only [nodesL, ← List.append_assoc]
    exact List.Perm.append_right _ List.perm_append_comm
  | trans _ _ ih1 ih2 => exact ih1.trans ih2

theorem mem_nodesL (p : TreeItem) (cs : List TreeItem) :
    p ∈ nodesL cs ↔ ∃ c ∈ cs, p ∈ nodes c := by
  induction cs with
  | nil => simp [nodesL]
  | cons x xs ih => simp [nodesL, ih]

theorem recLog_fst_perm : ∀ (cs : List TreeItem) (pre : String),
    ((recLog pre cs).map Prod.fst).Perm (nodesL cs) := by
  intro cs
  induction cs using forest_induction with
  | hnil => intro pre; simp [recLog_nil, nodesL]
  | hcons c rest ih1 ih2 =>
    intro pre
    rw [recLog_cons, nodesL, nodes_eq]
    simp only [List.map_cons, List.map_append, List.cons_append]
    refine List.Perm.cons _ (List.Perm.append ?_ (ih2 pre))
    exact (ih1 _).trans (nodesL_perm (sortSlice_perm lessAsc c.children))

theorem recLog_fst_indep : ∀ (cs : List TreeItem) (pre pre' : String),
    (recLog pre cs).map Prod.fst = (recLog pre' cs).map Prod.fst := by
  intro cs
  induction cs using forest_induction with
  | hnil => intro pre pre'; simp [recLog_nil]
  | hcons c rest ih1 ih2 =>
    intro pre pre'
    rw [recLog_cons, recLog_cons]
    simp only [List.map_cons, List.map_append]
    rw [ih1 _ (pre' ++ segment rest.isEmpty), ih2 pre pre']

theorem recLog_fst_append (l₁ l₂ : List TreeItem) (pre : String) :
    (recLog pre (l₁ ++ l₂)).map Prod.fst
      = (recLog pre l₁).map Prod.fst ++ (recLog pre l₂).map Prod.fst := by
  induction l₁ with
  | nil => simp [recLog_nil]
  | cons x xs ih =>
    rw [List.cons_append, recLog_cons, recLog_cons]
    simp only [List.map_cons, List.map_append, List.cons_append, List.append_assoc]
    rw [ih, recLog_fst_indep _ (pre ++ segment (xs ++ l₂).isEmpty) (pre ++ segment xs.isEmpty)]

/-- Whatever the levels, the queue loop visits the nodes in the order of the
recursive renderer: when it returns, the nodes of the log are those of `out`
followed by the depth-first walk of the queue. -/
theorem printLoop_order : ∀ (fuel : Nat) (queue : List TreeItem) (levels : List Bool)
    (out log : List (TreeItem × String)), namesOkL queue = true →
    printLoop fuel queue levels out = .ok log →
    log.map Prod.fst = out.map Prod.fst ++ (recLog "" queue).map Prod.fst := by
  intro fuel
  induction fuel with
  | zero =>
    intro queue levels out log _ h
    cases queue with
    | nil =>
      simp only [printLoop, Except.ok.injEq] at h
      simp [← h, recLog_nil]
    | cons c q => simp [printLoop] at h
  | succ fuel ih =>
    intro queue levels out log hn h
    cases queue with
    | nil =>
      simp only [printLoop, Except.ok.injEq] at h
      simp [← h, recLog_nil]
    | cons c q =>
      simp only [printLoop] at h
      split at h
      · cases h
      · split at h
        · cases h
        · split at h
          · cases h
          · rename_i line _
            simp only [namesOkL, Bool.and_eq_true] at hn
            obtain ⟨hnodup, hkids⟩ := (namesOk_iff c).1 hn.1
            rw [foldl_prepend, sortDesc_reverse _ hnodup] at h
            have hq : namesOkL (sortSlice lessAsc c.children ++ q) = true := by
              rw [namesOkL_iff]
              intro d hd
              rcases List.mem_append.1 hd with hd | hd
              · exact hkids d ((mem_sortSlice _ _ _).1 hd)
              · exact (namesOkL_iff q).1 hn.2 d hd
            rw [ih _ _ _ _ hq h, recLog_fst_append, recLog_cons]
            simp only [List.map_append, List.map_cons, List.map_nil, List.append_assoc,
              List.singleton_append, List.cons_append, List.nil_append]
            rw [recLog_fst_indep _ ("" ++ segment q.isEmpty) ""]

theorem printTreeLog_order (root : TreeItem) (log : List (TreeItem × String))
    (hnames : namesOk root = true) (h : printTreeLog root = .ok log) :
    log.map Prod.fst = (recLog "" (sortSlice lessAsc root.children)).map Prod.fst := by
  unfold printTreeLog at h
  by_cases hlen : root.children.length = 0
  · have : root.children = [] := List.length_eq_zero.1 hlen
    simp only [hlen, if_true, Except.ok.injEq] at h
    simp [← h, this, sortSlice, recLog_nil]
  · simp only [hlen, if_false, foldl_prepend, List.reverse_reverse, List.append_nil] at h
    obtain ⟨_, hkids⟩ := (namesOk_iff root).1 hnames
    have hq : namesOkL (sortSlice lessAsc root.children) = true := by
      rw [namesOkL_iff]
      intro d hd
      exact hkids d ((mem_sortSlice _ _ _).1 hd)
    simpa using printLoop_order _ _ _ _ _ hq h

theorem pair_sublist_of_sorted (l : List TreeItem) (c d : TreeItem)
    (hl : l.Pairwise (fun a b => a.fileInfo.name < b.fileInfo.name))
    (hc : c ∈ l) (hd : d ∈ l) (hcd : c.fileInfo.name < d.fileInfo.name) :
    List.Sublist [c, d] l := by
  induction l with
  | nil => simp at hc
  | cons x xs ih =>
    rw [List.pairwise_cons] at hl
    rcases List.mem_cons.1 hc with rfl | hc'
    · rcases List.mem_cons.1 hd with rfl | hd'
      · exact absurd hcd (lt_irrefl _)
      · exact List.Sublist.cons₂ _ (List.singleton_sublist.2 hd')
    · rcases List.mem_cons.1 hd with rfl | hd'
      · exact absurd (hl.1 c hc') (not_lt_of_gt hcd)
      · exact List.Sublist.cons _ (ih hl.2 hc' hd')

theorem recLog_top_sublist (cs : List TreeItem) (pre : String) :
    List.Sublist cs ((recLog pre cs).map Prod.fst) := by
  induction cs with
  | nil => simp
  | cons c rest ih =>
    rw [recLog_cons]
    simp only [List.map_cons, List.map_append]
    exact List.Sublist.cons₂ _ (ih.trans (List.sublist_append_right _ _))

theorem recLog_sub_sublist : ∀ (cs : List TreeItem) (pre pre' : String) (p : TreeItem),
    p ∈ nodesL cs →
    List.Sublist ((recLog pre' (sortSlice lessAsc p.children)).map Prod.fst)
      ((recLog pre cs).map Prod.fst) := by
  intro cs
  induction cs using forest_induction with
  | hnil => intro pre pre' p hp; simp [nodesL] at hp
  | hcons c rest ih1 ih2 =>
    intro pre pre' p hp
    rw [recLog_cons]
    simp only [List.map_cons, List.map_append]
    rw [nodesL, nodes_eq, List.cons_append, List.mem_cons, List.mem_append] at hp
    rcases hp with rfl | hp | hp
    · rw [recLog_fst_indep _ pre' (pre ++ segment rest.isEmpty)]
      exact List.Sublist.cons _ (List.sublist_append_left _ _)
    · have hp' : p ∈ nodesL (sortSlice lessAsc c.children) :=
        (nodesL_perm (sortSlice_perm lessAsc c.children)).mem_iff.2 hp
      exact List.Sublist.cons _ ((ih1 _ pre' p hp').trans (List.sublist_append_left _ _))
    · exact List.Sublist.cons _ ((ih2 pre pre' p hp).trans (List.sublist_append_right _ _))

/-- The children of every node of the tree, in ascending order of name, are
visited in that order. -/
theorem children_sublist (root p : TreeItem) (hp : p ∈ nodes root) :
    List.Sublist (sortSlice lessAsc p.children)
      ((recLog "" (sortSlice lessAsc root.children)).map Prod.fst) := by
  rw [nodes_eq, List.mem_cons] at hp
  rcases hp with rfl | hp
  · exact recLog_top_sublist _ _
  · have hp' : p ∈ nodesL (sortSlice lessAsc root.children) :=
      (nodesL_perm (sortSlice_perm lessAsc root.children)).mem_iff.2 hp
    exact (recLog_top_sublist _ "").trans (recLog_sub_sublist _ "" "" p hp')

theorem nodup_no_swap (l : List Nat) (a b : Nat) (hl : l.Nodup)
    (h1 : List.Sublist [a, b] l) (h2 : List.Sublist [b, a] l) : False := by
  induction l with
  | nil => simp at h1
  | cons x xs ih =>
    rw [List.nodup_cons] at hl
    cases h1 with
    | cons _ h1 =>
      cases h2 with
      | cons _ h2 => exact ih hl.2 h1 h2
      | cons₂ _ h2 =>
        exact hl.1 (h1.subset (by simp))
    | cons₂ _ h1 =>
      cases h2 with
      | cons _ h2 => exact hl.1 (h2.subset (by simp))
      | cons₂ _ h2 => exact hl.1 (h2.subset (by simp))

theorem order_eq (log : List (TreeItem × String)) :
    order log = (log.map Prod.fst).map TreeItem.ptr := by
  simp [order]

theorem order_nodup (root : TreeItem) (log : List (TreeItem × String))
    (hptr : ((nodes root).map TreeItem.ptr).Nodup)
    (hfst : log.map Prod.fst = (recLog "" (sortSlice lessAsc root.children)).map Prod.fst) :
    (order log).Nodup := by
  rw [order_eq, hfst]
  have hperm : ((recLog "" (sortSlice lessAsc root.children)).map Prod.fst).Perm
      (nodesL root.children) :=
    (recLog_fst_perm _ "").trans (nodesL_perm (sortSlice_perm lessAsc root.children))
  rw [(hperm.map TreeItem.ptr).nodup_iff]
  rw [nodes_eq, List.map_cons, List.nodup_cons] at hptr
  exact hptr.2

theorem order_ascending (root : TreeItem) (log : List (TreeItem × String))
    (hnames : ∀ p ∈ nodes root, (p.children.map fun c => c.fileInfo.name).Nodup)
    (hfst : log.map Prod.fst = (recLog "" (sortSlice lessAsc root.children)).map Prod.fst)
    (p : TreeItem) (hp : p ∈ nodes root) (c d : TreeItem) (hc : c ∈ p.children)
    (hd : d ∈ p.children) (hcd : c.fileInfo.name < d.fileInfo.name) :
    List.Sublist [c.ptr, d.ptr] (order log) := by
  rw [order_eq, hfst]
  have h1 := pair_sublist_of_sorted (sortSlice lessAsc p.children) c d
    (sortAsc_sorted _ (hnames p hp)) ((mem_sortSlice _ _ _).2 hc) ((mem_sortSlice _ _ _).2 hd) hcd
  exact (h1.trans (children_sublist root p hp)).map TreeItem.ptr

theorem namesOk_nodes (root : TreeItem) (hnames : namesOk root = true) :
    ∀ p ∈ nodes root, namesOk p = true := by
  have key : ∀ cs : List TreeItem, (∀ c ∈ cs, namesOk c = true) →
      ∀ p ∈ nodesL cs, namesOk p = true := by
    intro cs
    induction cs using forest_induction with
    | hnil => intro _ p hp; simp [nodesL] at hp
    | hcons c rest ih1 ih2 =>
      intro h p hp
      rw [nodesL, nodes_eq, List.cons_append, List.mem_cons, List.mem_append] at hp
      rcases hp with rfl | hp | hp
      · exact h _ (by simp)
      · apply ih1 _ p ((nodesL_perm (sortSlice_perm lessAsc c.children)).mem_iff.2 hp)
        intro d hd
        exact ((namesOk_iff c).1 (h c (by simp))).2 d ((mem_sortSlice _ _ _).1 hd)
      · exact ih2 (fun d hd => h d (List.mem_cons_of_mem _ hd)) p hp
  intro p hp
  apply key [root] _ p (by simpa [nodesL] using hp)
  simpa using hnames

/-- C3: in every tree whose siblings bear distinct names, whenever `printTree`
returns (which it does when the root is at level 0 and every child one level
below its parent), every node is written at most once and, for every node `p` of
the tree and children `c`, `d` of `p` with `name c < name d`, the line of `c` is
written before the line of `d`. -/
theorem siblings_written_ascending (root : TreeItem) (hnames : namesOk root = true)
    (hptr : ((nodes root).map TreeItem.ptr).Nodup) :
    (root.level = 0 → levelsOk root = true → ∃ log, printTreeLog root = .ok log) ∧
    ∀ log, printTreeLog root = .ok log →
      (order log).Nodup ∧
      ∀ p ∈ nodes root, ∀ c ∈ p.children, ∀ d ∈ p.children,
        c.fileInfo.name < d.fileInfo.name → List.Sublist [c.ptr, d.ptr] (order log) := by
  refine ⟨fun h0 hlev => ⟨_, printTreeLog_eq root h0 hlev hnames⟩, ?_⟩
  intro log hlog
  have hfst := printTreeLog_order root log hnames hlog
  refine ⟨order_nodup root log hptr hfst, ?_⟩
  intro p hp c hc d hd hcd
  exact order_ascending root log
    (fun q hq => ((namesOk_iff q).1 (namesOk_nodes root hnames q hq)).1) hfst p hp c d hc hd hcd

/-! ## The line of a node -/

theorem lastByName_iff (sibs : List TreeItem) (c : TreeItem) :
    lastByName sibs c = true ↔ ∀ d ∈ sibs, ¬ c.fileInfo.name < d.fileInfo.name := by
  simp only [lastByName, List.all_eq_true, Bool.not_eq_true', ← lessAsc_iff]
  constructor
  · intro h d hd
    simp [h d hd]
  · intro h d hd
    simpa using h d hd

theorem lastByName_perm {l₁ l₂ : List TreeItem} (h : l₁.Perm l₂) (c : TreeItem) :
    lastByName l₁ c = lastByName l₂ c := by
  rw [Bool.eq_iff_iff, lastByName_iff, lastByName_iff]
  exact ⟨fun H d hd => H d (h.mem_iff.2 hd), fun H d hd => H d (h.mem_iff.1 hd)⟩

theorem lastByName_sorted (front rest : List TreeItem) (c : TreeItem)
    (h : (front ++ c :: rest).Pairwise (fun a b => a.fileInfo.name < b.fileInfo.name)) :
    lastByName (front ++ c :: rest) c = rest.isEmpty := by
  rw [List.pairwise_append, List.pairwise_cons] at h
  rw [Bool.eq_iff_iff, lastByName_iff]
  constructor
  · intro H
    cases rest with
    | nil => rfl
    | cons d ds => exact absurd (h.2.1.1 d (by simp)) (H d (by simp))
  · intro H d hd
    cases rest with
    | nil =>
      rcases List.mem_append.1 hd with hd | hd
      · exact not_lt_of_gt (h.2.2 d hd c (by simp))
      · simp at hd
        subst hd
        exact lt_irrefl _
    | cons d ds => simp at H

/-- The line of a sibling, and the lines below it, in the recursive renderer
started on a tail `cs` of an ascending list `front ++ cs` of siblings. -/
theorem recLog_mem_sorted : ∀ (cs front : List TreeItem) (pre : String) (a : TreeItem),
    (front ++ cs).Pairwise (fun a b => a.fileInfo.name < b.fileInfo.name) → a ∈ cs →
    (a, pre ++ connector (lastByName (front ++ cs) a) ++ a.fileInfo.name
        ++ sizeNote a.fileInfo ++ "\n") ∈ recLog pre cs ∧
      ∀ e ∈ recLog (pre ++ segment (lastByName (front ++ cs) a))
        (sortSlice lessAsc a.children), e ∈ recLog pre cs := by
  intro cs
  induction cs with
  | nil => intro front pre a _ ha; simp at ha
  | cons c rest ih =>
    intro front pre a hs ha
    rw [recLog_cons]
    rcases List.mem_cons.1 ha with rfl | ha'
    · rw [lastByName_sorted front rest a hs]
      refine ⟨List.mem_cons_self _ _, ?_⟩
      intro e he
      exact List.mem_cons_of_mem _ (List.mem_append_left _ he)
    · have hs' : ((front ++ [c]) ++ rest).Pairwise
          (fun a b => a.fileInfo.name < b.fileInfo.name) := by
        simpa using hs
      have := ih (front ++ [c]) pre a hs' ha'
      have heq : (front ++ [c]) ++ rest = front ++ c :: rest := by simp
      rw [heq] at this
      refine ⟨List.mem_cons_of_mem _ (List.mem_append_right _ this.1), ?_⟩
      intro e he
      exact List.mem_cons_of_mem _ (List.mem_append_right _ (this.2 e he))

/-- The line of the node at the end of a chain of nodes starting among `sibs`:
the segments of the nodes of the chain, then the connector of the node. -/
theorem recLog_path : ∀ (chain sibs : List TreeItem) (pre : String) (n : TreeItem),
    (sibs.map fun c => c.fileInfo.name).Nodup → (∀ c ∈ sibs, namesOk c = true) →
    isChain sibs (chain ++ [n]) →
    (n, pre ++ String.join (segsOf sibs chain) ++ connector (lastByName (kidsAt sibs chain) n)
        ++ n.fileInfo.name ++ sizeNote n.fileInfo ++ "\n") ∈ recLog pre (sortSlice lessAsc sibs) := by
  intro chain
  induction chain with
  | nil =>
    intro sibs pre n hnodup _ hch
    simp only [List.nil_append, isChain, and_true] at hch
    have := (recLog_mem_sorted (sortSlice lessAsc sibs) [] pre n
      (by simpa using sortAsc_sorted sibs hnodup) ((mem_sortSlice _ _ _).2 hch)).1
    rw [List.nil_append, lastByName_perm (sortSlice_perm lessAsc sibs)] at this
    simpa [segsOf, kidsAt, String.join] using this
  | cons a as ih =>
    intro sibs pre n hnodup hkids hch
    simp only [List.cons_append, isChain] at hch
    obtain ⟨hn, hk⟩ := (namesOk_iff a).1 (hkids a hch.1)
    have h1 := ih a.children (pre ++ segment (lastByName sibs a)) n hn hk hch.2
    have h2 := (recLog_mem_sorted (sortSlice lessAsc sibs) [] pre a
      (by simpa using sortAsc_sorted sibs hnodup) ((mem_sortSlice _ _ _).2 hch.1)).2
    rw [List.nil_append, lastByName_perm (sortSlice_perm lessAsc sibs)] at h2
    have := h2 _ h1
    simpa [segsOf, kidsAt, join_cons, String.append_assoc] using this

theorem isChain_append (chain sibs : List TreeItem) (c : TreeItem) :
    isChain sibs (chain ++ [c]) ↔ isChain sibs chain ∧ c ∈ kidsAt sibs chain := by
  induction chain generalizing sibs with
  | nil => simp [isChain, kidsAt]
  | cons a as ih => simp [isChain, kidsAt, ih, and_assoc]

theorem nodesL_subtree : ∀ (cs : List TreeItem) (p : TreeItem), p ∈ nodesL cs →
    ∀ q ∈ nodesL p.children, q ∈ nodesL cs := by
  intro cs
  induction cs using forest_induction with
  | hnil => intro p hp; simp [nodesL] at hp
  | hcons c rest ih1 ih2 =>
    intro p hp q hq
    have hperm := nodesL_perm (sortSlice_perm lessAsc c.children)
    rw [nodesL, nodes_eq, List.cons_append, List.mem_cons, List.mem_append] at hp ⊢
    rcases hp with rfl | hp | hp
    · exact Or.inr (Or.inl hq)
    · exact Or.inr (Or.inl (hperm.mem_iff.1 (ih1 p (hperm.mem_iff.2 hp) q hq)))
    · exact Or.inr (Or.inr (ih2 p hp q hq))

theorem mem_nodes_child (root p c : TreeItem) (hp : p ∈ nodes root) (hc : c ∈ p.children) :
    c ∈ nodes root := by
  have hcn : c ∈ nodesL p.children :=
    (mem_nodesL c p.children).2 ⟨c, hc, by rw [nodes_eq]; exact List.mem_cons_self _ _⟩
  rw [nodes_eq, List.mem_cons] at hp ⊢
  rcases hp with rfl | hp
  · exact Or.inr hcn
  · exact Or.inr (nodesL_subtree _ p hp c hcn)

theorem exists_chain_forest : ∀ (cs : List TreeItem) (p : TreeItem), p ∈ nodesL cs →
    ∃ a as, isChain cs (a :: as) ∧ kidsAt cs (a :: as) = p.children := by
  intro cs
  induction cs using forest_induction with
  | hnil => intro p hp; simp [nodesL] at hp
  | hcons c rest ih1 ih2 =>
    intro p hp
    rw [nodesL, nodes_eq, List.cons_append, List.mem_cons, List.mem_append] at hp
    rcases hp with rfl | hp | hp
    · exact ⟨p, [], by simp [isChain], by simp [kidsAt]⟩
    · obtain ⟨a, as, h1, h2⟩ :=
        ih1 p ((nodesL_perm (sortSlice_perm lessAsc c.children)).mem_iff.2 hp)
      refine ⟨c, a :: as, ?_, ?_⟩
      · simp only [isChain] at h1 ⊢
        exact ⟨by simp, (mem_sortSlice _ _ _).1 h1.1, h1.2⟩
      · simpa [kidsAt] using h2
    · obtain ⟨a, as, h1, h2⟩ := ih2 p hp
      refine ⟨a, as, ?_, ?_⟩
      · simp only [isChain] at h1 ⊢
        exact ⟨List.mem_cons_of_mem _ h1.1, h1.2⟩
      · simpa [kidsAt] using h2

/-- Every node of the tree is reached from the root by a chain of children. -/
theorem exists_chain (root p : TreeItem) (hp : p ∈ nodes root) :
    ∃ chain, isChain root.children chain ∧ kidsAt root.children chain = p.children := by
  rw [nodes_eq, List.mem_cons] at hp
  rcases hp with rfl | hp
  · exact ⟨[], by simp [isChain], by simp [kidsAt]⟩
  · obtain ⟨a, as, h1, h2⟩ := exists_chain_forest _ p hp
    exact ⟨a :: as, h1, h2⟩

theorem isIndent_empty : isIndent "" := by
  intro ch h
  simp at h

theorem isIndent_append (a b : String) (ha : isIndent a) (hb : isIndent b) :
    isIndent (a ++ b) := by
  intro ch h
  simp only [String.toList, String.data_append, List.mem_append] at h
  rcases h with h | h
  · exact ha ch h
  · exact hb ch h

theorem isIndent_segment (b : Bool) : isIndent (segment b) := by
  intro ch h
  cases b <;> simp [segment] at h <;> simp [h]

theorem isIndent_segsOf (chain sibs : List TreeItem) : isIndent (String.join (segsOf sibs chain)) := by
  induction chain generalizing sibs with
  | nil => simpa [segsOf, String.join] using isIndent_empty
  | cons a as ih =>
    rw [segsOf, join_cons]
    exact isIndent_append _ _ (isIndent_segment _) (ih _)

/-- With siblings bearing distinct names and nodes at distinct addresses, the
sibling written last is the one with the greatest name. -/
theorem renderedLast_iff (root : TreeItem) (log : List (TreeItem × String))
    (hnames : ∀ p ∈ nodes root, (p.children.map fun c => c.fileInfo.name).Nodup)
    (hptr : ((nodes root).map TreeItem.ptr).Nodup)
    (hfst : log.map Prod.fst = (recLog "" (sortSlice lessAsc root.children)).map Prod.fst)
    (p : TreeItem) (hp : p ∈ nodes root) (c : TreeItem) (hc : c ∈ p.children) :
    (renderedLast (order log) p.children c ↔ lastByName p.children c = true) ∧
      (hasLaterSibling (order log) p.children c ↔ lastByName p.children c = false) := by
  have hnodup := order_nodup root log hptr hfst
  have hasc := order_ascending root log hnames hfst p hp
  have hlast : lastByName p.children c = true → renderedLast (order log) p.children c := by
    intro h d hd hne
    have hle := not_lt.1 ((lastByName_iff _ _).1 h d hd)
    have hnn : d.fileInfo.name ≠ c.fileInfo.name := by
      intro heq
      exact hne (congrArg TreeItem.ptr (List.inj_on_of_nodup_map (hnames p hp) hd hc heq))
    exact hasc d c hd hc (lt_of_le_of_ne hle hnn)
  have hlater : lastByName p.children c = false → hasLaterSibling (order log) p.children c := by
    intro h
    have : ¬ ∀ d ∈ p.children, ¬ c.fileInfo.name < d.fileInfo.name := by
      rw [← lastByName_iff, h]; simp
    push_neg at this
    obtain ⟨d, hd, hlt⟩ := this
    refine ⟨d, hd, ?_, hasc c d hc hd hlt⟩
    intro heq
    have := List.inj_on_of_nodup_map hptr (mem_nodes_child root p d hp hd)
      (mem_nodes_child root p c hp hc) heq
    rw [this] at hlt
    exact lt_irrefl _ hlt
  have hexcl : renderedLast (order log) p.children c →
      hasLaterSibling (order log) p.children c → False := by
    intro h1 ⟨d, hd, hne, hsub⟩
    exact nodup_no_swap _ _ _ hnodup hsub (h1 d hd hne)
  constructor
  · refine ⟨fun h => ?_, hlast⟩
    cases hb : lastByName p.children c with
    | true => rfl
    | false => exact absurd (hlater hb) (fun h2 => hexcl h h2)
  · refine ⟨fun h => ?_, hlater⟩
    cases hb : lastByName p.children c with
    | false => rfl
    | true => exact absurd h (fun h2 => hexcl (hlast hb) h2)

theorem log_unique (root : TreeItem) (log : List (TreeItem × String))
    (hptr : ((nodes root).map TreeItem.ptr).Nodup)
    (hfst : log.map Prod.fst = (recLog "" (sortSlice lessAsc root.children)).map Prod.fst)
    (n : TreeItem) (line : String) (hmem : (n, line) ∈ log) :
    ∀ e ∈ log, e.1.ptr = n.ptr → e = (n, line) := by
  intro e he heq
  have hnodup := order_nodup root log hptr hfst
  exact List.inj_on_of_nodup_map hnodup he hmem heq

theorem segsOf_length (chain sibs : List TreeItem) :
    (segsOf sibs chain).length = chain.length := by
  induction chain generalizing sibs with
  | nil => rfl
  | cons a as ih => simp [segsOf, ih]

theorem segsOf_getElem (chain : List TreeItem) (root : TreeItem) (L : Nat) (a p : TreeItem)
    (ha : chain[L]? = some a) (hp : (root :: chain)[L]? = some p) :
    (segsOf root.children chain)[L]? = some (segment (lastByName p.children a)) := by
  induction chain generalizing root L with
  | nil => simp at ha
  | cons x xs ih =>
    cases L with
    | zero =>
      simp only [List.getElem?_cons_zero, Option.some.injEq] at ha hp
      subst ha hp
      simp [segsOf]
    | succ L =>
      simp only [List.getElem?_cons_succ] at ha hp
      simpa [segsOf] using ih x L ha hp

theorem mem_nodes_of_child (root x p : TreeItem) (hx : x ∈ root.children) (hp : p ∈ nodes x) :
    p ∈ nodes root := by
  rw [nodes_eq root, List.mem_cons]
  exact Or.inr ((mem_nodesL p root.children).2 ⟨x, hx, hp⟩)

theorem chain_mem (chain : List TreeItem) (root : TreeItem) (L : Nat) (a p : TreeItem)
    (hch : isChain root.children chain)
    (ha : chain[L]? = some a) (hp : (root :: chain)[L]? = some p) :
    p ∈ nodes root ∧ a ∈ p.children := by
  induction chain generalizing root L with
  | nil => simp at ha
  | cons x xs ih =>
    simp only [isChain] at hch
    cases L with
    | zero =>
      simp only [List.getElem?_cons_zero, Option.some.injEq] at ha hp
      subst ha hp
      exact ⟨by rw [nodes_eq]; exact List.mem_cons_self _ _, hch.1⟩
    | succ L =>
      simp only [List.getElem?_cons_succ] at ha hp
      obtain ⟨h1, h2⟩ := ih x L hch.2 ha hp
      exact ⟨mem_nodes_of_child root x p hch.1 h1, h2⟩

theorem chain_level (chain : List TreeItem) (root : TreeItem) (L : Nat) (a : TreeItem)
    (hlev : levelsOk root = true) (hch : isChain root.children chain)
    (ha : chain[L]? = some a) : a.level = root.level + L + 1 := by
  induction chain generalizing root L with
  | nil => simp at ha
  | cons x xs ih =>
    simp only [isChain] at hch
    have hx := (levelsOk_iff root).1 hlev x hch.1
    cases L with
    | zero =>
      simp only [List.getElem?_cons_zero, Option.some.injEq] at ha
      subst ha
      simp [hx.1]
    | succ L =>
      simp only [List.getElem?_cons_succ] at ha
      rw [ih x L hx.2 hch.2 ha, hx.1]
      push_cast
      omega

theorem segment_eq_bar (b : Bool) : segment b = "│\t" ↔ b = false := by
  cases b <;> simp [segment]

theorem segment_eq_tab (b : Bool) : segment b = "\t" ↔ b = true := by
  cases b <;> simp [segment]

theorem mem_visit_of_mem_nodesL (cs : List TreeItem) (pre : String) (n : TreeItem)
    (h : n ∈ nodesL cs) : n ∈ (recLog pre cs).map Prod.fst :=
  (recLog_fst_perm cs pre).mem_iff.2 h

/-- Every node of the subtree of a sibling is visited before every sibling of
greater name. -/
theorem subtree_before_later : ∀ (cs : List TreeItem) (pre : String) (a d n : TreeItem),
    cs.Pairwise (fun a b => a.fileInfo.name < b.fileInfo.name) → a ∈ cs → d ∈ cs →
    a.fileInfo.name < d.fileInfo.name → n ∈ nodes a →
    List.Sublist [n, d] ((recLog pre cs).map Prod.fst) := by
  intro cs
  induction cs with
  | nil => intro pre a d n _ ha; simp at ha
  | cons c rest ih =>
    intro pre a d n hs ha hd hlt hn
    rw [List.pairwise_cons] at hs
    rw [recLog_cons]
    simp only [List.map_cons, List.map_append]
    rcases List.mem_cons.1 ha with rfl | ha'
    · rcases List.mem_cons.1 hd with rfl | hd'
      · exact absurd hlt (lt_irrefl _)
      · have hdv : d ∈ (recLog pre rest).map Prod.fst :=
          (recLog_top_sublist rest pre).subset hd'
        rw [nodes_eq, List.mem_cons] at hn
        rcases hn with rfl | hn
        · exact List.Sublist.cons₂ _ (List.singleton_sublist.2 (List.mem_append_right _ hdv))
        · have hnv : n ∈ (recLog (pre ++ segment rest.isEmpty)
              (sortSlice lessAsc a.children)).map Prod.fst :=
            mem_visit_of_mem_nodesL _ _ n
              ((nodesL_perm (sortSlice_perm lessAsc a.children)).mem_iff.2 hn)
          exact List.Sublist.cons _
            (List.Sublist.append (List.singleton_sublist.2 hnv) (List.singleton_sublist.2 hdv))
    · rcases List.mem_cons.1 hd with rfl | hd'
      · exact absurd (hs.1 a ha') (not_lt_of_gt hlt)
      · exact List.Sublist.cons _
          ((ih pre a d n hs.2 ha' hd' hlt hn).trans (List.sublist_append_right _ _))

/-- Every sibling of smaller name is visited before every node of the subtree
of a sibling. -/
theorem earlier_before_subtree : ∀ (cs : List TreeItem) (pre : String) (a d n : TreeItem),
    cs.Pairwise (fun a b => a.fileInfo.name < b.fileInfo.name) → a ∈ cs → d ∈ cs →
    d.fileInfo.name < a.fileInfo.name → n ∈ nodes a →
    List.Sublist [d, n] ((recLog pre cs).map Prod.fst) := by
  intro cs
  induction cs with
  | nil => intro pre a d n _ ha; simp at ha
  | cons c rest ih =>
    intro pre a d n hs ha hd hlt hn
    rw [List.pairwise_cons] at hs
    rw [recLog_cons]
    simp only [List.map_cons, List.map_append]
    rcases List.mem_cons.1 hd with rfl | hd'
    · rcases List.mem_cons.1 ha with rfl | ha'
      · exact absurd hlt (lt_irrefl _)
      · have hnv : n ∈ (recLog pre rest).map Prod.fst :=
          mem_visit_of_mem_nodesL _ _ n ((mem_nodesL n rest).2 ⟨a, ha', hn⟩)
        exact List.Sublist.cons₂ _ (List.singleton_sublist.2 (List.mem_append_right _ hnv))
    · rcases List.mem_cons.1 ha with rfl | ha'
      · exact absurd (hs.1 d hd') (not_lt_of_gt hlt)
      · exact List.Sublist.cons _
          ((ih pre a d n hs.2 ha' hd' hlt hn).trans (List.sublist_append_right _ _))

theorem visit_children_sublist (root p : TreeItem) (hp : p ∈ nodes root) :
    List.Sublist ((recLog "" (sortSlice lessAsc p.children)).map Prod.fst)
      ((recLog "" (sortSlice lessAsc root.children)).map Prod.fst) := by
  rw [nodes_eq, List.mem_cons] at hp
  rcases hp with rfl | hp
  · exact List.Sublist.refl _
  · exact recLog_sub_sublist _ "" "" p
      ((nodesL_perm (sortSlice_perm lessAsc root.children)).mem_iff.2 hp)

/-- A sibling of `a` is written after a node `n` of the subtree of `a` exactly
when `a` does not bear the greatest name among its siblings. -/
theorem sibling_after_iff (root : TreeItem) (log : List (TreeItem × String))
    (hnames : ∀ p ∈ nodes root, (p.children.map fun c => c.fileInfo.name).Nodup)
    (hptr : ((nodes root).map TreeItem.ptr).Nodup)
    (hfst : log.map Prod.fst = (recLog "" (sortSlice lessAsc root.children)).map Prod.fst)
    (p : TreeItem) (hp : p ∈ nodes root) (a : TreeItem) (ha : a ∈ p.children)
    (n : TreeItem) (hn : n ∈ nodes a) :
    (∃ d ∈ p.children, d.ptr ≠ a.ptr ∧ List.Sublist [n.ptr, d.ptr] (order log)) ↔
      lastByName p.children a = false := by
  have hnodup := order_nodup root log hptr hfst
  have hsorted := sortAsc_sorted _ (hnames p hp)
  constructor
  · rintro ⟨d, hd, hne, hsub⟩
    cases hb : lastByName p.children a with
    | false => rfl
    | true =>
      exfalso
      have hle := not_lt.1 ((lastByName_iff _ _).1 hb d hd)
      have hnn : d.fileInfo.name ≠ a.fileInfo.name := by
        intro heq
        exact hne (congrArg TreeItem.ptr (List.inj_on_of_nodup_map (hnames p hp) hd ha heq))
      have h1 := earlier_before_subtree (sortSlice lessAsc p.children) "" a d n hsorted
        ((mem_sortSlice _ _ _).2 ha) ((mem_sortSlice _ _ _).2 hd) (lt_of_le_of_ne hle hnn) hn
      have h2 := (h1.trans (visit_children_sublist root p hp)).map TreeItem.ptr
      rw [← hfst, ← order_eq] at h2
      exact nodup_no_swap _ _ _ hnodup hsub h2
  · intro hb
    have : ¬ ∀ d ∈ p.children, ¬ a.fileInfo.name < d.fileInfo.name := by
      rw [← lastByName_iff, hb]; simp
    push_neg at this
    obtain ⟨d, hd, hlt⟩ := this
    refine ⟨d, hd, ?_, ?_⟩
    · intro heq
      have := List.inj_on_of_nodup_map hptr (mem_nodes_child root p d hp hd)
        (mem_nodes_child root p a hp ha) heq
      rw [this] at hlt
      exact lt_irrefl _ hlt
    · have h1 := subtree_before_later (sortSlice lessAsc p.children) "" a d n hsorted
        ((mem_sortSlice _ _ _).2 ha) ((mem_sortSlice _ _ _).2 hd) hlt hn
      have h2 := (h1.trans (visit_children_sublist root p hp)).map TreeItem.ptr
      rw [← hfst, ← order_eq] at h2
      exact h2

theorem chain_last_mem (chain sibs : List TreeItem) (n : TreeItem)
    (h : isChain sibs (chain ++ [n])) : n ∈ nodesL sibs := by
  induction chain generalizing sibs with
  | nil =>
    simp only [List.nil_append, isChain, and_true] at h
    exact (mem_nodesL n sibs).2 ⟨n, h, by rw [nodes_eq]; exact List.mem_cons_self _ _⟩
  | cons x xs ih =>
    simp only [List.cons_append, isChain] at h
    refine (mem_nodesL n sibs).2 ⟨x, h.1, ?_⟩
    rw [nodes_eq]
    exact List.mem_cons_of_mem _ (ih _ h.2)

theorem chain_end_mem (chain sibs : List TreeItem) (n : TreeItem) (L : Nat) (a : TreeItem)
    (h : isChain sibs (chain ++ [n])) (ha : chain[L]? = some a) : n ∈ nodes a := by
  induction chain generalizing sibs L with
  | nil => simp at ha
  | cons x xs ih =>
    simp only [List.cons_append, isChain] at h
    cases L with
    | zero =>
      simp only [List.getElem?_cons_zero, Option.some.injEq] at ha
      subst ha
      rw [nodes_eq]
      exact List.mem_cons_of_mem _ (chain_last_mem xs _ n h.2)
    | succ L =>
      simp only [List.getElem?_cons_succ] at ha
      exact ih _ L h.2 ha

theorem isChain_mono (s₁ s₂ l : List TreeItem) (h : ∀ x ∈ s₁, x ∈ s₂)
    (hc : isChain s₁ l) : isChain s₂ l := by
  cases l with
  | nil => trivial
  | cons a as =>
    simp only [isChain] at hc ⊢
    exact ⟨h a hc.1, hc.2⟩

/-- Every node of a forest is the end of a chain starting among its roots. -/
theorem exists_chain_to : ∀ (cs : List TreeItem) (n : TreeItem), n ∈ nodesL cs →
    ∃ chain, isChain cs (chain ++ [n]) := by
  intro cs
  induction cs using forest_induction with
  | hnil => intro n hn; simp [nodesL] at hn
  | hcons c rest ih1 ih2 =>
    intro n hn
    rw [nodesL, nodes_eq, List.cons_append, List.mem_cons, List.mem_append] at hn
    rcases hn with rfl | hn | hn
    · exact ⟨[], by simp [isChain]⟩
    · obtain ⟨chain, hch⟩ :=
        ih1 n ((nodesL_perm (sortSlice_perm lessAsc c.children)).mem_iff.2 hn)
      refine ⟨c :: chain, ?_⟩
      simp only [List.cons_append, isChain]
      exact ⟨by simp, isChain_mono _ _ _ (fun x hx => (mem_sortSlice _ _ _).1 hx) hch⟩
    · obtain ⟨chain, hch⟩ := ih2 n hn
      exact ⟨chain, isChain_mono _ _ _ (fun x hx => List.mem_cons_of_mem _ hx) hch⟩

theorem kidsAt_append (chain sibs : List TreeItem) (p : TreeItem) :
    kidsAt sibs (chain ++ [p]) = p.children := by
  induction chain generalizing sibs with
  | nil => rfl
  | cons a as ih => simpa [kidsAt] using ih a.children

/-- Every node of the tree other than the root is a child of a node of the tree. -/
theorem exists_parent (root n : TreeItem) (hn : n ∈ nodesL root.children) :
    ∃ p ∈ nodes root, n ∈ p.children := by
  obtain ⟨chain, hch⟩ := exists_chain_to _ n hn
  rw [isChain_append] at hch
  rcases List.eq_nil_or_concat chain with rfl | ⟨front, p, rfl⟩
  · exact ⟨root, by rw [nodes_eq]; exact List.mem_cons_self _ _, hch.2⟩
  · rw [List.concat_eq_append] at hch
    refine ⟨p, ?_, by simpa [kidsAt_append] using hch.2⟩
    rw [nodes_eq]
    exact List.mem_cons_of_mem _ (chain_last_mem front _ p hch.1)

theorem mem_log_nodes (root : TreeItem) (e : TreeItem × String)
    (he : e ∈ recLog "" (sortSlice lessAsc root.children)) : e.1 ∈ nodesL root.children := by
  have h1 : e.1 ∈ (recLog "" (sortSlice lessAsc root.children)).map Prod.fst :=
    List.mem_map_of_mem _ he
  exact (nodesL_perm (sortSlice_perm lessAsc root.children)).mem_iff.1
    ((recLog_fst_perm _ "").mem_iff.1 h1)

theorem indentLoop_fault (levels : List Bool) : ∀ (n i : Nat) (acc : String) (e : Fault),
    indentLoop levels i n acc = .error e → e = .indexOutOfRange := by
  intro n
  induction n with
  | zero => intro i acc e h; simp [indentLoop] at h
  | succ n ih =>
    intro i acc e h
    rw [indentLoop, getLevel] at h
    cases hl : levels[i]? with
    | none =>
      rw [hl] at h
      simp only [Except.error.injEq] at h
      exact h.symm
    | some b =>
      rw [hl] at h
      exact ih _ _ e h

theorem printLine_no_fuel (item : TreeItem) (levels : List Bool) (isLast : Bool)
    (h : printLine item levels isLast = .error .fuelExhausted) : False := by
  unfold printLine at h
  cases hloop : indentLoop levels 1 (item.level - 1).toNat "" with
  | error e =>
    rw [hloop] at h
    simp only [Except.error.injEq] at h
    subst h
    have := indentLoop_fault levels _ _ _ _ hloop
    cases this
  | ok r =>
    rw [hloop] at h
    cases h

/-- The queue loop never runs out of fuel when given one unit per node of the
queue and of the subtrees below it. -/
theorem printLoop_fuel : ∀ (fuel : Nat) (queue : List TreeItem) (levels : List Bool)
    (out : List (TreeItem × String)), sizeL queue ≤ fuel →
    printLoop fuel queue levels out ≠ .error .fuelExhausted := by
  intro fuel
  induction fuel with
  | zero =>
    intro queue levels out h
    cases queue with
    | nil => simp [printLoop]
    | cons c q => simp [sizeL, size_eq] at h
  | succ fuel ih =>
    intro queue levels out h
    cases queue with
    | nil => simp [printLoop]
    | cons c q =>
      simp only [printLoop]
      split
      · rename_i e he
        split at he
        · cases he
        · intro heq
          simp only [Except.error.injEq] at heq
          subst heq
          simp [setLevel] at he
          split at he <;> cases he
      · split
        · rename_i e he
          split at he
          · intro heq
            simp only [Except.error.injEq] at heq
            subst heq
            simp [setLevel] at he
            split at he <;> cases he
          · cases he
        · split
          · rename_i e he
            intro heq
            simp only [Except.error.injEq] at heq
            subst heq
            exact printLine_no_fuel _ _ _ he
          · apply ih
            rw [foldl_prepend, sizeL_append, sizeL_perm (List.reverse_perm _), sizeL_sortSlice]
            simp only [sizeL, size_eq] at h
            omega

/-! ## The renderer: connectors and indentation -/

/-- C4: on every tree with the root at level 0, every child one level below its
parent, siblings bearing distinct names and nodes at distinct addresses,
`printTree` returns, every line of the log is the line of a child of a node of
the tree, and every child `c` of every node `p` has exactly one line in the log,
of the form `indent ++ connector ++ name ++ size note ++ newline`
with `indent` made of bars and tabs only, where the connector is `"└───"` when
`c` is written after all the other children of `p`, and `"├───"` when some other
child of `p` is written after `c`; one of the two is the case. -/
theorem connector_marks_last (root : TreeItem) (h0 : root.level = 0)
    (hlev : levelsOk root = true) (hnames : namesOk root = true)
    (hptr : ((nodes root).map TreeItem.ptr).Nodup) :
    ∃ log, printTreeLog root = .ok log ∧
      (∀ e ∈ log, ∃ p ∈ nodes root, e.1 ∈ p.children) ∧
      ∀ p ∈ nodes root, ∀ c ∈ p.children, ∃ indent line,
        isIndent indent ∧ (c, line) ∈ log ∧
        (∀ e ∈ log, e.1.ptr = c.ptr → e = (c, line)) ∧
        (renderedLast (order log) p.children c →
          line = indent ++ "└───" ++ c.fileInfo.name ++ sizeNote c.fileInfo ++ "\n") ∧
        (hasLaterSibling (order log) p.children c →
          line = indent ++ "├───" ++ c.fileInfo.name ++ sizeNote c.fileInfo ++ "\n") ∧
        (renderedLast (order log) p.children c ∨ hasLaterSibling (order log) p.children c) := by
  refine ⟨_, printTreeLog_eq root h0 hlev hnames,
    fun e he => exists_parent root e.1 (mem_log_nodes root e he), ?_⟩
  intro p hp c hc
  obtain ⟨hn, hk⟩ := (namesOk_iff root).1 hnames
  obtain ⟨chain, hch, hkids⟩ := exists_chain root p hp
  have hmem := recLog_path chain root.children "" c hn hk
    ((isChain_append chain _ c).2 ⟨hch, by rw [hkids]; exact hc⟩)
  rw [hkids] at hmem
  have hbridge := renderedLast_iff root (recLog "" (sortSlice lessAsc root.children))
    (fun q hq => ((namesOk_iff q).1 (namesOk_nodes root hnames q hq)).1) hptr rfl p hp c hc
  refine ⟨String.join (segsOf root.children chain), _, isIndent_segsOf _ _, hmem,
    log_unique root _ hptr rfl c _ hmem, ?_, ?_, ?_⟩
  · intro h
    rw [hbridge.1.1 h]
    simp [connector]
  · intro h
    rw [hbridge.2.1 h]
    simp [connector]
  · cases hb : lastByName p.children c with
    | true => exact Or.inl (hbridge.1.2 hb)
    | false => exact Or.inr (hbridge.2.2 hb)

/-- C5: on every tree with the root at level 0, every child one level below its
parent, siblings bearing distinct names and nodes at distinct addresses,
`printTree` returns, every line of the log is the line of a node reached from
the root through a chain of ancestors, and for every node `n` reached from the
root through the ancestors `chain` (the ancestor at index `L` is at level `L + 1`, `n` at level
`chain.length + 1`), the one line of `n` starts with `chain.length` segments,
the segment at index `L` being a bar and a tab exactly when the ancestor at that
index is not the last of its siblings in render order, and a bare tab exactly
when it is; the ancestor is not the last exactly when one of its siblings is
written after `n`; the connector follows the segments. -/
theorem indentation_segments (root : TreeItem) (h0 : root.level = 0)
    (hlev : levelsOk root = true) (hnames : namesOk root = true)
    (hptr : ((nodes root).map TreeItem.ptr).Nodup) :
    ∃ log, printTreeLog root = .ok log ∧
      (∀ e ∈ log, ∃ chain, isChain root.children (chain ++ [e.1])) ∧
      ∀ (chain : List TreeItem) (n : TreeItem), isChain root.children (chain ++ [n]) →
        n.level = chain.length + 1 ∧
        ∃ segs rest, segs.length = chain.length ∧
          (n, String.join segs ++ rest) ∈ log ∧
          (∀ e ∈ log, e.1.ptr = n.ptr → e = (n, String.join segs ++ rest)) ∧
          (∃ b, rest = connector b ++ n.fileInfo.name ++ sizeNote n.fileInfo ++ "\n") ∧
          ∀ (L : Nat) (a p : TreeItem), chain[L]? = some a → (root :: chain)[L]? = some p →
            a.level = L + 1 ∧ a ∈ p.children ∧
            (segs[L]? = some "│\t" ↔ ¬ renderedLast (order log) p.children a) ∧
            (segs[L]? = some "\t" ↔ renderedLast (order log) p.children a) ∧
            (¬ renderedLast (order log) p.children a ↔
              ∃ d ∈ p.children, d.ptr ≠ a.ptr ∧ List.Sublist [n.ptr, d.ptr] (order log)) := by
  refine ⟨_, printTreeLog_eq root h0 hlev hnames,
    fun e he => exists_chain_to _ e.1 (mem_log_nodes root e he), ?_⟩
  intro chain n hch
  obtain ⟨hn, hk⟩ := (namesOk_iff root).1 hnames
  have hmem := recLog_path chain root.children "" n hn hk hch
  have hline : "" ++ String.join (segsOf root.children chain)
      ++ connector (lastByName (kidsAt root.children chain) n)
      ++ n.fileInfo.name ++ sizeNote n.fileInfo ++ "\n"
      = String.join (segsOf root.children chain)
        ++ (connector (lastByName (kidsAt root.children chain) n)
          ++ n.fileInfo.name ++ sizeNote n.fileInfo ++ "\n") := by
    simp [String.append_assoc]
  rw [hline] at hmem
  constructor
  · have := chain_level (chain ++ [n]) root chain.length n hlev hch (by simp)
    rw [this, h0]
    simp
  · refine ⟨segsOf root.children chain, _, segsOf_length _ _, hmem,
      log_unique root _ hptr rfl n _ hmem, ⟨_, rfl⟩, ?_⟩
    intro L a p ha hp
    have hch' := ((isChain_append chain _ n).1 hch).1
    obtain ⟨hpn, hap⟩ := chain_mem chain root L a p hch' ha hp
    have hbridge := renderedLast_iff root (recLog "" (sortSlice lessAsc root.children))
      (fun q hq => ((namesOk_iff q).1 (namesOk_nodes root hnames q hq)).1) hptr rfl p hpn a hap
    have hlevel := chain_level chain root L a hlev hch' ha
    rw [h0] at hlevel
    have hafter := sibling_after_iff root (recLog "" (sortSlice lessAsc root.children))
      (fun q hq => ((namesOk_iff q).1 (namesOk_nodes root hnames q hq)).1) hptr rfl p hpn a hap
      n (chain_end_mem chain _ n L a hch ha)
    refine ⟨by rw [hlevel]; simp, hap, ?_, ?_, ?_⟩
    · rw [segsOf_getElem chain root L a p ha hp, Option.some.injEq, segment_eq_bar,
        hbridge.1]
      simp
    · rw [segsOf_getElem chain root L a p ha hp, Option.some.injEq, segment_eq_tab,
        hbridge.1]
    · rw [hafter, hbridge.1]
      simp

/-! ## Witnesses on `exampleTree` -/

/-- Witness of C3: in `exampleTree` the line of `b` is written before the line
of `c.txt`. -/
theorem siblings_written_ascending_witness :
    (namesOk exampleTree = true ∧ ((nodes exampleTree).map TreeItem.ptr).Nodup) ∧
      ∃ log, printTreeLog exampleTree = .ok log ∧ (order log).Nodup ∧
        List.Sublist [exampleB.ptr, exampleC.ptr] (order log) := by
  have h := siblings_written_ascending exampleTree (by decide) (by decide)
  obtain ⟨log, hlog⟩ := h.1 (by decide) (by decide)
  obtain ⟨hnd, hord⟩ := h.2 log hlog
  refine ⟨⟨by decide, by decide⟩, log, hlog, hnd, ?_⟩
  refine hord exampleTree (by rw [nodes_eq]; exact List.mem_cons_self _ _)
    exampleB (by simp [exampleTree, TreeItem.children])
    exampleC (by simp [exampleTree, TreeItem.children]) ?_
  show "b" < "c.txt"
  rw [String.lt_iff_toList_lt]
  decide

/-- Witness of C4: the line of `c.txt` in `exampleTree`. -/
theorem connector_marks_last_witness :
    (exampleTree.level = 0 ∧ levelsOk exampleTree = true ∧ namesOk exampleTree = true ∧
        ((nodes exampleTree).map TreeItem.ptr).Nodup) ∧
      ∃ log, printTreeLog exampleTree = .ok log ∧ ∃ indent line,
        isIndent indent ∧ (exampleC, line) ∈ log ∧
        (renderedLast (order log) exampleTree.children exampleC →
          line = indent ++ "└───" ++ exampleC.fileInfo.name
            ++ sizeNote exampleC.fileInfo ++ "\n") ∧
        (hasLaterSibling (order log) exampleTree.children exampleC →
          line = indent ++ "├───" ++ exampleC.fileInfo.name
            ++ sizeNote exampleC.fileInfo ++ "\n") := by
  obtain ⟨log, hlog, _, h⟩ :=
    connector_marks_last exampleTree (by decide) (by decide) (by decide) (by decide)
  obtain ⟨indent, line, h1, h2, _, h3, h4, _⟩ :=
    h exampleTree (by rw [nodes_eq]; exact List.mem_cons_self _ _)
      exampleC (by simp [exampleTree, TreeItem.children])
  exact ⟨⟨by decide, by decide, by decide, by decide⟩, log, hlog, indent, line, h1, h2, h3, h4⟩

/-- Witness of C5: the line of `q` in `exampleTree`, under the ancestors `b`
and `d`. -/
theorem indentation_segments_witness :
    (exampleTree.level = 0 ∧ levelsOk exampleTree = true ∧ namesOk exampleTree = true ∧
        ((nodes exampleTree).map TreeItem.ptr).Nodup) ∧
      ∃ log, printTreeLog exampleTree = .ok log ∧
        exampleQ.level = 3 ∧
        ∃ segs rest, segs.length = 2 ∧ (exampleQ, String.join segs ++ rest) ∈ log ∧
          (segs[0]? = some "│\t" ↔
            ¬ renderedLast (order log) exampleTree.children exampleB) ∧
          (segs[1]? = some "│\t" ↔
            ¬ renderedLast (order log) exampleB.children exampleD) := by
  obtain ⟨log, hlog, _, h⟩ :=
    indentation_segments exampleTree (by decide) (by decide) (by decide) (by decide)
  obtain ⟨hl, segs, rest, h1, h2, _, _, h3⟩ := h [exampleB, exampleD] exampleQ
    (by simp [isChain, exampleTree, exampleB, exampleD, TreeItem.children])
  refine ⟨⟨by decide, by decide, by decide, by decide⟩, log, hlog, by simpa using hl,
    segs, rest, h1, h2, ?_, ?_⟩
  · exact (h3 0 exampleB exampleTree rfl rfl).2.2.1
  · exact (h3 1 exampleD exampleB rfl rfl).2.2.1

/-! ## The builder -/

/-- The effect of the loop over the entries of a listing: the retained entries
get fresh cells at the end of the heap, in order; their addresses are appended
to the children of `curr` and pushed on the stack; no other cell changes. -/
theorem addChildren_spec (printFiles : Bool) (curr : Nat) (cp : String) (cl : Int) :
    ∀ (files : List FileInfo) (heap : List Cell) (stack : List Nat) (cell : Cell),
    heap[curr]? = some cell →
    (addChildren printFiles curr cp cl files heap stack).2
        = stack ++ List.range' heap.length (kept printFiles files).length ∧
      (addChildren printFiles curr cp cl files heap stack).1.length
        = heap.length + (kept printFiles files).length ∧
      (∀ i, i < heap.length → i ≠ curr →
        (addChildren printFiles curr cp cl files heap stack).1[i]? = heap[i]?) ∧
      (addChildren printFiles curr cp cl files heap stack).1[curr]?
        = some { cell with children :=
            cell.children ++ List.range' heap.length (kept printFiles files).length } ∧
      (∀ j f, (kept printFiles files)[j]? = some f →
        (addChildren printFiles curr cp cl files heap stack).1[heap.length + j]?
          = some (childCell curr cp cl f)) := by
  intro files
  induction files with
  | nil =>
    intro heap stack cell hcell
    simp [addChildren, kept, hcell]
  | cons file files ih =>
    intro heap stack cell hcell
    have hlt : curr < heap.length := by
      rcases List.getElem?_eq_some_iff.1 hcell with ⟨h, _⟩
      exact h
    by_cases hk : (file.isDir || (printFiles && !file.isDir)) = true
    · have hkept : kept printFiles (file :: files) = file :: kept printFiles files := by
        simp only [kept, List.filter_cons, hk, if_true]
      have hcell1 : (appendChild heap curr heap.length
            ++ [childCell curr cp cl file])[curr]?
          = some { cell with children := cell.children ++ [heap.length] } := by
        rw [List.getElem?_append_left (by simpa [appendChild] using hlt)]
        simp [appendChild, List.getElem?_modify, hcell]
      have hlen1 : (appendChild heap curr heap.length
          ++ [childCell curr cp cl file]).length = heap.length + 1 := by
        simp [appendChild]
      obtain ⟨h1, h2, h3, h4, h5⟩ := ih _ (stack ++ [heap.length]) _ hcell1
      rw [hlen1] at h1 h2 h3 h4 h5
      have hstep : addChildren printFiles curr cp cl (file :: files) heap stack
          = addChildren printFiles curr cp cl files
            (appendChild heap curr heap.length ++ [childCell curr cp cl file])
            (stack ++ [heap.length]) := by
        rw [addChildren]
        simp only [hk, if_true, childCell]
      rw [hstep, hkept]
      refine ⟨?_, ?_, ?_, ?_, ?_⟩
      · rw [h1]
        simp [List.range'_succ]
      · rw [h2]
        simp
        omega
      · intro i hi hne
        rw [h3 i (by omega) hne, List.getElem?_append_left (by simpa [appendChild] using hi)]
        simp [appendChild, List.getElem?_modify, hne, Ne.symm hne]
      · rw [h4]
        simp [List.range'_succ]
      · intro j f hj
        cases j with
        | zero =>
          simp only [List.getElem?_cons_zero, Option.some.injEq] at hj
          subst hj
          rw [Nat.add_zero, h3 heap.length (by omega) (by omega)]
          rw [List.getElem?_append_right (by simp [appendChild])]
          simp [appendChild]
        | succ j =>
          simp only [List.getElem?_cons_succ] at hj
          have := h5 j f hj
          rw [show heap.length + (j + 1) = heap.length + 1 + j by omega]
          exact this
    · have hkept : kept printFiles (file :: files) = kept printFiles files := by
        simp only [kept, List.filter_cons, hk]
        simp
      have hstep : addChildren printFiles curr cp cl (file :: files) heap stack
          = addChildren printFiles curr cp cl files heap stack := by
        rw [addChildren]
        simp only [hk]
        simp
      rw [hstep, hkept]
      exact ih heap stack cell hcell

theorem forall₂_range' (R : Nat → FileInfo → Prop) : ∀ (K : List FileInfo) (n : Nat),
    (∀ j f, K[j]? = some f → R (n + j) f) → List.Forall₂ R (List.range' n K.length) K := by
  intro K
  induction K with
  | nil => intro n _; simp
  | cons f fs ih =>
    intro n h
    rw [List.length_cons, List.range'_succ]
    refine List.Forall₂.cons (by simpa using h 0 f (by simp)) (ih (n + 1) ?_)
    intro j g hj
    have := h (j + 1) g (by simpa using hj)
    rw [show n + 1 + j = n + (j + 1) by omega]
    exact this

theorem getChildren_congr (fs : FileSystem) (c c' : Cell) (h1 : c'.fileInfo = c.fileInfo)
    (h2 : c'.path = c.path) : getChildren fs c' = getChildren fs c := by
  simp [getChildren, h1, h2]

/-- One iteration of the loop of `buildTree` preserves the invariant. -/
theorem buildInv_step (fs : FileSystem) (printFiles : Bool) (heap : List Cell)
    (stack : List Nat) (curr : Nat) (cell : Cell)
    (hinv : BuildInv fs printFiles heap stack) (hlast : stack.getLast? = some curr)
    (hcell : heap[curr]? = some cell) :
    BuildInv fs printFiles
        (addChildren printFiles curr cell.path cell.level (getChildren fs cell).1 heap
          stack.dropLast).1
        (addChildren printFiles curr cell.path cell.level (getChildren fs cell).1 heap
          stack.dropLast).2 ∧
      Extends heap
        (addChildren printFiles curr cell.path cell.level (getChildren fs cell).1 heap
          stack.dropLast).1 := by
  obtain ⟨i1, i2, i3, i4⟩ := hinv
  obtain ⟨s1, s2, s3, s4, s5⟩ := addChildren_spec printFiles curr cell.path cell.level
    (getChildren fs cell).1 heap stack.dropLast cell hcell
  generalize addChildren printFiles curr cell.path cell.level (getChildren fs cell).1 heap
    stack.dropLast = r at s1 s2 s3 s4 s5
  have hstack : stack.dropLast ++ [curr] = stack :=
    List.dropLast_append_getLast? curr (by simp [hlast])
  have hcurr : curr ∈ stack := by rw [← hstack]; simp
  have hdrop : ∀ p ∈ stack.dropLast, p ∈ stack ∧ p ≠ curr := by
    intro p hp
    refine ⟨by rw [← hstack]; exact List.mem_append_left _ hp, ?_⟩
    rintro rfl
    rw [← hstack] at i2
    exact (List.disjoint_of_nodup_append i2) hp (by simp)
  have hlt : curr < heap.length := i1 curr hcurr
  have hkids : cell.children = [] := i3 curr cell hcell hcurr
  have hext : Extends heap r.1 := by
    intro q c hq
    by_cases hqc : q = curr
    · subst hqc
      rw [hcell] at hq
      cases hq
      exact ⟨_, s4, rfl, rfl, rfl, rfl⟩
    · have hql : q < heap.length := (List.getElem?_eq_some_iff.1 hq).1
      exact ⟨c, by rw [s3 q hql hqc]; exact hq, rfl, rfl, rfl, rfl⟩
  refine ⟨⟨?_, ?_, ?_, ?_⟩, hext⟩
  · intro p hp
    rw [s1, List.mem_append] at hp
    rw [s2]
    rcases hp with hp | hp
    · have := i1 p (hdrop p hp).1
      omega
    · rw [List.mem_range'_1] at hp
      omega
  · rw [s1, List.nodup_append]
    refine ⟨(List.dropLast_sublist stack).nodup i2, List.nodup_range' _ _, ?_⟩
    intro p hp hp'
    have := i1 p (hdrop p hp).1
    rw [List.mem_range'_1] at hp'
    omega
  · intro p c hp hmem
    rw [s1, List.mem_append] at hmem
    rcases hmem with hmem | hmem
    · have hpl := i1 p (hdrop p hmem).1
      rw [s3 p hpl (hdrop p hmem).2] at hp
      exact i3 p c hp (hdrop p hmem).1
    · rw [List.mem_range'_1] at hmem
      obtain ⟨j, rfl⟩ : ∃ j, p = heap.length + j := ⟨p - heap.length, by omega⟩
      have hj : j < (kept printFiles (getChildren fs cell).1).length := by omega
      rw [s5 j _ (List.getElem?_eq_getElem hj)] at hp
      cases hp
      rfl
  · intro p c hp hnot
    rw [s1, List.mem_append, not_or] at hnot
    have hpl : p < heap.length + (kept printFiles (getChildren fs cell).1).length := by
      rw [← s2]
      exact (List.getElem?_eq_some_iff.1 hp).1
    by_cases hpc : p = curr
    · subst hpc
      rw [s4] at hp
      cases hp
      unfold Expanded
      rw [hkids]
      simp only [List.nil_append]
      have hg : ∀ ch : List Nat,
          getChildren fs { cell with children := ch } = getChildren fs cell :=
        fun ch => getChildren_congr fs _ _ rfl rfl
      rw [hg]
      apply forall₂_range'
      intro j f hj
      exact ⟨by omega, _, s5 j f hj, rfl, rfl, rfl, rfl⟩
    · have hpn : p < heap.length := by
        by_contra hge
        exact hnot.2 (List.mem_range'_1.2 ⟨by omega, by omega⟩)
      rw [s3 p hpn hpc] at hp
      have hns : p ∉ stack := by
        rw [← hstack, List.mem_append, not_or]
        exact ⟨hnot.1, by simpa using hpc⟩
      have hold := i4 p c hp hns
      unfold Expanded at hold ⊢
      refine hold.imp ?_
      rintro q f ⟨hpq, c', hc', e1, e2, e3, e4⟩
      obtain ⟨c'', hc'', f1, f2, f3, f4⟩ := hext q c' hc'
      exact ⟨hpq, c'', hc'', by rw [f1, e1], by rw [f2, e2], by rw [f3, e3], by rw [f4, e4]⟩

theorem extends_refl (heap : List Cell) : Extends heap heap :=
  fun _ c hq => ⟨c, hq, rfl, rfl, rfl, rfl⟩

theorem extends_trans {h₁ h₂ h₃ : List Cell} (h12 : Extends h₁ h₂) (h23 : Extends h₂ h₃) :
    Extends h₁ h₃ := by
  intro q c hq
  obtain ⟨c', hc', e1, e2, e3, e4⟩ := h12 q c hq
  obtain ⟨c'', hc'', f1, f2, f3, f4⟩ := h23 q c' hc'
  exact ⟨c'', hc'', f1.trans e1, f2.trans e2, f3.trans e3, f4.trans e4⟩

/-- When the loop of `buildTree` returns, every cell of the heap is expanded,
and the cells it started from are still there. -/
theorem buildLoop_inv (fs : FileSystem) (printFiles : Bool) :
    ∀ (fuel : Nat) (heap : List Cell) (stack : List Nat) (result : List Cell),
    BuildInv fs printFiles heap stack →
    buildLoop fs printFiles fuel heap stack = .ok result →
    BuildInv fs printFiles result [] ∧ Extends heap result := by
  intro fuel
  induction fuel with
  | zero =>
    intro heap stack result hinv h
    unfold buildLoop at h
    cases hlast : stack.getLast? with
    | none =>
      rw [hlast] at h
      simp only [Except.ok.injEq] at h
      subst h
      rw [List.getLast?_eq_none_iff.1 hlast] at hinv
      exact ⟨hinv, extends_refl _⟩
    | some curr =>
      rw [hlast] at h
      simp at h
  | succ fuel ih =>
    intro heap stack result hinv h
    unfold buildLoop at h
    cases hlast : stack.getLast? with
    | none =>
      rw [hlast] at h
      simp only [Except.ok.injEq] at h
      subst h
      rw [List.getLast?_eq_none_iff.1 hlast] at hinv
      exact ⟨hinv, extends_refl _⟩
    | some curr =>
      rw [hlast] at h
      simp only at h
      cases hcell : heap[curr]? with
      | none =>
        rw [hcell] at h
        simp at h
      | some cell =>
        rw [hcell] at h
        simp only at h
        obtain ⟨hinv', hext⟩ := buildInv_step fs printFiles heap stack curr cell hinv hlast hcell
        obtain ⟨hfin, hext'⟩ := ih _ _ result hinv' h
        exact ⟨hfin, extends_trans hext hext'⟩

theorem collect_eq_some : ∀ (l : List (Option TreeItem)) (ts : List TreeItem),
    collect l = some ts → List.Forall₂ (fun o t => o = some t) l ts := by
  intro l
  induction l with
  | nil =>
    intro ts h
    simp only [collect, Option.some.injEq] at h
    subst h
    exact List.Forall₂.nil
  | cons o rest ih =>
    intro ts h
    cases o with
    | none => simp [collect] at h
    | some t =>
      cases hrest : collect rest with
      | none => simp [collect, hrest] at h
      | some ts' =>
        simp only [collect, hrest, Option.some.injEq] at h
        subst h
        exact List.Forall₂.cons rfl (ih ts' hrest)

theorem toTree_eq_some (heap : List Cell) (depth p : Nat) (t : TreeItem)
    (h : toTree heap (depth + 1) p = some t) :
    ∃ cell cs, heap[p]? = some cell ∧
      t = .mk p cell.parent cs cell.fileInfo cell.path cell.level ∧
      List.Forall₂ (fun q c => toTree heap depth q = some c) cell.children cs := by
  unfold toTree at h
  cases hcell : heap[p]? with
  | none => simp [hcell] at h
  | some cell =>
    rw [hcell] at h
    simp only at h
    cases hcs : collect (cell.children.map (toTree heap depth)) with
    | none => simp [hcs] at h
    | some cs =>
      rw [hcs] at h
      simp only [Option.some.injEq] at h
      refine ⟨cell, cs, rfl, h.symm, ?_⟩
      have := collect_eq_some _ _ hcs
      rw [List.forall₂_map_left_iff] at this
      exact this

/-- Children of the tree of an expanded cell: each is the tree of a cell one
level below, built for an entry of the listing, in the order of the retained
entries. -/
theorem children_of_expanded (heap : List Cell) (depth p : Nat) (cell : Cell) :
    ∀ (qs : List Nat) (cs : List TreeItem) (K : List FileInfo),
    List.Forall₂ (fun q c => toTree heap depth q = some c) qs cs →
    List.Forall₂
      (fun q f => p < q ∧ ∃ c : Cell, heap[q]? = some c ∧ c.fileInfo = f ∧
        c.path = cell.path ++ "/" ++ f.name ∧ c.level = cell.level + 1 ∧ c.parent = some p)
      qs K →
    List.Forall₂
      (fun c f => ∃ q, toTree heap depth q = some c ∧ c.fileInfo = f ∧
        c.level = cell.level + 1 ∧ c.path = cell.path ++ "/" ++ f.name)
      cs K := by
  intro qs
  induction qs with
  | nil =>
    intro cs K h1 h2
    cases h1
    cases h2
    exact List.Forall₂.nil
  | cons q qs ih =>
    intro cs K h1 h2
    cases h1 with
    | cons hq h1 =>
      cases h2 with
      | cons hf h2 =>
        refine List.Forall₂.cons ?_ (ih _ _ h1 h2)
        obtain ⟨_, c', hc', e1, e2, e3, _⟩ := hf
        cases depth with
        | zero => simp [toTree] at hq
        | succ depth =>
          obtain ⟨cell', cs', hcell', ht, _⟩ := toTree_eq_some heap depth q _ hq
          rw [hc'] at hcell'
          cases hcell'
          subst ht
          exact ⟨q, hq, e1, e3, e2⟩

theorem forall₂_left_mem {R : TreeItem → FileInfo → Prop} :
    ∀ (cs : List TreeItem) (K : List FileInfo), List.Forall₂ R cs K →
    ∀ c ∈ cs, ∃ f ∈ K, R c f := by
  intro cs K h
  induction h with
  | nil => intro c hc; simp at hc
  | cons hr _ ih =>
    intro c hc
    rcases List.mem_cons.1 hc with rfl | hc
    · exact ⟨_, List.mem_cons_self _ _, hr⟩
    · obtain ⟨f, hf, hrf⟩ := ih c hc
      exact ⟨f, List.mem_cons_of_mem _ hf, hrf⟩

theorem forall₂_map_eq {R : TreeItem → FileInfo → Prop}
    (hR : ∀ c f, R c f → c.fileInfo = f) :
    ∀ (cs : List TreeItem) (K : List FileInfo), List.Forall₂ R cs K →
    cs.map (fun c => c.fileInfo) = K := by
  intro cs K h
  induction h with
  | nil => rfl
  | cons hr _ ih => simp [hR _ _ hr, ih]

/-- The tree of an address in a heap whose cells are all expanded: every node
is the image of its cell, its children are one level below it and are, in
order, the retained entries of the listing of the cell. -/
theorem toTree_expanded (fs : FileSystem) (printFiles : Bool) (heap : List Cell)
    (hall : ∀ (p : Nat) (cell : Cell), heap[p]? = some cell →
      Expanded fs printFiles heap p cell) :
    ∀ (depth p : Nat) (t : TreeItem), toTree heap depth p = some t →
    (∃ cell : Cell, heap[p]? = some cell ∧ t.level = cell.level ∧ t.path = cell.path ∧
      t.fileInfo = cell.fileInfo) ∧
    ∀ n ∈ nodes t,
      (∀ c ∈ n.children, c.level = n.level + 1 ∧
        c.path = n.path ++ "/" ++ c.fileInfo.name) ∧
      ∃ cell : Cell, n.fileInfo = cell.fileInfo ∧ n.path = cell.path ∧
        n.children.map (fun c => c.fileInfo) = kept printFiles (getChildren fs cell).1 := by
  intro depth
  induction depth with
  | zero => intro p t h; simp [toTree] at h
  | succ depth ih =>
    intro p t h
    obtain ⟨cell, cs, hcell, rfl, hcs⟩ := toTree_eq_some heap depth p t h
    have hB := children_of_expanded heap depth p cell _ _ _ hcs (hall p cell hcell)
    refine ⟨⟨cell, hcell, rfl, rfl, rfl⟩, ?_⟩
    intro n hn
    rw [nodes, List.mem_cons] at hn
    rcases hn with rfl | hn
    · constructor
      · intro c hc
        obtain ⟨f, _, _, _, e1, e2, e3⟩ := forall₂_left_mem _ _ hB c hc
        exact ⟨e2, by rw [e3, e1]; rfl⟩
      · exact ⟨cell, rfl, rfl, forall₂_map_eq (fun c f hcf => by
          obtain ⟨_, _, e1, _⟩ := hcf
          exact e1) _ _ hB⟩
    · obtain ⟨c, hc, hnc⟩ := (mem_nodesL n cs).1 hn
      obtain ⟨f, _, q, hq, _⟩ := forall₂_left_mem _ _ hB c hc
      exact (ih q c hq).2 n hnc

/-- The tree `buildTree` returns: the root is the cell of the path given, at
level 0, and every node is expanded. -/
theorem buildTree_spec (fs : FileSystem) (fuel : Nat) (path : String) (printFiles : Bool)
    (root : TreeItem) (err : Option IOError)
    (h : buildTree fs fuel path printFiles = .ok (root, err)) :
    err = none ∧ root.level = 0 ∧ root.path = path ∧ fs.lstat path = .ok root.fileInfo ∧
    ∀ n ∈ nodes root,
      (∀ c ∈ n.children, c.level = n.level + 1 ∧
        c.path = n.path ++ "/" ++ c.fileInfo.name) ∧
      ∃ cell : Cell, n.fileInfo = cell.fileInfo ∧ n.path = cell.path ∧
        n.children.map (fun c => c.fileInfo) = kept printFiles (getChildren fs cell).1 := by
  unfold buildTree at h
  cases hstat : fs.lstat path with
  | error e => simp [hstat] at h
  | ok info =>
    rw [hstat] at h
    simp only at h
    cases hloop : buildLoop fs printFiles fuel
        [{ parent := none, children := [], fileInfo := info, path := path, level := 0 }] [0] with
    | error e => simp [hloop] at h
    | ok heap =>
      rw [hloop] at h
      simp only at h
      cases htree : toTree heap heap.length 0 with
      | none => simp [htree] at h
      | some tree =>
        rw [htree] at h
        simp only [Except.ok.injEq, Prod.mk.injEq] at h
        obtain ⟨rfl, rfl⟩ := h
        have hinit : BuildInv fs printFiles
            [{ parent := none, children := [], fileInfo := info, path := path, level := 0 }]
            [0] := by
          refine ⟨by simp, by simp, ?_, ?_⟩
          · intro p cell hp _
            cases p with
            | zero =>
              simp only [List.getElem?_cons_zero, Option.some.injEq] at hp
              subst hp
              rfl
            | succ p => simp at hp
          · intro p cell hp hnot
            cases p with
            | zero => simp at hnot
            | succ p => simp at hp
        obtain ⟨hfin, hext⟩ := buildLoop_inv fs printFiles fuel _ _ heap hinit hloop
        obtain ⟨c0, hc0, e1, e2, e3, _⟩ := hext 0
          { parent := none, children := [], fileInfo := info, path := path, level := 0 } rfl
        obtain ⟨⟨cell, hcell, l1, l2, l3⟩, hnodes⟩ := toTree_expanded fs printFiles heap
          (fun p cell hp => hfin.2.2.2 p cell hp (by simp)) heap.length 0 tree htree
        rw [hc0] at hcell
        cases hcell
        exact ⟨rfl, by rw [l1, e3], by rw [l2, e2], by rw [l3, e1], hnodes⟩

theorem collect_map_some (f : Nat → Option TreeItem) : ∀ (l : List Nat),
    (∀ q ∈ l, ∃ t, f q = some t) → ∃ ts, collect (l.map f) = some ts := by
  intro l
  induction l with
  | nil => intro _; exact ⟨[], rfl⟩
  | cons q qs ih =>
    intro h
    obtain ⟨t, ht⟩ := h q (List.mem_cons_self _ _)
    obtain ⟨ts, hts⟩ := ih (fun x hx => h x (List.mem_cons_of_mem _ hx))
    exact ⟨t :: ts, by simp [collect, ht, hts]⟩

theorem forall₂_left_cell {R : Nat → FileInfo → Prop} :
    ∀ (qs : List Nat) (K : List FileInfo), List.Forall₂ R qs K →
    ∀ q ∈ qs, ∃ f, R q f := by
  intro qs K h
  induction h with
  | nil => intro q hq; simp at hq
  | cons hr _ ih =>
    intro q hq
    rcases List.mem_cons.1 hq with rfl | hq
    · exact ⟨_, hr⟩
    · exact ih q hq

/-- In a heap whose cells are all expanded every address denotes a tree: the
children of a cell lie at greater addresses, so a depth bound of
`heap.length - p` is enough at address `p`. -/
theorem toTree_total (fs : FileSystem) (printFiles : Bool) (heap : List Cell)
    (hall : ∀ (p : Nat) (cell : Cell), heap[p]? = some cell →
      Expanded fs printFiles heap p cell) :
    ∀ (depth p : Nat), p < heap.length → heap.length ≤ p + depth →
    ∃ t, toTree heap depth p = some t := by
  intro depth
  induction depth with
  | zero => intro p h1 h2; omega
  | succ depth ih =>
    intro p h1 h2
    have hcell : heap[p]? = some heap[p] := List.getElem?_eq_getElem h1
    have hkids : ∀ q ∈ heap[p].children, ∃ t, toTree heap depth q = some t := by
      intro q hq
      obtain ⟨f, hpq, c, hc, _⟩ := forall₂_left_cell _ _ (hall p _ hcell) q hq
      have hql : q < heap.length := (List.getElem?_eq_some_iff.1 hc).1
      exact ih q hql (by omega)
    obtain ⟨ts, hts⟩ := collect_map_some (toTree heap depth) _ hkids
    refine ⟨.mk p heap[p].parent ts heap[p].fileInfo heap[p].path heap[p].level, ?_⟩
    rw [toTree, hcell]
    simp only [hts]

/-- When the root can be inspected and the loop of `buildTree` returns,
`buildTree` returns a tree and the nil error. -/
theorem buildTree_returns (fs : FileSystem) (fuel : Nat) (path : String) (printFiles : Bool)
    (info : FileInfo) (heap : List Cell) (hstat : fs.lstat path = .ok info)
    (hloop : buildLoop fs printFiles fuel
      [{ parent := none, children := [], fileInfo := info, path := path, level := 0 }] [0]
        = .ok heap) :
    ∃ root, buildTree fs fuel path printFiles = .ok (root, none) := by
  have hinit : BuildInv fs printFiles
      [{ parent := none, children := [], fileInfo := info, path := path, level := 0 }]
      [0] := by
    refine ⟨by simp, by simp, ?_, ?_⟩
    · intro p cell hp _
      cases p with
      | zero =>
        simp only [List.getElem?_cons_zero, Option.some.injEq] at hp
        subst hp
        rfl
      | succ p => simp at hp
    · intro p cell hp hnot
      cases p with
      | zero => simp at hnot
      | succ p => simp at hp
  obtain ⟨hfin, hext⟩ := buildLoop_inv fs printFiles fuel _ _ heap hinit hloop
  obtain ⟨c0, hc0, _⟩ := hext 0
    { parent := none, children := [], fileInfo := info, path := path, level := 0 } rfl
  have hpos : 0 < heap.length := (List.getElem?_eq_some_iff.1 hc0).1
  obtain ⟨t, ht⟩ := toTree_total fs printFiles heap
    (fun p cell hp => hfin.2.2.2 p cell hp (by simp)) heap.length 0 hpos (by omega)
  exact ⟨t, by simp [buildTree, hstat, hloop, ht]⟩

/-- C8: in every tree `buildTree` returns, the root has level 0 and every child
of every node has the level of the node plus one. -/
theorem buildTree_levels (fs : FileSystem) (fuel : Nat) (path : String) (printFiles : Bool)
    (root : TreeItem) (err : Option IOError)
    (h : buildTree fs fuel path printFiles = .ok (root, err)) :
    root.level = 0 ∧ ∀ n ∈ nodes root, ∀ c ∈ n.children, c.level = n.level + 1 := by
  obtain ⟨_, h0, _, _, hn⟩ := buildTree_spec fs fuel path printFiles root err h
  exact ⟨h0, fun n hn' c hc => ((hn n hn').1 c hc).1⟩

/-- Witness of C8: the tree built on `exampleFS`. -/
theorem buildTree_levels_witness :
    buildTree exampleFS 3 "/a" true = .ok (exampleBuilt, none) ∧
      exampleBuilt.level = 0 ∧
      ∀ n ∈ nodes exampleBuilt, ∀ c ∈ n.children, c.level = n.level + 1 :=
  ⟨rfl, buildTree_levels exampleFS 3 "/a" true exampleBuilt none rfl⟩

/-- C7: in every tree `buildTree` returns, the children of a directory node
whose listing succeeded are, in order, the entries of the listing that are
directories, together with the plain files when `printFiles` is set: an entry of
the listing is a child of the node if and only if it is a directory or
`printFiles` is true. -/
theorem buildTree_retains (fs : FileSystem) (fuel : Nat) (path : String) (printFiles : Bool)
    (root : TreeItem) (err : Option IOError)
    (h : buildTree fs fuel path printFiles = .ok (root, err)) :
    ∀ n ∈ nodes root, n.fileInfo.isDir = true →
      ∀ files, fs.readdir n.path = .ok files →
        n.children.map (fun c => c.fileInfo) = files.filter (fun f => f.isDir || printFiles) ∧
        ∀ f ∈ files, (∃ c ∈ n.children, c.fileInfo = f) ↔
          (f.isDir = true ∨ printFiles = true) := by
  obtain ⟨_, _, _, _, hn⟩ := buildTree_spec fs fuel path printFiles root err h
  intro n hn' hdir files hfiles
  obtain ⟨_, cell, e1, e2, e3⟩ := hn n hn'
  have hlist : (getChildren fs cell).1 = files := by
    simp [getChildren, ← e1, ← e2, hdir, hfiles]
  have hkept : kept printFiles files = files.filter (fun f => f.isDir || printFiles) := by
    unfold kept
    congr 1
    funext f
    cases f.isDir <;> cases printFiles <;> rfl
  rw [hlist, hkept] at e3
  refine ⟨e3, ?_⟩
  intro f hf
  have hmem : (∃ c ∈ n.children, c.fileInfo = f) ↔ f ∈ n.children.map (fun c => c.fileInfo) := by
    simp [List.mem_map]
  rw [hmem, e3, List.mem_filter]
  simp [hf]

/-- Witness of C7: on `exampleFS` with `printFiles` unset, the directory `b` of
the listing of `/a` is a child of the root and the file `c.txt` is not. -/
theorem buildTree_retains_witness :
    buildTree exampleFS 3 "/a" false
        = .ok (.mk 0 none [.mk 1 (some 0) [] ⟨"b", 4096, true⟩ "/a/b" 1]
            ⟨"a", 4096, true⟩ "/a" 0, none) ∧
      ∀ f ∈ [(⟨"c.txt", 5, false⟩ : FileInfo), ⟨"b", 4096, true⟩],
        (∃ c ∈ [TreeItem.mk 1 (some 0) [] ⟨"b", 4096, true⟩ "/a/b" 1], c.fileInfo = f) ↔
          (f.isDir = true ∨ false = true) :=
  ⟨rfl, (buildTree_retains exampleFS 3 "/a" false _ none rfl
    (.mk 0 none [.mk 1 (some 0) [] ⟨"b", 4096, true⟩ "/a/b" 1] ⟨"a", 4096, true⟩ "/a" 0)
    (List.mem_cons_self _ _) rfl
    [⟨"c.txt", 5, false⟩, ⟨"b", 4096, true⟩] rfl).2⟩

/-! ## The examples of the specification -/

theorem perm_pair (l : List FileInfo) (a b : FileInfo) (h : l.Perm [a, b]) :
    l = [a, b] ∨ l = [b, a] := by
  have hlen := h.length_eq
  match l, hlen with
  | [x, y], _ =>
    have hx : x = a ∨ x = b := by simpa using h.subset (List.mem_cons_self x [y])
    have hy : y = a ∨ y = b := by simpa using h.subset (show y ∈ [x, y] by simp)
    have ha : a = x ∨ a = y := by simpa using h.symm.subset (List.mem_cons_self a [b])
    have hb : b = x ∨ b = y := by simpa using h.symm.subset (show b ∈ [a, b] by simp)
    rcases hx with rfl | rfl <;> rcases hy with rfl | rfl
    · rcases hb with rfl | rfl <;> simp
    · simp
    · simp
    · rcases ha with rfl | rfl <;> simp

theorem dirTree_example_aux (fs : FileSystem) (info : FileInfo) (sizeB : Int)
    (listing : List FileInfo) (k : Nat) (printFiles : Bool)
    (hstat : fs.lstat "/a" = .ok info) (hdir : info.isDir = true)
    (hlist : fs.readdir "/a" = .ok listing)
    (hperm : listing.Perm [⟨"b", sizeB, true⟩, ⟨"c.txt", 5, false⟩])
    (hb : fs.readdir "/a/b" = .ok []) :
    dirTree fs (k + 3) "/a" printFiles =
      .ok (if printFiles then ["├───b\n", "└───c.txt (5b)\n"] else ["└───b\n"], none) := by
  have h1 : nameLess "b" "c.txt" = true := by decide
  have h2 : nameLess "c.txt" "b" = false := by decide
  have h3 : nameLess "b" "b" = false := by decide
  have h4 : nameLess "c.txt" "c.txt" = false := by decide
  rcases perm_pair _ _ _ hperm with rfl | rfl <;> cases printFiles <;>
    simp [dirTree, buildTree, hstat, buildLoop, getChildren, hdir, hlist, addChildren,
      appendChild, hb, toTree, collect, printTree, printTreeLog, printLoop, sortSlice,
      insertSorted, lessAsc, lessDesc, h1, h2, h3, h4, printLine, indentLoop, setLevel,
      prepend, sizeL, size, TreeItem.children, TreeItem.level, TreeItem.fileInfo,
      List.modify, List.getLast?] <;> rfl

/-- C1: on a file system whose directory `/a` lists exactly the empty directory
`b` and the plain file `c.txt` of 5 bytes, in either order, `dirTree` with the
files included, given fuel for the three nodes, writes the line of `b` and then
the line of `c.txt`, and returns the nil error. -/
theorem dirTree_example_files (fs : FileSystem) (info : FileInfo) (sizeB : Int)
    (listing : List FileInfo) (k : Nat)
    (hstat : fs.lstat "/a" = .ok info) (hdir : info.isDir = true)
    (hlist : fs.readdir "/a" = .ok listing)
    (hperm : listing.Perm [⟨"b", sizeB, true⟩, ⟨"c.txt", 5, false⟩])
    (hb : fs.readdir "/a/b" = .ok []) :
    dirTree fs (k + 3) "/a" true = .ok (["├───b\n", "└───c.txt (5b)\n"], none) := by
  simpa using dirTree_example_aux fs info sizeB listing k true hstat hdir hlist hperm hb

/-- Witness of C1: the run on `exampleFS`. -/
theorem dirTree_example_files_witness :
    dirTree exampleFS 3 "/a" true = .ok (["├───b\n", "└───c.txt (5b)\n"], none) :=
  dirTree_example_files exampleFS ⟨"a", 4096, true⟩ 4096
    [⟨"c.txt", 5, false⟩, ⟨"b", 4096, true⟩] 0 rfl rfl rfl (List.Perm.swap _ _ _) rfl

/-- C2: on the same file system, `dirTree` with the files excluded, given fuel
for the three nodes, writes the single line of `b`, and returns the nil error. -/
theorem dirTree_example_dirs (fs : FileSystem) (info : FileInfo) (sizeB : Int)
    (listing : List FileInfo) (k : Nat)
    (hstat : fs.lstat "/a" = .ok info) (hdir : info.isDir = true)
    (hlist : fs.readdir "/a" = .ok listing)
    (hperm : listing.Perm [⟨"b", sizeB, true⟩, ⟨"c.txt", 5, false⟩])
    (hb : fs.readdir "/a/b" = .ok []) :
    dirTree fs (k + 3) "/a" false = .ok (["└───b\n"], none) := by
  simpa using dirTree_example_aux fs info sizeB listing k false hstat hdir hlist hperm hb

/-- Witness of C2: the run on `exampleFS`. -/
theorem dirTree_example_dirs_witness :
    dirTree exampleFS 3 "/a" false = .ok (["└───b\n"], none) :=
  dirTree_example_dirs exampleFS ⟨"a", 4096, true⟩ 4096
    [⟨"c.txt", 5, false⟩, ⟨"b", 4096, true⟩] 0 rfl rfl rfl (List.Perm.swap _ _ _) rfl

/-! ## Failure to inspect the root -/

theorem buildTree_lstat_error (fs : FileSystem) (fuel : Nat) (path : String)
    (printFiles : Bool) (e : IOError) (h : fs.lstat path = .error e) :
    buildTree fs fuel path printFiles = .error .nilDereference ∧
      dirTree fs fuel path printFiles = .error .nilDereference := by
  simp [dirTree, buildTree, h]

/-- The error `buildTree` returns is always nil. -/
theorem buildTree_error_nil (fs : FileSystem) (fuel : Nat) (path : String) (printFiles : Bool)
    (root : TreeItem) (err : Option IOError)
    (h : buildTree fs fuel path printFiles = .ok (root, err)) : err = none :=
  (buildTree_spec fs fuel path printFiles root err h).1

/-- C11 (the code departs from the claim): on `exampleFS` the path `/missing`
cannot be inspected; `buildTree` does not return an error, it stops with the
nil dereference of `getChildren`, and so does `dirTree`, for either value of
`printFiles` and whatever the fuel. -/
theorem buildTree_missing_root :
    exampleFS.lstat "/missing" = .error ⟨"no such file or directory"⟩ ∧
      (∀ fuel printFiles,
        buildTree exampleFS fuel "/missing" printFiles = .error .nilDereference ∧
        dirTree exampleFS fuel "/missing" printFiles = .error .nilDereference) ∧
      ∀ fuel printFiles root err,
        buildTree exampleFS fuel "/missing" printFiles ≠ .ok (root, some err) := by
  have hstat : exampleFS.lstat "/missing" = .error ⟨"no such file or directory"⟩ := by decide
  refine ⟨hstat, fun fuel printFiles =>
    buildTree_lstat_error exampleFS fuel "/missing" printFiles _ hstat, ?_⟩
  intro fuel printFiles root err h
  have := buildTree_error_nil exampleFS fuel "/missing" printFiles root (some err) h
  cases this

/-! ## The root is a plain file -/

/-- C17: when the root path denotes a plain file, `buildTree`, given fuel for
one node, returns a root without children and `dirTree` writes nothing and
returns the nil error, for both values of `printFiles`. -/
theorem dirTree_plain_file (fs : FileSystem) (path : String) (info : FileInfo)
    (printFiles : Bool) (k : Nat)
    (hstat : fs.lstat path = .ok info) (hfile : info.isDir = false) :
    buildTree fs (k + 1) path printFiles = .ok (.mk 0 none [] info path 0, none) ∧
      printTree (.mk 0 none [] info path 0) = .ok ([], none) ∧
      dirTree fs (k + 1) path printFiles = .ok ([], none) := by
  have hb : buildTree fs (k + 1) path printFiles = .ok (.mk 0 none [] info path 0, none) := by
    simp [buildTree, hstat, buildLoop, getChildren, hfile, addChildren, toTree, collect]
  refine ⟨hb, by simp [printTree, printTreeLog, TreeItem.children], ?_⟩
  simp [dirTree, hb, printTree, printTreeLog, TreeItem.children]

/-- Witness of C17: the file `/a/c.txt` of `exampleFS`. -/
theorem dirTree_plain_file_witness :
    (exampleFS.lstat "/a/c.txt" = .ok ⟨"c.txt", 5, false⟩) ∧
      buildTree exampleFS 1 "/a/c.txt" true
        = .ok (.mk 0 none [] ⟨"c.txt", 5, false⟩ "/a/c.txt" 0, none) ∧
      printTree (.mk 0 none [] ⟨"c.txt", 5, false⟩ "/a/c.txt" 0) = .ok ([], none) ∧
      dirTree exampleFS 1 "/a/c.txt" true = .ok ([], none) :=
  ⟨by decide, dirTree_plain_file exampleFS "/a/c.txt" ⟨"c.txt", 5, false⟩ true 0
    (by decide) rfl⟩

/-! ## The entry point -/

/-- C14: for every argument vector whose length is neither 2 nor 3, `main`
ends with the usage panic whatever the call of `dirTree` would do, so without
calling it and without any access to the file system; for the lengths 2 and 3
it does not end with the usage panic. -/
theorem main_usage (args : List String) :
    (args.length ≠ 2 → args.length ≠ 3 →
      (∀ run, mainWith run args = .usagePanic) ∧
      ∀ fs fuel, main fs fuel args = .usagePanic) ∧
    (args.length = 2 ∨ args.length = 3 →
      (∀ run, mainWith run args ≠ .usagePanic) ∧
      ∀ fs fuel, main fs fuel args ≠ .usagePanic) := by
  constructor
  · intro h2 h3
    have : ∀ run, mainWith run args = .usagePanic := by
      intro run
      simp [mainWith, h2, h3]
    exact ⟨this, fun fs fuel => this _⟩
  · intro h
    have : ∀ run, mainWith run args ≠ .usagePanic := by
      intro run
      have hcond : (args.length == 2 || args.length == 3) = true := by
        rcases h with h | h <;> simp [h]
      have h1 : 1 < args.length := by rcases h with h | h <;> omega
      simp only [mainWith, hcond, Bool.not_true, Bool.false_eq_true, if_false,
        List.getElem?_eq_getElem h1]
      generalize run _ _ = r
      match r with
      | .error f => simp [finish]
      | .ok (_, some err) => simp [finish]
      | .ok (written, none) => simp [finish]
    exact ⟨this, fun fs fuel => this _⟩

/-- Witness of C14: the program name alone, and four arguments. -/
theorem main_usage_witness :
    (∀ run, mainWith run ["tree"] = .usagePanic) ∧
      (∀ fs fuel, main fs fuel ["tree", "/a", "-f", "x"] = .usagePanic) ∧
      (∀ fs fuel, main fs fuel ["tree", "/a"] ≠ .usagePanic) :=
  ⟨((main_usage ["tree"]).1 (by decide) (by decide)).1,
    ((main_usage ["tree", "/a", "-f", "x"]).1 (by decide) (by decide)).2,
    ((main_usage ["tree", "/a"]).2 (by decide)).2⟩

/-- With `printFiles` unset every node `buildTree` creates below the root is a
directory. -/
theorem buildTree_dirs_only (fs : FileSystem) (fuel : Nat) (path : String)
    (root : TreeItem) (err : Option IOError)
    (h : buildTree fs fuel path false = .ok (root, err)) :
    ∀ n ∈ nodesL root.children, n.fileInfo.isDir = true := by
  obtain ⟨_, _, _, _, hn⟩ := buildTree_spec fs fuel path false root err h
  intro n hnode
  obtain ⟨p, hp, hnp⟩ := exists_parent root n hnode
  obtain ⟨_, cell, _, _, e3⟩ := hn p hp
  have hmem : n.fileInfo ∈ p.children.map (fun c => c.fileInfo) :=
    List.mem_map_of_mem (fun c => c.fileInfo) hnp
  rw [e3, kept, List.mem_filter] at hmem
  simpa using hmem.2

/-- C15: for an argument vector of length 2 or 3, `main` calls `dirTree` once,
on the path `os.Args[1]`, with `printFiles` true if and only if there is a
third element and it is exactly `"-f"`; when `printFiles` is false, every node
of the tree `buildTree` returns below the root is a directory. -/
theorem main_flag (args : List String) (h : args.length = 2 ∨ args.length = 3) :
    ∃ path printFiles, args[1]? = some path ∧
      (printFiles = true ↔ args[2]? = some "-f") ∧
      (∀ run, mainWith run args = finish (run path printFiles)) ∧
      (∀ fs fuel, main fs fuel args = finish (dirTree fs fuel path printFiles)) ∧
      (printFiles = false → ∀ fs fuel root err,
        buildTree fs fuel path printFiles = .ok (root, err) →
        ∀ n ∈ nodesL root.children, n.fileInfo.isDir = true) := by
  have hcond : (args.length == 2 || args.length == 3) = true := by
    rcases h with h | h <;> simp [h]
  have h1 : 1 < args.length := by rcases h with h | h <;> omega
  have hflag : (args.length == 3 && args[2]? == some "-f") = true ↔ args[2]? = some "-f" := by
    constructor
    · intro hf
      simp only [Bool.and_eq_true, beq_iff_eq] at hf
      exact hf.2
    · intro hf
      have h3 : args.length = 3 := by
        rcases h with h | h
        · have : 2 < args.length := (List.getElem?_eq_some_iff.1 hf).1
          omega
        · exact h
      simp [h3, hf]
  have hrun : ∀ run, mainWith run args
      = finish (run args[1] (args.length == 3 && args[2]? == some "-f")) := by
    intro run
    simp only [mainWith, hcond, Bool.not_true, Bool.false_eq_true, if_false,
      List.getElem?_eq_getElem h1]
  refine ⟨args[1], (args.length == 3 && args[2]? == some "-f"),
    List.getElem?_eq_getElem h1, hflag, hrun, fun fs fuel => hrun _, ?_⟩
  intro hf fs fuel root err hb
  rw [hf] at hb
  exact buildTree_dirs_only fs fuel _ root err hb

/-- Witness of C15: with `-f` the files are included, with another third
argument or none they are not. -/
theorem main_flag_witness :
    main exampleFS 3 ["tree", "/a", "-f"] = .done ["├───b\n", "└───c.txt (5b)\n"] ∧
      main exampleFS 3 ["tree", "/a", "-d"] = .done ["└───b\n"] ∧
      main exampleFS 3 ["tree", "/a"] = .done ["└───b\n"] ∧
      ∃ path printFiles, ["tree", "/a", "-f"][1]? = some path ∧
        (printFiles = true ↔ ["tree", "/a", "-f"][2]? = some "-f") ∧
        (∀ fs fuel, main fs fuel ["tree", "/a", "-f"]
          = finish (dirTree fs fuel path printFiles)) := by
  obtain ⟨path, printFiles, h1, h2, _, h3, _⟩ :=
    main_flag ["tree", "/a", "-f"] (by decide)
  exact ⟨by decide, by decide, by decide, path, printFiles, h1, h2, h3⟩

/-! ## The queue loop: bounds of `levels`, termination, one write per node -/

/-- The queue loop is the iteration of `printStep`. -/
theorem printLoop_succ (fuel : Nat) (c : TreeItem) (queue : List TreeItem)
    (levels : List Bool) (out : List (TreeItem × String)) :
    printLoop (fuel + 1) (c :: queue) levels out =
      match printStep c queue levels with
      | .error e => .error e
      | .ok next => printLoop fuel next.1 next.2.1 (out ++ [(c, next.2.2)]) := by
  simp only [printLoop, printStep]
  split
  · rfl
  · split
    · rfl
    · split <;> rfl

theorem printLine_ok (item : TreeItem) (levels : List Bool) (isLast : Bool)
    (h : item.level ≤ levels.length) (hne : 0 < levels.length) :
    ∃ line, printLine item levels isLast = .ok line := by
  have hloop := indentLoop_eq levels (item.level - 1).toNat 1 "" (by omega)
  unfold printLine
  rw [hloop]
  exact ⟨_, rfl⟩

theorem extend_levels_ok (levels : List Bool) (level : Int) (h1 : 1 ≤ level)
    (h2 : level ≤ levels.length) :
    ∃ l1, (if (levels.length : Int) ≤ level then
          (Except.ok (levels ++ [true]) : Except Fault (List Bool))
        else setLevel levels level true) = .ok l1 ∧
      levels.length ≤ l1.length ∧ level + 1 ≤ l1.length := by
  by_cases hle : (levels.length : Int) ≤ level
  · refine ⟨levels ++ [true], by rw [if_pos hle], by simp, ?_⟩
    simp only [List.length_append, List.length_singleton]
    push_cast
    omega
  · have hlt : level < levels.length := by omega
    refine ⟨levels.set level.toNat true, ?_, by simp, ?_⟩
    · rw [if_neg hle, setLevel, if_pos ⟨by omega, hlt⟩]
    · simp only [List.length_set]
      omega

theorem clear_level_ok (l1 : List Bool) (level : Int) (more : Bool) (h1 : 1 ≤ level)
    (h2 : level + 1 ≤ l1.length) :
    ∃ l2, (if (!more) = true then setLevel l1 level false
        else (Except.ok l1 : Except Fault (List Bool))) = .ok l2 ∧
      l2.length = l1.length := by
  cases more
  · refine ⟨l1.set level.toNat false, ?_, by simp⟩
    simp only [Bool.not_false, if_true, setLevel]
    rw [if_pos ⟨by omega, by omega⟩]
  · exact ⟨l1, by simp, rfl⟩

/-- Under the invariant an iteration of the queue loop raises no fault: the
node dequeued is at a level between 1 and `len(levels)`, so `levels[Level]`
exists once `levels` is extended, and the reads of `printLine` are in range.
The invariant holds again afterwards. -/
theorem printStep_ok (c : TreeItem) (queue : List TreeItem) (levels : List Bool)
    (h : QueueInv (c :: queue) levels) :
    ∃ levels' line, printStep c queue levels
        = .ok ((sortSlice lessDesc c.children).reverse ++ queue, levels', line) ∧
      QueueInv ((sortSlice lessDesc c.children).reverse ++ queue) levels' := by
  obtain ⟨hc1, hc2, hc3⟩ := h c (List.mem_cons_self _ _)
  obtain ⟨l1, e1, g1, g2⟩ := extend_levels_ok levels c.level hc1 hc2
  have key : ∀ more : Bool, ∃ l2 line,
      (match (if (!more) = true then setLevel l1 c.level false
          else (Except.ok l1 : Except Fault (List Bool))) with
        | .error e => (Except.error e : Except Fault (List TreeItem × List Bool × String))
        | .ok levels =>
          match printLine c levels (!more) with
          | .error e => .error e
          | .ok line => .ok ((sortSlice lessDesc c.children).reverse ++ queue, levels, line))
        = .ok ((sortSlice lessDesc c.children).reverse ++ queue, l2, line) ∧
      l2.length = l1.length := by
    intro more
    obtain ⟨l2, e2, g3⟩ := clear_level_ok l1 c.level more hc1 g2
    obtain ⟨line, e3⟩ := printLine_ok c l2 (!more) (by omega) (by omega)
    exact ⟨l2, line, by simp only [e2, e3], g3⟩
  obtain ⟨l2, line, hstep, g3⟩ := key
    (match queue with
      | [] => false
      | next :: _ => decide (c.level = next.level))
  refine ⟨l2, line, ?_, ?_⟩
  · simp only [printStep, e1, foldl_prepend]
    exact hstep
  · intro d hd
    rcases List.mem_append.1 hd with hd | hd
    · have hd' : d ∈ c.children := (mem_sortSlice _ _ _).1 (List.mem_reverse.1 hd)
      obtain ⟨k1, k2⟩ := (levelsOk_iff c).1 hc3 d hd'
      exact ⟨by omega, by omega, k2⟩
    · obtain ⟨k1, k2, k3⟩ := h d (List.mem_cons_of_mem _ hd)
      exact ⟨k1, by omega, k3⟩

theorem sizeL_step (c : TreeItem) (queue : List TreeItem) :
    sizeL ((sortSlice lessDesc c.children).reverse ++ queue) + 1 = sizeL (c :: queue) := by
  rw [sizeL_append, sizeL_perm (List.reverse_perm _), sizeL_sortSlice]
  simp only [sizeL, size_eq]
  omega

/-- Under the invariant the queue loop returns, given one unit of fuel per node
of the queue and of the subtrees below it. -/
theorem printLoop_returns : ∀ (fuel : Nat) (queue : List TreeItem) (levels : List Bool)
    (out : List (TreeItem × String)), QueueInv queue levels → sizeL queue ≤ fuel →
    ∃ log, printLoop fuel queue levels out = .ok log := by
  intro fuel
  induction fuel with
  | zero =>
    intro queue levels out _ hs
    cases queue with
    | nil => exact ⟨out, by simp [printLoop]⟩
    | cons c q => simp [sizeL, size_eq] at hs
  | succ fuel ih =>
    intro queue levels out hinv hs
    cases queue with
    | nil => exact ⟨out, by simp [printLoop]⟩
    | cons c q =>
      obtain ⟨levels', line, hstep, hinv'⟩ := printStep_ok c q levels hinv
      rw [printLoop_succ, hstep]
      apply ih _ _ _ hinv'
      have := sizeL_step c q
      omega

/-- Under the invariant the queue loop reaches a state after any number of
iterations, and the invariant holds in it. -/
theorem loopStates_inv : ∀ (k : Nat) (queue : List TreeItem) (levels : List Bool),
    QueueInv queue levels →
    ∃ queue' levels', loopStates k queue levels = .ok (queue', levels') ∧
      QueueInv queue' levels' := by
  intro k
  induction k with
  | zero => intro queue levels h; exact ⟨queue, levels, rfl, h⟩
  | succ k ih =>
    intro queue levels h
    cases queue with
    | nil => exact ⟨[], levels, rfl, h⟩
    | cons c q =>
      obtain ⟨levels', line, hstep, hinv'⟩ := printStep_ok c q levels h
      obtain ⟨q2, l2, h2, hinv2⟩ := ih _ levels' hinv'
      exact ⟨q2, l2, by rw [loopStates, hstep]; exact h2, hinv2⟩

theorem initialQueue_inv (root : TreeItem) (h0 : root.level = 0)
    (hlev : levelsOk root = true) : QueueInv (initialQueue root) [false] := by
  intro c hc
  rw [initialQueue, foldl_prepend, List.reverse_reverse, List.append_nil, mem_sortSlice] at hc
  obtain ⟨k1, k2⟩ := (levelsOk_iff root).1 hlev c hc
  rw [h0] at k1
  exact ⟨by omega, by simp [k1], k2⟩

/-- On a tree with the root at level 0 and every child one level below its
parent `printTree` returns, whatever the names. -/
theorem printTreeLog_returns (root : TreeItem) (h0 : root.level = 0)
    (hlev : levelsOk root = true) : ∃ log, printTreeLog root = .ok log := by
  unfold printTreeLog
  by_cases hlen : root.children.length = 0
  · exact ⟨[], by simp [hlen]⟩
  · simp only [hlen, if_false]
    apply printLoop_returns _ _ _ _ (initialQueue_inv root h0 hlev)
    rw [initialQueue, foldl_prepend, List.reverse_reverse, List.append_nil, sizeL_sortSlice]

theorem forest_rec (P : List TreeItem → Prop) (hnil : P [])
    (hcons : ∀ c rest, P c.children → P rest → P (c :: rest)) : ∀ cs, P cs := by
  have key : ∀ n cs, sizeL cs ≤ n → P cs := by
    intro n
    induction n with
    | zero =>
      intro cs h
      cases cs with
      | nil => exact hnil
      | cons c rest => simp [sizeL, size_eq] at h
    | succ n ih =>
      intro cs h
      cases cs with
      | nil => exact hnil
      | cons c rest =>
        simp only [sizeL, size_eq] at h
        exact hcons c rest (ih _ (by omega)) (ih _ (by omega))
  intro cs
  exact key _ cs (le_refl _)

theorem length_nodesL : ∀ cs : List TreeItem, (nodesL cs).length = sizeL cs := by
  intro cs
  induction cs using forest_rec with
  | hnil => rfl
  | hcons c rest ih1 ih2 =>
    rw [nodesL, nodes_eq, sizeL, size_eq]
    simp only [List.length_append, List.length_cons, ih1, ih2]
    omega

theorem size_le_of_mem_nodesL : ∀ (cs : List TreeItem) (n : TreeItem), n ∈ nodesL cs →
    size n ≤ sizeL cs := by
  intro cs
  induction cs using forest_rec with
  | hnil => intro n hn; simp [nodesL] at hn
  | hcons c rest ih1 ih2 =>
    intro n hn
    rw [nodesL, nodes_eq, List.cons_append, List.mem_cons, List.mem_append] at hn
    simp only [sizeL]
    rcases hn with rfl | hn | hn
    · omega
    · have := ih1 n hn
      rw [size_eq n] at this ⊢
      rw [size_eq c]
      omega
    · have := ih2 n hn
      omega

theorem printStep_queue (c : TreeItem) (queue : List TreeItem) (levels : List Bool)
    (next : List TreeItem × List Bool × String) (h : printStep c queue levels = .ok next) :
    next.1 = (sortSlice lessDesc c.children).reverse ++ queue := by
  simp only [printStep] at h
  split at h
  · cases h
  · split at h
    · cases h
    · split at h
      · cases h
      · simp only [Except.ok.injEq] at h
        rw [← h, foldl_prepend]

/-- Whatever the levels and the names, when the queue loop returns it has
written once for every node of the queue and of the subtrees below it. -/
theorem printLoop_perm : ∀ (fuel : Nat) (queue : List TreeItem) (levels : List Bool)
    (out log : List (TreeItem × String)), printLoop fuel queue levels out = .ok log →
    (log.map Prod.fst).Perm (out.map Prod.fst ++ nodesL queue) := by
  intro fuel
  induction fuel with
  | zero =>
    intro queue levels out log h
    cases queue with
    | nil =>
      simp only [printLoop, Except.ok.injEq] at h
      simp [← h, nodesL]
    | cons c q => simp [printLoop] at h
  | succ fuel ih =>
    intro queue levels out log h
    cases queue with
    | nil =>
      simp only [printLoop, Except.ok.injEq] at h
      simp [← h, nodesL]
    | cons c q =>
      rw [printLoop_succ] at h
      cases hstep : printStep c q levels with
      | error e => simp [hstep] at h
      | ok next =>
        rw [hstep] at h
        simp only at h
        have hq := printStep_queue c q levels next hstep
        have := ih _ _ _ _ h
        rw [hq, nodesL_append] at this
        refine this.trans ?_
        have hkids : (nodesL (sortSlice lessDesc c.children).reverse).Perm
            (nodesL c.children) :=
          nodesL_perm ((List.reverse_perm _).trans (sortSlice_perm lessDesc c.children))
        have hrw : List.map Prod.fst (out ++ [(c, next.2.2)])
            ++ (nodesL (sortSlice lessDesc c.children).reverse ++ nodesL q)
            = List.map Prod.fst out
              ++ (c :: (nodesL (sortSlice lessDesc c.children).reverse ++ nodesL q)) := by
          simp
        have hrw2 : List.map Prod.fst out ++ nodesL (c :: q)
            = List.map Prod.fst out ++ (c :: (nodesL c.children ++ nodesL q)) := by
          rw [nodesL, nodes_eq c, List.cons_append]
        rw [hrw, hrw2]
        exact List.Perm.append_left _ (List.Perm.cons _ (List.Perm.append_right _ hkids))

/-- C19: on every tree with the root at level 0 and every child one level below
its parent, `printTree` returns without any fault, and after any number of
iterations of its loop the node at the front of the queue is at a level between
1 and `len(levels)`: the entries `levels[1 .. Level - 1]` that `printLine` reads
exist, and the iteration on that node, which first extends `levels` by one entry
when `len(levels) == Level`, raises no fault. -/
theorem levels_in_range (root : TreeItem) (h0 : root.level = 0)
    (hlev : levelsOk root = true) :
    (∃ written, printTree root = .ok (written, none)) ∧
    ∀ k, ∃ queue levels, loopStates k (initialQueue root) [false] = .ok (queue, levels) ∧
      ∀ node rest, queue = node :: rest →
        1 ≤ node.level ∧ node.level ≤ levels.length ∧
        (∀ i : Nat, 1 ≤ i → (i : Int) < node.level → ∃ b, getLevel levels i = .ok b) ∧
        ∃ next, printStep node rest levels = .ok next := by
  constructor
  · obtain ⟨log, hlog⟩ := printTreeLog_returns root h0 hlev
    exact ⟨log.map Prod.snd, by simp [printTree, hlog]⟩
  · intro k
    obtain ⟨queue, levels, hk, hinv⟩ :=
      loopStates_inv k (initialQueue root) [false] (initialQueue_inv root h0 hlev)
    refine ⟨queue, levels, hk, ?_⟩
    intro node rest hq
    subst hq
    obtain ⟨k1, k2, _⟩ := hinv node (List.mem_cons_self _ _)
    obtain ⟨levels', line, hstep, _⟩ := printStep_ok node rest levels hinv
    refine ⟨k1, k2, ?_, _, hstep⟩
    intro i _ hi
    have hlt : i < levels.length := by omega
    exact ⟨levels[i], by simp [getLevel, List.getElem?_eq_getElem hlt]⟩

/-- Witness of C19 on `exampleTree`: the state after two iterations. -/
theorem levels_in_range_witness :
    (exampleTree.level = 0 ∧ levelsOk exampleTree = true) ∧
      (∃ written, printTree exampleTree = .ok (written, none)) ∧
      ∃ queue levels,
        loopStates 2 (initialQueue exampleTree) [false] = .ok (queue, levels) ∧
        ∀ node rest, queue = node :: rest →
          1 ≤ node.level ∧ node.level ≤ levels.length := by
  obtain ⟨h1, h2⟩ := levels_in_range exampleTree (by decide) (by decide)
  obtain ⟨queue, levels, h3, h4⟩ := h2 2
  exact ⟨⟨by decide, by decide⟩, h1, queue, levels, h3,
    fun node rest hq => ⟨(h4 node rest hq).1, (h4 node rest hq).2.1⟩⟩

/-- C18: for every tree, the queue loop of `printTree` does not need more
iterations than the root has proper descendants; it returns on every tree with
the root at level 0 and every child one level below its parent; and whenever it
returns, the nodes written are, with their multiplicities, the proper
descendants of the root: one write per node, `size root - 1` writes in all, none
of them for the root. -/
theorem one_write_per_node (root : TreeItem) :
    printTreeLog root ≠ .error .fuelExhausted ∧
    (root.level = 0 → levelsOk root = true → ∃ log, printTreeLog root = .ok log) ∧
    ∀ log, printTreeLog root = .ok log →
      (log.map Prod.fst).Perm (nodesL root.children) ∧
      log.length + 1 = size root ∧
      (∀ e ∈ log, e.1 ≠ root) ∧
      printTree root = .ok (log.map Prod.snd, none) := by
  refine ⟨?_, printTreeLog_returns root, ?_⟩
  · unfold printTreeLog
    by_cases hlen : root.children.length = 0
    · simp [hlen]
    · simp only [hlen, if_false]
      apply printLoop_fuel
      rw [foldl_prepend, List.reverse_reverse, List.append_nil, sizeL_sortSlice]
  · intro log hlog
    have hperm : (log.map Prod.fst).Perm (nodesL root.children) := by
      unfold printTreeLog at hlog
      by_cases hlen : root.children.length = 0
      · have hnil : root.children = [] := List.length_eq_zero.1 hlen
        simp only [hlen, if_true, Except.ok.injEq] at hlog
        simp [← hlog, hnil, nodesL]
      · simp only [hlen, if_false] at hlog
        have := printLoop_perm _ _ _ _ _ hlog
        rw [foldl_prepend, List.reverse_reverse, List.append_nil] at this
        simpa using this.trans (nodesL_perm (sortSlice_perm lessAsc root.children))
    refine ⟨hperm, ?_, ?_, by simp [printTree, hlog]⟩
    · have := hperm.length_eq
      rw [List.length_map, length_nodesL] at this
      rw [this, size_eq]
      omega
    · intro e he heq
      have hmem : e.1 ∈ nodesL root.children :=
        hperm.mem_iff.1 (List.mem_map_of_mem Prod.fst he)
      have := size_le_of_mem_nodesL _ _ hmem
      rw [heq, size_eq root] at this
      omega

/-- Witness of C18 on `exampleTree`, which has five proper descendants. -/
theorem one_write_per_node_witness :
    size exampleTree = 6 ∧
      ∃ log, printTreeLog exampleTree = .ok log ∧ log.length + 1 = size exampleTree ∧
        (log.map Prod.fst).Perm (nodesL exampleTree.children) := by
  obtain ⟨_, h1, h2⟩ := one_write_per_node exampleTree
  obtain ⟨log, hlog⟩ := h1 (by decide) (by decide)
  exact ⟨by decide, log, hlog, (h2 log hlog).2.1, (h2 log hlog).1⟩

/-! ## The order of the children does not matter -/

theorem reordered_inv (a b : TreeItem) (h : Reordered a b) :
    a.path = b.path ∧ a.fileInfo = b.fileInfo ∧ a.level = b.level ∧
      ∃ mid, List.Forall₂ Reordered a.children mid ∧ mid.Perm b.children := by
  cases h with
  | node p p' q q' f s l cs mid cs' h1 h2 => exact ⟨rfl, rfl, rfl, mid, h1, h2⟩

theorem reordered_refl : ∀ t : TreeItem, Reordered t t := by
  have key : ∀ cs : List TreeItem, List.Forall₂ Reordered cs cs := by
    intro cs
    induction cs using forest_rec with
    | hnil => exact List.Forall₂.nil
    | hcons c rest ih1 ih2 =>
      refine List.Forall₂.cons ?_ ih2
      cases c with
      | mk p q cs f s l => exact Reordered.node p p q q f s l cs cs cs ih1 (List.Perm.refl _)
  intro t
  cases t with
  | mk p q cs f s l => exact Reordered.node p p q q f s l cs cs cs (key cs) (List.Perm.refl _)

theorem forall₂_names (l l' : List TreeItem) (h : List.Forall₂ Reordered l l') :
    l.map (fun c => c.fileInfo.name) = l'.map (fun c => c.fileInfo.name) := by
  induction h with
  | nil => rfl
  | cons hr _ ih => simp [(reordered_inv _ _ hr).2.1, ih]

theorem reordered_sizeL : ∀ (cs mid : List TreeItem), List.Forall₂ Reordered cs mid →
    sizeL cs = sizeL mid := by
  intro cs
  induction cs using forest_rec with
  | hnil => intro mid h; cases h; rfl
  | hcons c rest ih1 ih2 =>
    intro mid h
    cases h with
    | cons hr hrest =>
      rename_i m mrest
      obtain ⟨_, _, _, mid', h1, h2⟩ := reordered_inv c m hr
      simp only [sizeL, size_eq, ih1 mid' h1, sizeL_perm h2, ih2 mrest hrest]

theorem insertSorted_reordered (less : TreeItem → TreeItem → Bool)
    (hless : ∀ a a' b b', Reordered a a' → Reordered b b' → less a b = less a' b')
    (x x' : TreeItem) (hx : Reordered x x') (l l' : List TreeItem)
    (h : List.Forall₂ Reordered l l') :
    List.Forall₂ Reordered (insertSorted less x l) (insertSorted less x' l') := by
  induction h with
  | nil => exact List.Forall₂.cons hx List.Forall₂.nil
  | cons hr hrest ih =>
    rename_i y y' ys ys'
    simp only [insertSorted, hless x x' y y' hx hr]
    split
    · exact List.Forall₂.cons hx (List.Forall₂.cons hr hrest)
    · exact List.Forall₂.cons hr ih

theorem sortSlice_reordered (less : TreeItem → TreeItem → Bool)
    (hless : ∀ a a' b b', Reordered a a' → Reordered b b' → less a b = less a' b')
    (l l' : List TreeItem) (h : List.Forall₂ Reordered l l') :
    List.Forall₂ Reordered (sortSlice less l) (sortSlice less l') := by
  induction h with
  | nil => exact List.Forall₂.nil
  | cons hr _ ih => exact insertSorted_reordered less hless _ _ hr _ _ ih

theorem lessAsc_reordered (a a' b b' : TreeItem) (ha : Reordered a a') (hb : Reordered b b') :
    lessAsc a b = lessAsc a' b' := by
  simp [lessAsc, (reordered_inv _ _ ha).2.1, (reordered_inv _ _ hb).2.1]

/-- The ascending sorts of the children of two trees that differ in the order
of children correspond node by node. -/
theorem sortAsc_reordered (a b : TreeItem) (h : Reordered a b)
    (hn : (a.children.map fun c => c.fileInfo.name).Nodup) :
    (b.children.map fun c => c.fileInfo.name).Nodup ∧
      List.Forall₂ Reordered (sortSlice lessAsc a.children) (sortSlice lessAsc b.children) := by
  obtain ⟨_, _, _, mid, h1, h2⟩ := reordered_inv a b h
  have hmid : (mid.map fun c => c.fileInfo.name).Nodup := by
    rw [← forall₂_names _ _ h1]; exact hn
  have hb : (b.children.map fun c => c.fileInfo.name).Nodup :=
    ((h2.map _).nodup_iff).1 hmid
  have heq : sortSlice lessAsc mid = sortSlice lessAsc b.children :=
    sortSlice_unique b.children _ ((sortSlice_perm lessAsc mid).trans h2)
      (sortAsc_sorted mid hmid)
  refine ⟨hb, ?_⟩
  rw [← heq]
  exact sortSlice_reordered lessAsc lessAsc_reordered _ _ h1

theorem printLine_congr (a b : TreeItem) (h1 : a.level = b.level)
    (h2 : a.fileInfo = b.fileInfo) (levels : List Bool) (isLast : Bool) :
    printLine b levels isLast = printLine a levels isLast := by
  unfold printLine
  rw [h1, h2]

theorem more_reordered (level : Int) (q1 q2 : List TreeItem) :
    List.Forall₂ Reordered q1 q2 →
    (match q2 with
      | [] => false
      | next :: _ => decide (level = next.level))
      = (match q1 with
        | [] => false
        | next :: _ => decide (level = next.level)) := by
  intro hq
  cases hq with
  | nil => rfl
  | cons hr _ => simp [(reordered_inv _ _ hr).2.2.1]

/-- An iteration of the queue loop on two corresponding nodes, before two
corresponding queues, raises the same fault or writes the same line and leaves
the same `levels`. -/
theorem printStep_reordered (a b : TreeItem) (q1 q2 : List TreeItem) (levels : List Bool)
    (hab : Reordered a b) (hq : List.Forall₂ Reordered q1 q2) :
    printStep b q2 levels =
      match printStep a q1 levels with
      | .error e => .error e
      | .ok n => .ok ((sortSlice lessDesc b.children).foldl prepend q2, n.2.1, n.2.2) := by
  obtain ⟨_, hf, hl, _⟩ := reordered_inv a b hab
  simp only [printStep, ← hl, more_reordered a.level q1 q2 hq, printLine_congr a b hl hf]
  split
  · rfl
  · split
    · rfl
    · split <;> rfl

theorem namesOkL_append (l₁ l₂ : List TreeItem) :
    namesOkL (l₁ ++ l₂) = true ↔ namesOkL l₁ = true ∧ namesOkL l₂ = true := by
  simp only [namesOkL_iff, List.mem_append]
  constructor
  · intro h
    exact ⟨fun c hc => h c (Or.inl hc), fun c hc => h c (Or.inr hc)⟩
  · rintro ⟨h1, h2⟩ c (hc | hc)
    · exact h1 c hc
    · exact h2 c hc

/-- The queue loop run on two corresponding queues raises the same fault or
writes the same lines. -/
theorem printLoop_reordered : ∀ (fuel : Nat) (q1 q2 : List TreeItem) (levels : List Bool)
    (out1 out2 : List (TreeItem × String)), List.Forall₂ Reordered q1 q2 →
    namesOkL q1 = true → out1.map Prod.snd = out2.map Prod.snd →
    Except.map (List.map Prod.snd) (printLoop fuel q1 levels out1)
      = Except.map (List.map Prod.snd) (printLoop fuel q2 levels out2) := by
  intro fuel
  induction fuel with
  | zero =>
    intro q1 q2 levels out1 out2 hq _ hout
    cases hq with
    | nil => simp [printLoop, Except.map, hout]
    | cons _ _ => simp [printLoop, Except.map]
  | succ fuel ih =>
    intro q1 q2 levels out1 out2 hq hn hout
    cases hq with
    | nil => simp [printLoop, Except.map, hout]
    | cons hab hrest =>
      rename_i a b r1 r2
      rw [printLoop_succ, printLoop_succ, printStep_reordered a b r1 r2 levels hab hrest]
      cases hstep : printStep a r1 levels with
      | error e => rfl
      | ok n =>
        simp only
        simp only [namesOkL, Bool.and_eq_true] at hn
        obtain ⟨hnodup, hkids⟩ := (namesOk_iff a).1 hn.1
        obtain ⟨hb, hsorted⟩ := sortAsc_reordered a b hab hnodup
        rw [printStep_queue a r1 levels n hstep, foldl_prepend,
          sortDesc_reverse _ hnodup, sortDesc_reverse _ hb]
        apply ih
        · exact List.rel_append hsorted hrest
        · rw [namesOkL_append]
          refine ⟨?_, hn.2⟩
          rw [namesOkL_iff]
          intro d hd
          exact hkids d ((mem_sortSlice _ _ _).1 hd)
        · simp [hout]

/-- C13: for two trees that differ only in the order of the `Children` lists of
their nodes (same `FileInfo`, `Path` and `Level` at corresponding nodes, at any
addresses, as when `buildTree` runs on two listing orders), siblings bearing
distinct names, `printTree` behaves identically: it writes the same byte
strings in the same order, or stops with the same fault. -/
theorem printTree_reordered (a b : TreeItem) (h : Reordered a b)
    (hnames : namesOk a = true) : printTree a = printTree b := by
  obtain ⟨_, _, _, mid, h1, h2⟩ := reordered_inv a b h
  obtain ⟨hnodup, hkids⟩ := (namesOk_iff a).1 hnames
  obtain ⟨hb, hsorted⟩ := sortAsc_reordered a b h hnodup
  have hlen : a.children.length = b.children.length := by
    rw [h1.length_eq, h2.length_eq]
  have hsize : sizeL a.children = sizeL b.children := by
    rw [reordered_sizeL _ _ h1, sizeL_perm h2]
  have hlog : Except.map (List.map Prod.snd) (printTreeLog a)
      = Except.map (List.map Prod.snd) (printTreeLog b) := by
    unfold printTreeLog
    by_cases hz : a.children.length = 0
    · simp [hz, ← hlen]
    · have hz' : ¬ b.children.length = 0 := by rw [← hlen]; exact hz
      simp only [hz, hz', if_false, foldl_prepend, List.reverse_reverse, List.append_nil,
        hsize]
      apply printLoop_reordered _ _ _ _ _ _ hsorted _ rfl
      rw [namesOkL_iff]
      intro d hd
      exact hkids d ((mem_sortSlice _ _ _).1 hd)
  unfold printTree
  cases ha : printTreeLog a with
  | error e =>
    cases hb' : printTreeLog b with
    | error e' =>
      rw [ha, hb'] at hlog
      simp only [Except.map, Except.error.injEq] at hlog
      simp [hlog]
    | ok log' =>
      rw [ha, hb'] at hlog
      simp [Except.map] at hlog
  | ok log =>
    cases hb' : printTreeLog b with
    | error e' =>
      rw [ha, hb'] at hlog
      simp [Except.map] at hlog
    | ok log' =>
      rw [ha, hb'] at hlog
      simp only [Except.map, Except.ok.injEq] at hlog
      simp [hlog]

theorem exampleSwapped_reordered : Reordered exampleTree exampleSwapped := by
  refine Reordered.node 0 0 none none _ _ 0 [exampleC, exampleB]
    [exampleC, .mk 2 (some 0) [exampleD, exampleZ] ⟨"b", 4096, true⟩ "/a/b" 1] _ ?_
    (List.Perm.swap _ _ _)
  refine List.Forall₂.cons (reordered_refl _) (List.Forall₂.cons ?_ List.Forall₂.nil)
  exact Reordered.node 2 2 (some 0) (some 0) _ _ 1 [exampleZ, exampleD] [exampleZ, exampleD] _
    (List.Forall₂.cons (reordered_refl _)
      (List.Forall₂.cons (reordered_refl _) List.Forall₂.nil))
    (List.Perm.swap _ _ _)

theorem exampleBuilt_reordered : Reordered exampleBuilt exampleBuiltSwapped := by
  refine Reordered.node 0 0 none none _ _ 0
    [.mk 1 (some 0) [] ⟨"c.txt", 5, false⟩ "/a/c.txt" 1,
     .mk 2 (some 0) [] ⟨"b", 4096, true⟩ "/a/b" 1]
    [.mk 2 (some 0) [] ⟨"c.txt", 5, false⟩ "/a/c.txt" 1,
     .mk 1 (some 0) [] ⟨"b", 4096, true⟩ "/a/b" 1] _ ?_
    (List.Perm.swap _ _ _)
  refine List.Forall₂.cons ?_ (List.Forall₂.cons ?_ List.Forall₂.nil)
  · exact Reordered.node 1 2 (some 0) (some 0) _ _ 1 [] [] [] List.Forall₂.nil
      (List.Perm.refl _)
  · exact Reordered.node 2 1 (some 0) (some 0) _ _ 1 [] [] [] List.Forall₂.nil
      (List.Perm.refl _)

/-- Witness of C13: `exampleTree` and `exampleSwapped`, and the two trees
`buildTree` returns when `/a` is listed in one order and in the other. -/
theorem printTree_reordered_witness :
    ((Reordered exampleTree exampleSwapped ∧ namesOk exampleTree = true) ∧
      printTree exampleTree = printTree exampleSwapped ∧
      printTree exampleSwapped
        = .ok (["├───b\n", "│\t├───d\n", "│\t│\t└───q\n", "│\t└───z (empty)\n",
            "└───c.txt (5b)\n"], none)) ∧
    (buildTree exampleFS 3 "/a" true = .ok (exampleBuilt, none) ∧
      buildTree exampleSwapFS 3 "/a" true = .ok (exampleBuiltSwapped, none)) ∧
    (Reordered exampleBuilt exampleBuiltSwapped ∧ namesOk exampleBuilt = true) ∧
      printTree exampleBuilt = printTree exampleBuiltSwapped ∧
      printTree exampleBuiltSwapped = .ok (["├───b\n", "└───c.txt (5b)\n"], none) :=
  ⟨⟨⟨exampleSwapped_reordered, by decide⟩,
    printTree_reordered exampleTree exampleSwapped exampleSwapped_reordered (by decide),
    by decide⟩,
   ⟨rfl, rfl⟩,
   ⟨exampleBuilt_reordered, by decide⟩,
   printTree_reordered exampleBuilt exampleBuiltSwapped exampleBuilt_reordered (by decide),
   by decide⟩

/-! ## The shape of the built tree: termination and uniqueness -/

theorem getChildren_fst (fs : FileSystem) (cell : Cell) :
    (getChildren fs cell).1 = entriesOf fs cell.fileInfo cell.path := by
  unfold getChildren entriesOf
  split
  · split <;> rfl
  · rfl

/-- The tree `buildTree` returns conforms to the file system. -/
theorem buildTree_conforms (fs : FileSystem) (fuel : Nat) (path : String) (printFiles : Bool)
    (root : TreeItem) (err : Option IOError)
    (h : buildTree fs fuel path printFiles = .ok (root, err)) :
    Conforms fs printFiles root := by
  obtain ⟨_, _, _, _, hn⟩ := buildTree_spec fs fuel path printFiles root err h
  intro n hnode
  obtain ⟨h1, cell, e1, e2, e3⟩ := hn n hnode
  refine ⟨?_, h1⟩
  rw [e3, getChildren_fst, e1, e2]

theorem conforms_child (fs : FileSystem) (printFiles : Bool) (t c : TreeItem)
    (h : Conforms fs printFiles t) (hc : c ∈ t.children) : Conforms fs printFiles c :=
  fun n hn => h n (mem_nodes_of_child t c n hc hn)

theorem conforms_root (fs : FileSystem) (printFiles : Bool) (t : TreeItem)
    (h : Conforms fs printFiles t) : ExpandedNode fs printFiles t :=
  h t (by rw [nodes_eq]; exact List.mem_cons_self _ _)

theorem conforms_of (fs : FileSystem) (printFiles : Bool) (t : TreeItem)
    (h1 : ExpandedNode fs printFiles t) (h2 : ∀ c ∈ t.children, Conforms fs printFiles c) :
    Conforms fs printFiles t := by
  intro n hn
  rw [nodes_eq, List.mem_cons] at hn
  rcases hn with rfl | hn
  · exact h1
  · obtain ⟨c, hc, hnc⟩ := (mem_nodesL n t.children).1 hn
    exact h2 c hc n hnc

theorem forall₂_range'_of {α : Type} (R : Nat → α → Prop) : ∀ (K : List α) (n : Nat),
    (∀ j f, K[j]? = some f → R (n + j) f) → List.Forall₂ R (List.range' n K.length) K := by
  intro K
  induction K with
  | nil => intro n _; simp
  | cons f fs ih =>
    intro n h
    rw [List.length_cons, List.range'_succ]
    refine List.Forall₂.cons (by simpa using h 0 f (by simp)) (ih (n + 1) ?_)
    intro j g hj
    have := h (j + 1) g (by simpa using hj)
    rw [show n + 1 + j = n + (j + 1) by omega]
    exact this

/-- The loop of `buildTree` returns when every cell on the stack is the root of
a finite tree that conforms to the file system, given one unit of fuel per node
of these trees. -/
theorem buildLoop_returns (fs : FileSystem) (printFiles : Bool) :
    ∀ (fuel : Nat) (heap : List Cell) (stack : List Nat) (models : List TreeItem),
    BuildInv fs printFiles heap stack →
    List.Forall₂ (fun p T => ∃ cell : Cell, heap[p]? = some cell ∧
      cell.fileInfo = T.fileInfo ∧ cell.path = T.path) stack.reverse models →
    (∀ T ∈ models, Conforms fs printFiles T) → sizeL models ≤ fuel →
    ∃ result, buildLoop fs printFiles fuel heap stack = .ok result := by
  intro fuel
  induction fuel with
  | zero =>
    intro heap stack models _ hal _ hsize
    cases models with
    | nil =>
      cases hal' : stack.reverse with
      | nil =>
        have : stack = [] := by simpa using hal'
        subst this
        exact ⟨heap, by rw [buildLoop]; rfl⟩
      | cons x xs => rw [hal'] at hal; cases hal
    | cons T Ts => simp [sizeL, size_eq] at hsize
  | succ fuel ih =>
    intro heap stack models hinv hal hconf hsize
    cases hlast : stack.getLast? with
    | none => exact ⟨heap, by rw [buildLoop, hlast]⟩
    | some curr =>
      have hstack : stack.dropLast ++ [curr] = stack :=
        List.dropLast_append_getLast? curr (by simp [hlast])
      have hrev : stack.reverse = curr :: stack.dropLast.reverse := by
        rw [← hstack]; simp
      rw [hrev] at hal
      cases hal with
      | cons hcur hrest =>
        rename_i T Ts
        obtain ⟨cell, hcell, ef, ep⟩ := hcur
        obtain ⟨hinv', hext⟩ := buildInv_step fs printFiles heap stack curr cell hinv hlast hcell
        obtain ⟨s1, s2, s3, s4, s5⟩ := addChildren_spec printFiles curr cell.path cell.level
          (getChildren fs cell).1 heap stack.dropLast cell hcell
        have hT := conforms_root fs printFiles T (hconf T (List.mem_cons_self _ _))
        have hK : kept printFiles (getChildren fs cell).1
            = T.children.map (fun c => c.fileInfo) := by
          rw [getChildren_fst, ef, ep, hT.1]
        rw [buildLoop, hlast]
        simp only [hcell]
        apply ih _ _ (T.children.reverse ++ Ts) hinv'
        · rw [s1, List.reverse_append]
          refine List.rel_append ?_ ?_
          · rw [List.forall₂_reverse_iff, hK, List.length_map]
            apply forall₂_range'_of
            intro j c hj
            have hj' : (kept printFiles (getChildren fs cell).1)[j]? = some c.fileInfo := by
              rw [hK, List.getElem?_map, hj]; rfl
            refine ⟨_, s5 j _ hj', rfl, ?_⟩
            have hc : c ∈ T.children := List.getElem?_mem hj
            rw [(hT.2 c hc).2, ← ep]
            rfl
          · refine hrest.imp ?_
            rintro p M ⟨c, hc, e1, e2⟩
            obtain ⟨c', hc', f1, f2, _⟩ := hext p c hc
            exact ⟨c', hc', f1.trans e1, f2.trans e2⟩
        · intro M hM
          rcases List.mem_append.1 hM with hM | hM
          · exact conforms_child fs printFiles T M (hconf T (List.mem_cons_self _ _))
              (List.mem_reverse.1 hM)
          · exact hconf M (List.mem_cons_of_mem _ hM)
        · rw [sizeL_append, sizeL_perm (List.reverse_perm _)]
          simp only [sizeL, size_eq] at hsize
          omega

/-- When the root can be inspected and the file system below it is a finite
tree `model`, `buildTree` returns a tree and the nil error, given one unit of
fuel per node of the model. -/
theorem buildTree_total (fs : FileSystem) (fuel : Nat) (path : String) (printFiles : Bool)
    (model : TreeItem) (hstat : fs.lstat path = .ok model.fileInfo)
    (hpath : model.path = path) (hconf : Conforms fs printFiles model)
    (hfuel : size model ≤ fuel) :
    ∃ root, buildTree fs fuel path printFiles = .ok (root, none) := by
  have hinit : BuildInv fs printFiles
      [{ parent := none, children := [], fileInfo := model.fileInfo, path := path,
         level := 0 }] [0] := by
    refine ⟨by simp, by simp, ?_, ?_⟩
    · intro p cell hp _
      cases p with
      | zero =>
        simp only [List.getElem?_cons_zero, Option.some.injEq] at hp
        subst hp
        rfl
      | succ p => simp at hp
    · intro p cell hp hnot
      cases p with
      | zero => simp at hnot
      | succ p => simp at hp
  obtain ⟨heap, hloop⟩ := buildLoop_returns fs printFiles fuel _ [0] [model] hinit
    (List.Forall₂.cons ⟨_, rfl, rfl, hpath.symm⟩ List.Forall₂.nil)
    (fun T hT => by
      rw [List.mem_singleton] at hT
      rw [hT]
      exact hconf)
    (by simpa [sizeL] using hfuel)
  exact buildTree_returns fs fuel path printFiles model.fileInfo heap hstat hloop

theorem eraseAddr_eq (t : TreeItem) :
    eraseAddr t = .mk 0 none (eraseAddrL t.children) t.fileInfo t.path t.level := by
  cases t
  rfl

theorem forall₂_of_map_eq (P : TreeItem → Prop) (S : TreeItem → TreeItem → Prop)
    (hS : ∀ c c', P c → P c' → c.fileInfo = c'.fileInfo → S c c') :
    ∀ (l l' : List TreeItem), l.map (fun c => c.fileInfo) = l'.map (fun c => c.fileInfo) →
    (∀ c ∈ l, P c) → (∀ c ∈ l', P c) → List.Forall₂ S l l' := by
  intro l
  induction l with
  | nil =>
    intro l' h _ _
    cases l' with
    | nil => exact List.Forall₂.nil
    | cons y ys => simp at h
  | cons x xs ih =>
    intro l' h h1 h2
    cases l' with
    | nil => simp at h
    | cons y ys =>
      simp only [List.map_cons, List.cons.injEq] at h
      exact List.Forall₂.cons
        (hS x y (h1 x (List.mem_cons_self _ _)) (h2 y (List.mem_cons_self _ _)) h.1)
        (ih ys h.2 (fun c hc => h1 c (List.mem_cons_of_mem _ hc))
          (fun c hc => h2 c (List.mem_cons_of_mem _ hc)))

/-- Two forests that conform to the file system and whose roots agree pairwise
on `FileInfo`, path and level are equal up to addresses. -/
theorem conforms_unique_forest (fs : FileSystem) (printFiles : Bool) :
    ∀ (cs cs' : List TreeItem),
    List.Forall₂ (fun c c' => c.fileInfo = c'.fileInfo ∧ c.path = c'.path ∧
      c.level = c'.level) cs cs' →
    (∀ c ∈ cs, Conforms fs printFiles c) → (∀ c ∈ cs', Conforms fs printFiles c) →
    eraseAddrL cs = eraseAddrL cs' := by
  intro cs
  induction cs using forest_rec with
  | hnil => intro cs' h _ _; cases h; rfl
  | hcons c rest ih1 ih2 =>
    intro cs' h h1 h2
    cases h with
    | cons hc hrest =>
      rename_i c' rest'
      obtain ⟨ef, ep, el⟩ := hc
      have hcc := h1 c (List.mem_cons_self _ _)
      have hcc' := h2 c' (List.mem_cons_self _ _)
      have hE := conforms_root fs printFiles c hcc
      have hE' := conforms_root fs printFiles c' hcc'
      have hkids : List.Forall₂ (fun d d' => d.fileInfo = d'.fileInfo ∧ d.path = d'.path ∧
          d.level = d'.level) c.children c'.children := by
        have hmap : c.children.map (fun d => d.fileInfo)
            = c'.children.map (fun d => d.fileInfo) := by
          rw [hE.1, hE'.1, ef, ep]
        refine forall₂_of_map_eq
          (fun d => d.level = c.level + 1 ∧ ∃ name, d.fileInfo.name = name ∧
            d.path = c.path ++ "/" ++ name) _ ?_ _ _ hmap ?_ ?_
        · rintro d d' ⟨l1, n1, hn1, p1⟩ ⟨l2, n2, hn2, p2⟩ hf
          refine ⟨hf, ?_, by rw [l1, l2]⟩
          rw [p1, p2, ← hn1, ← hn2, hf]
        · intro d hd
          exact ⟨(hE.2 d hd).1, _, rfl, (hE.2 d hd).2⟩
        · intro d hd
          refine ⟨by rw [(hE'.2 d hd).1, el], _, rfl, ?_⟩
          rw [(hE'.2 d hd).2, ep]
      have ik := ih1 c'.children hkids
        (fun d hd => conforms_child fs printFiles c d hcc hd)
        (fun d hd => conforms_child fs printFiles c' d hcc' hd)
      have ir := ih2 rest' hrest (fun d hd => h1 d (List.mem_cons_of_mem _ hd))
        (fun d hd => h2 d (List.mem_cons_of_mem _ hd))
      simp only [eraseAddrL, eraseAddr_eq, ik, ir, ef, ep, el]

/-- Two trees that conform to the file system and agree at the root on
`FileInfo`, path and level are equal up to addresses. -/
theorem conforms_unique (fs : FileSystem) (printFiles : Bool) (a b : TreeItem)
    (ha : Conforms fs printFiles a) (hb : Conforms fs printFiles b)
    (hf : a.fileInfo = b.fileInfo) (hp : a.path = b.path) (hl : a.level = b.level) :
    eraseAddr a = eraseAddr b := by
  have := conforms_unique_forest fs printFiles [a] [b]
    (List.Forall₂.cons ⟨hf, hp, hl⟩ List.Forall₂.nil)
    (fun c hc => by rw [List.mem_singleton] at hc; rw [hc]; exact ha)
    (fun c hc => by rw [List.mem_singleton] at hc; rw [hc]; exact hb)
  simpa [eraseAddrL] using this

/-! ## Listing failures and the files flag -/

theorem pruneFailed_eq (fs : FileSystem) (t : TreeItem) :
    pruneFailed fs t = .mk t.ptr t.parent
      (if t.fileInfo.isDir && readdirFails fs t.path then [] else pruneFailedL fs t.children)
      t.fileInfo t.path t.level := by
  cases t
  rfl

theorem mem_pruneFailedL (fs : FileSystem) (cs : List TreeItem) (d : TreeItem) :
    d ∈ pruneFailedL fs cs ↔ ∃ c ∈ cs, d = pruneFailed fs c := by
  induction cs with
  | nil => simp [pruneFailedL]
  | cons x xs ih => simp [pruneFailedL, ih]

theorem pruneFailed_fileInfo (fs : FileSystem) (t : TreeItem) :
    (pruneFailed fs t).fileInfo = t.fileInfo := by
  cases t
  rfl

theorem map_pruneFailedL (fs : FileSystem) (cs : List TreeItem) :
    (pruneFailedL fs cs).map (fun c => c.fileInfo) = cs.map (fun c => c.fileInfo) := by
  induction cs with
  | nil => rfl
  | cons x xs ih =>
    show (pruneFailed fs x).fileInfo :: (pruneFailedL fs xs).map (fun c => c.fileInfo)
      = x.fileInfo :: xs.map (fun c => c.fileInfo)
    rw [ih, pruneFailed_fileInfo]

/-- Removing the children of the directories whose listing fails turns a tree
that conforms to the file system without the failures into a tree that conforms
to the file system with them. -/
theorem pruneFailed_conforms (fs fs' : FileSystem) (printFiles : Bool)
    (hdir : ∀ p, readdirFails fs p = true ∨ fs.readdir p = fs'.readdir p) :
    ∀ cs : List TreeItem, (∀ c ∈ cs, Conforms fs' printFiles c) →
    ∀ c ∈ cs, Conforms fs printFiles (pruneFailed fs c) := by
  intro cs
  induction cs using forest_rec with
  | hnil => intro _ c hc; simp at hc
  | hcons x rest ih1 ih2 =>
    intro h c hc
    rcases List.mem_cons.1 hc with rfl | hc
    · have hx := h c (List.mem_cons_self _ _)
      have hE := conforms_root fs' printFiles c hx
      rw [pruneFailed_eq]
      by_cases hf : (c.fileInfo.isDir && readdirFails fs c.path) = true
      · simp only [hf, if_true]
        apply conforms_of
        · refine ⟨?_, fun d hd => absurd (show d ∈ ([] : List TreeItem) from hd)
            (List.not_mem_nil _)⟩
          simp only [Bool.and_eq_true] at hf
          have : entriesOf fs c.fileInfo c.path = [] := by
            have hr := hf.2
            unfold readdirFails at hr
            unfold entriesOf
            rw [if_pos hf.1]
            split
            · rfl
            · rename_i heq
              rw [heq] at hr
              simp at hr
          show ([] : List TreeItem).map (fun d => d.fileInfo)
            = kept printFiles (entriesOf fs c.fileInfo c.path)
          rw [this]
          rfl
        · intro d hd
          exact absurd (show d ∈ ([] : List TreeItem) from hd) (List.not_mem_nil _)
      · simp only [hf]
        have hent : entriesOf fs c.fileInfo c.path = entriesOf fs' c.fileInfo c.path := by
          unfold entriesOf
          by_cases hd : c.fileInfo.isDir = true
          · have hnf : readdirFails fs c.path = false := by
              cases hr : readdirFails fs c.path with
              | false => rfl
              | true => simp [hd, hr] at hf
            rcases hdir c.path with h1 | h1
            · rw [hnf] at h1; cases h1
            · rw [h1]
          · simp [hd]
        apply conforms_of
        · constructor
          · show (pruneFailedL fs c.children).map (fun d => d.fileInfo)
              = kept printFiles (entriesOf fs c.fileInfo c.path)
            rw [map_pruneFailedL, hent, hE.1]
          · intro d hd
            have hd' : d ∈ pruneFailedL fs c.children := hd
            obtain ⟨y, hy, rfl⟩ := (mem_pruneFailedL fs _ d).1 hd'
            have := hE.2 y hy
            rw [pruneFailed_eq]
            exact this
        · intro d hd
          have hd' : d ∈ pruneFailedL fs c.children := hd
          obtain ⟨y, hy, rfl⟩ := (mem_pruneFailedL fs _ d).1 hd'
          exact ih1 (fun z hz => conforms_child fs' printFiles c z hx hz) y hy
    · exact ih2 (fun z hz => h z (List.mem_cons_of_mem _ hz)) c hc

theorem dirsOnly_eq (t : TreeItem) :
    dirsOnly t = .mk t.ptr t.parent (dirsOnlyL t.children) t.fileInfo t.path t.level := by
  cases t
  rfl

theorem mem_dirsOnlyL (cs : List TreeItem) (d : TreeItem) :
    d ∈ dirsOnlyL cs ↔ ∃ c ∈ cs, c.fileInfo.isDir = true ∧ d = dirsOnly c := by
  induction cs with
  | nil => simp [dirsOnlyL]
  | cons x xs ih =>
    by_cases hx : x.fileInfo.isDir = true
    · have hrw : dirsOnlyL (x :: xs) = dirsOnly x :: dirsOnlyL xs := by
        show (if x.fileInfo.isDir = true then dirsOnly x :: dirsOnlyL xs else dirsOnlyL xs) = _
        rw [if_pos hx]
      rw [hrw, List.mem_cons, ih]
      constructor
      · rintro (h | ⟨c, hc, h1, h2⟩)
        · exact ⟨x, List.mem_cons_self _ _, hx, h⟩
        · exact ⟨c, List.mem_cons_of_mem _ hc, h1, h2⟩
      · rintro ⟨c, hc, h1, h2⟩
        rcases List.mem_cons.1 hc with rfl | hc
        · exact Or.inl h2
        · exact Or.inr ⟨c, hc, h1, h2⟩
    · have hrw : dirsOnlyL (x :: xs) = dirsOnlyL xs := by
        show (if x.fileInfo.isDir = true then dirsOnly x :: dirsOnlyL xs else dirsOnlyL xs) = _
        rw [if_neg hx]
      rw [hrw, ih]
      constructor
      · rintro ⟨c, hc, h1, h2⟩
        exact ⟨c, List.mem_cons_of_mem _ hc, h1, h2⟩
      · rintro ⟨c, hc, h1, h2⟩
        rcases List.mem_cons.1 hc with rfl | hc
        · exact absurd h1 hx
        · exact ⟨c, hc, h1, h2⟩

theorem map_dirsOnlyL (cs : List TreeItem) :
    (dirsOnlyL cs).map (fun c => c.fileInfo)
      = (cs.map (fun c => c.fileInfo)).filter (fun f => f.isDir) := by
  induction cs with
  | nil => rfl
  | cons x xs ih =>
    by_cases hx : x.fileInfo.isDir = true
    · have hrw : dirsOnlyL (x :: xs) = dirsOnly x :: dirsOnlyL xs := by
        show (if x.fileInfo.isDir = true then dirsOnly x :: dirsOnlyL xs else dirsOnlyL xs) = _
        rw [if_pos hx]
      have hinfo : (dirsOnly x).fileInfo = x.fileInfo := by
        cases x
        rfl
      rw [hrw, List.map_cons, List.map_cons, List.filter_cons_of_pos hx, ih, hinfo]
    · have hrw : dirsOnlyL (x :: xs) = dirsOnlyL xs := by
        show (if x.fileInfo.isDir = true then dirsOnly x :: dirsOnlyL xs else dirsOnlyL xs) = _
        rw [if_neg hx]
      rw [hrw, List.map_cons, List.filter_cons_of_neg hx, ih]

theorem kept_false_eq (files : List FileInfo) :
    kept false files = (kept true files).filter (fun f => f.isDir) := by
  simp only [kept, List.filter_filter]
  congr 1
  funext f
  cases f.isDir <;> rfl

/-- Removing the plain files below the root turns a tree that conforms to the
file system with the files included into one that conforms with the files
excluded. -/
theorem dirsOnly_conforms (fs : FileSystem) :
    ∀ cs : List TreeItem, (∀ c ∈ cs, Conforms fs true c) →
    ∀ c ∈ cs, Conforms fs false (dirsOnly c) := by
  intro cs
  induction cs using forest_rec with
  | hnil => intro _ c hc; simp at hc
  | hcons x rest ih1 ih2 =>
    intro h c hc
    rcases List.mem_cons.1 hc with rfl | hc
    · have hx := h c (List.mem_cons_self _ _)
      have hE := conforms_root fs true c hx
      rw [dirsOnly_eq]
      apply conforms_of
      · constructor
        · show (dirsOnlyL c.children).map (fun d => d.fileInfo)
            = kept false (entriesOf fs c.fileInfo c.path)
          rw [map_dirsOnlyL, hE.1, kept_false_eq]
        · intro d hd
          have hd' : d ∈ dirsOnlyL c.children := hd
          obtain ⟨y, hy, _, rfl⟩ := (mem_dirsOnlyL _ d).1 hd'
          have := hE.2 y hy
          rw [dirsOnly_eq]
          exact this
      · intro d hd
        have hd' : d ∈ dirsOnlyL c.children := hd
        obtain ⟨y, hy, _, rfl⟩ := (mem_dirsOnlyL _ d).1 hd'
        exact ih1 (fun z hz => conforms_child fs true c z hx hz) y hy
    · exact ih2 (fun z hz => h z (List.mem_cons_of_mem _ hz)) c hc

theorem pruneFailed_path (fs : FileSystem) (t : TreeItem) :
    (pruneFailed fs t).path = t.path := by
  cases t
  rfl

theorem pruneFailed_level (fs : FileSystem) (t : TreeItem) :
    (pruneFailed fs t).level = t.level := by
  cases t
  rfl

theorem pruneFailed_children (fs : FileSystem) (t : TreeItem) :
    (pruneFailed fs t).children
      = if t.fileInfo.isDir && readdirFails fs t.path then [] else pruneFailedL fs t.children := by
  cases t
  rfl

theorem sizeL_pruneFailedL (fs : FileSystem) :
    ∀ cs : List TreeItem, sizeL (pruneFailedL fs cs) ≤ sizeL cs := by
  intro cs
  induction cs using forest_rec with
  | hnil => exact Nat.le_refl _
  | hcons c rest ih1 ih2 =>
    show size (pruneFailed fs c) + sizeL (pruneFailedL fs rest) ≤ size c + sizeL rest
    have h1 : size (pruneFailed fs c) ≤ size c := by
      rw [size_eq, size_eq c, pruneFailed_children]
      split
      · simp [sizeL]
      · omega
    omega

theorem size_pruneFailed (fs : FileSystem) (t : TreeItem) :
    size (pruneFailed fs t) ≤ size t := by
  have := sizeL_pruneFailedL fs [t]
  simpa [pruneFailedL, sizeL] using this

theorem dirsOnly_children (t : TreeItem) : (dirsOnly t).children = dirsOnlyL t.children := by
  cases t
  rfl

theorem dirsOnlyL_cons (x : TreeItem) (xs : List TreeItem) :
    dirsOnlyL (x :: xs)
      = if x.fileInfo.isDir = true then dirsOnly x :: dirsOnlyL xs else dirsOnlyL xs := rfl

theorem sizeL_dirsOnlyL : ∀ cs : List TreeItem, sizeL (dirsOnlyL cs) ≤ sizeL cs := by
  intro cs
  induction cs using forest_rec with
  | hnil => exact Nat.le_refl _
  | hcons c rest ih1 ih2 =>
    rw [dirsOnlyL_cons]
    have h1 : size (dirsOnly c) ≤ size c := by
      rw [size_eq, size_eq c, dirsOnly_children]
      omega
    split
    · show size (dirsOnly c) + sizeL (dirsOnlyL rest) ≤ size c + sizeL rest
      omega
    · show sizeL (dirsOnlyL rest) ≤ size c + sizeL rest
      omega

theorem size_dirsOnly (t : TreeItem) : size (dirsOnly t) ≤ size t := by
  rw [size_eq, size_eq t, dirsOnly_children]
  have := sizeL_dirsOnlyL t.children
  omega

theorem entriesOf_failed (fs : FileSystem) (info : FileInfo) (path : String)
    (h : readdirFails fs path = true) : entriesOf fs info path = [] := by
  unfold readdirFails at h
  unfold entriesOf
  split
  · split
    · rfl
    · rename_i heq
      rw [heq] at h
      cases h
  · rfl

theorem entriesOf_congr (fs fs' : FileSystem) (info : FileInfo) (path : String)
    (hdir : readdirFails fs path = true ∨ fs.readdir path = fs'.readdir path)
    (h : ¬ (info.isDir = true ∧ readdirFails fs path = true)) :
    entriesOf fs info path = entriesOf fs' info path := by
  unfold entriesOf
  by_cases hd : info.isDir = true
  · rcases hdir with h1 | h1
    · exact absurd ⟨hd, h1⟩ h
    · rw [h1]
  · simp [hd]

/-- C12: let the listings of some directories fail in `fs`, and let `fs2` be a
file system in which the root is inspected alike and every listing that does
not fail in `fs` is the same.  When `buildTree` returns the tree `root2` on
`fs2`, then on `fs` it returns a root and the nil error (one unit of fuel per
node of `root2` is enough), and whenever it returns, the error is nil, the
tree is `root2` with the children of the failing directories removed, up to
addresses; a directory of the tree whose listing fails has no children, and
every other node of the tree is expanded as on `fs2`. -/
theorem buildTree_listing_failure (fs fs2 : FileSystem) (path : String) (printFiles : Bool)
    (fuel2 : Nat) (root2 : TreeItem) (err2 : Option IOError)
    (hstat : fs.lstat path = fs2.lstat path)
    (hdir : ∀ p, readdirFails fs p = true ∨ fs.readdir p = fs2.readdir p)
    (h2 : buildTree fs2 fuel2 path printFiles = .ok (root2, err2)) :
    (∀ fuel, size root2 ≤ fuel →
      ∃ root, buildTree fs fuel path printFiles = .ok (root, none)) ∧
    ∀ fuel root err, buildTree fs fuel path printFiles = .ok (root, err) →
      err = none ∧ eraseAddr root = eraseAddr (pruneFailed fs root2) ∧
      ∀ n ∈ nodes root,
        (n.fileInfo.isDir = true → readdirFails fs n.path = true → n.children = []) ∧
        (¬ (n.fileInfo.isDir = true ∧ readdirFails fs n.path = true) →
          ExpandedNode fs2 printFiles n) := by
  obtain ⟨_, hl2, hp2, hs2, _⟩ := buildTree_spec fs2 fuel2 path printFiles root2 err2 h2
  have hc2 := buildTree_conforms fs2 fuel2 path printFiles root2 err2 h2
  have hmodel : Conforms fs printFiles (pruneFailed fs root2) :=
    pruneFailed_conforms fs fs2 printFiles hdir [root2]
      (fun c hc => by rw [List.mem_singleton] at hc; rw [hc]; exact hc2) root2
      (List.mem_singleton.2 rfl)
  constructor
  · intro fuel hfuel
    refine buildTree_total fs fuel path printFiles (pruneFailed fs root2) ?_ ?_ hmodel
      (Nat.le_trans (size_pruneFailed fs root2) hfuel)
    · rw [pruneFailed_fileInfo, hstat, hs2]
    · rw [pruneFailed_path, hp2]
  · intro fuel root err h
    obtain ⟨he, hl, hp, hs, _⟩ := buildTree_spec fs fuel path printFiles root err h
    have hc := buildTree_conforms fs fuel path printFiles root err h
    refine ⟨he, ?_, ?_⟩
    · apply conforms_unique fs printFiles root (pruneFailed fs root2) hc hmodel
      · rw [pruneFailed_fileInfo]
        rw [hstat, hs2] at hs
        injection hs with hs
        exact hs.symm
      · rw [pruneFailed_path, hp, hp2]
      · rw [pruneFailed_level, hl, hl2]
    · intro n hn
      have hE := hc n hn
      constructor
      · intro _ hfail
        have h0 := hE.1
        rw [entriesOf_failed fs n.fileInfo n.path hfail] at h0
        exact List.map_eq_nil_iff.1 h0
      · intro hnot
        refine ⟨?_, hE.2⟩
        rw [← entriesOf_congr fs fs2 n.fileInfo n.path (hdir n.path) hnot]
        exact hE.1

/-- Witness of C12: `/a/b` cannot be listed in `exampleFailFS`; the tree built
is the tree of `exampleDeepFS` with `b` left childless. -/
theorem buildTree_listing_failure_witness :
    buildTree exampleDeepFS 6 "/a" true = .ok (exampleTree, none) ∧
      readdirFails exampleFailFS "/a/b" = true ∧
      buildTree exampleFailFS 3 "/a" true = .ok (exampleBuilt, none) ∧
      eraseAddr exampleBuilt = eraseAddr (pruneFailed exampleFailFS exampleTree) :=
  ⟨rfl, rfl, rfl,
    ((buildTree_listing_failure exampleFailFS exampleDeepFS "/a" true 6 exampleTree none rfl
      (fun p => by
        by_cases hp : p = "/a/b"
        · left
          simp [readdirFails, exampleFailFS, hp]
        · right
          simp [exampleFailFS, hp])
      rfl).2 3 exampleBuilt none rfl).2.1⟩

/-- C16: when `buildTree` returns the tree `root` with `printFiles` set, every
plain file of `root` is a childless leaf; with `printFiles` unset `buildTree`
returns a root and the nil error (one unit of fuel per node of `root` is
enough), and whenever it returns, the tree is `root` without the plain files
below the root, up to addresses: the same directories, at the same paths and
levels, under the same parents and in the same order. -/
theorem buildTree_without_files (fs : FileSystem) (path : String) (fuel : Nat)
    (root : TreeItem) (err : Option IOError)
    (h : buildTree fs fuel path true = .ok (root, err)) :
    (∀ n ∈ nodes root, n.fileInfo.isDir = false → n.children = []) ∧
    (∀ fuel2, size root ≤ fuel2 →
      ∃ root2, buildTree fs fuel2 path false = .ok (root2, none)) ∧
    ∀ fuel2 root2 err2, buildTree fs fuel2 path false = .ok (root2, err2) →
      err2 = none ∧ eraseAddr root2 = eraseAddr (dirsOnly root) ∧
      ∀ n ∈ nodesL root2.children, n.fileInfo.isDir = true := by
  obtain ⟨_, hl, hp, hs, _⟩ := buildTree_spec fs fuel path true root err h
  have hc := buildTree_conforms fs fuel path true root err h
  have hmodel : Conforms fs false (dirsOnly root) :=
    dirsOnly_conforms fs [root]
      (fun c hc0 => by rw [List.mem_singleton] at hc0; rw [hc0]; exact hc) root
      (List.mem_singleton.2 rfl)
  have hinfo : (dirsOnly root).fileInfo = root.fileInfo := by
    cases root
    rfl
  have hpath : (dirsOnly root).path = root.path := by
    cases root
    rfl
  have hlevel : (dirsOnly root).level = root.level := by
    cases root
    rfl
  refine ⟨?_, ?_, ?_⟩
  · intro n hn hfile
    have h0 := (hc n hn).1
    have hent : entriesOf fs n.fileInfo n.path = [] := by
      unfold entriesOf
      simp [hfile]
    rw [hent] at h0
    exact List.map_eq_nil_iff.1 h0
  · intro fuel2 hfuel
    refine buildTree_total fs fuel2 path false (dirsOnly root) ?_ ?_ hmodel
      (Nat.le_trans (size_dirsOnly root) hfuel)
    · rw [hinfo, hs]
    · rw [hpath, hp]
  · intro fuel2 root2 err2 h2
    obtain ⟨he2, hl2, hp2, hs2, _⟩ := buildTree_spec fs fuel2 path false root2 err2 h2
    have hc2 := buildTree_conforms fs fuel2 path false root2 err2 h2
    refine ⟨he2, ?_, buildTree_dirs_only fs fuel2 path root2 err2 h2⟩
    apply conforms_unique fs false root2 (dirsOnly root) hc2 hmodel
    · rw [hinfo]
      rw [hs] at hs2
      injection hs2 with hs2
      exact hs2.symm
    · rw [hpath, hp2, hp]
    · rw [hlevel, hl2, hl]

/-- Witness of C16: the two trees built on `exampleDeepFS`. -/
theorem buildTree_without_files_witness :
    buildTree exampleDeepFS 6 "/a" true = .ok (exampleTree, none) ∧
      buildTree exampleDeepFS 4 "/a" false = .ok (exampleDirs, none) ∧
      eraseAddr exampleDirs = eraseAddr (dirsOnly exampleTree) :=
  ⟨rfl, rfl,
    ((buildTree_without_files exampleDeepFS "/a" 6 exampleTree none rfl).2.2
      4 exampleDirs none rfl).2.1⟩

/-! ## Listing order and the built tree -/

theorem exists_perm_map {α β : Type} (f : α → β) : ∀ (l₁ l₂ : List β), l₁.Perm l₂ →
    ∀ l : List α, l.map f = l₂ → ∃ m : List α, m.Perm l ∧ m.map f = l₁ := by
  intro l₁ l₂ h
  induction h with
  | nil =>
    intro l hl
    exact ⟨l, List.Perm.refl _, hl⟩
  | cons x _ ih =>
    intro l hl
    cases l with
    | nil => simp at hl
    | cons y l0 =>
      simp only [List.map_cons, List.cons.injEq] at hl
      obtain ⟨m0, hm0, hmap⟩ := ih l0 hl.2
      exact ⟨y :: m0, List.Perm.cons y hm0, by simp [hmap, hl.1]⟩
  | swap x y t =>
    intro l hl
    cases l with
    | nil => simp at hl
    | cons a l0 =>
      cases l0 with
      | nil => simp at hl
      | cons b t0 =>
        simp only [List.map_cons, List.cons.injEq] at hl
        exact ⟨b :: a :: t0, List.Perm.swap _ _ _, by simp [hl.1, hl.2.1, hl.2.2]⟩
  | trans _ _ ih1 ih2 =>
    intro l hl
    obtain ⟨m2, hm2, hmap2⟩ := ih2 l hl
    obtain ⟨m1, hm1, hmap1⟩ := ih1 m2 hmap2
    exact ⟨m1, hm1.trans hm2, hmap1⟩

theorem reordered_of (a b : TreeItem) (hf : a.fileInfo = b.fileInfo) (hp : a.path = b.path)
    (hl : a.level = b.level) (mid : List TreeItem)
    (h1 : List.Forall₂ Reordered a.children mid) (h2 : mid.Perm b.children) :
    Reordered a b := by
  cases a with
  | mk p q cs f s l =>
    cases b with
    | mk p' q' cs' f' s' l' =>
      have hf' : f = f' := hf
      have hp' : s = s' := hp
      have hl' : l = l' := hl
      subst hf' hp' hl'
      exact Reordered.node p p' q q' f s l cs mid cs' h1 h2

theorem entriesOf_perm (fs fs2 : FileSystem) (h : SameListings fs fs2) (info : FileInfo)
    (path : String) : (entriesOf fs info path).Perm (entriesOf fs2 info path) := by
  rcases h path with ⟨h1, h2⟩ | ⟨l, l2, h1, h2, hperm⟩
  · rw [entriesOf_failed fs info path h1, entriesOf_failed fs2 info path h2]
  · unfold entriesOf
    rw [h1, h2]
    split
    · exact hperm
    · exact List.Perm.refl _

/-- Two forests that conform to two file systems with the same listings up to
order, and whose roots agree pairwise on `FileInfo`, path and level, differ
only in the order of children. -/
theorem conforms_reordered_forest (fs fs2 : FileSystem) (printFiles : Bool)
    (hsame : SameListings fs fs2) :
    ∀ (cs cs' : List TreeItem),
    List.Forall₂ (fun c c' => c.fileInfo = c'.fileInfo ∧ c.path = c'.path ∧
      c.level = c'.level) cs cs' →
    (∀ c ∈ cs, Conforms fs printFiles c) → (∀ c ∈ cs', Conforms fs2 printFiles c) →
    List.Forall₂ Reordered cs cs' := by
  intro cs
  induction cs using forest_rec with
  | hnil => intro cs' h _ _; cases h; exact List.Forall₂.nil
  | hcons c rest ih1 ih2 =>
    intro cs' h h1 h2
    cases h with
    | cons hc hrest =>
      rename_i c' rest'
      obtain ⟨ef, ep, el⟩ := hc
      have hcc := h1 c (List.mem_cons_self _ _)
      have hcc' := h2 c' (List.mem_cons_self _ _)
      have hE := conforms_root fs printFiles c hcc
      have hE' := conforms_root fs2 printFiles c' hcc'
      have hperm : (c.children.map (fun d => d.fileInfo)).Perm
          (c'.children.map (fun d => d.fileInfo)) := by
        rw [hE.1, hE'.1, ← ef, ← ep]
        exact (entriesOf_perm fs fs2 hsame c.fileInfo c.path).filter _
      obtain ⟨mid, hmid, hmap⟩ := exists_perm_map (fun d : TreeItem => d.fileInfo) _ _ hperm
        c'.children rfl
      have hkids : List.Forall₂ (fun d d' => d.fileInfo = d'.fileInfo ∧ d.path = d'.path ∧
          d.level = d'.level) c.children mid := by
        refine forall₂_of_map_eq
          (fun d => d.level = c.level + 1 ∧ ∃ name, d.fileInfo.name = name ∧
            d.path = c.path ++ "/" ++ name) _ ?_ _ _ hmap.symm ?_ ?_
        · rintro d d' ⟨l1, n1, hn1, p1⟩ ⟨l2, n2, hn2, p2⟩ hf
          refine ⟨hf, ?_, by rw [l1, l2]⟩
          rw [p1, p2, ← hn1, ← hn2, hf]
        · intro d hd
          exact ⟨(hE.2 d hd).1, _, rfl, (hE.2 d hd).2⟩
        · intro d hd
          have hd' : d ∈ c'.children := hmid.mem_iff.1 hd
          refine ⟨by rw [(hE'.2 d hd').1, el], _, rfl, ?_⟩
          rw [(hE'.2 d hd').2, ep]
      have ik := ih1 mid hkids
        (fun d hd => conforms_child fs printFiles c d hcc hd)
        (fun d hd => conforms_child fs2 printFiles c' d hcc' (hmid.mem_iff.1 hd))
      have ir := ih2 rest' hrest (fun d hd => h1 d (List.mem_cons_of_mem _ hd))
        (fun d hd => h2 d (List.mem_cons_of_mem _ hd))
      exact List.Forall₂.cons (reordered_of c c' ef ep el mid ik hmid) ir

/-- The trees `buildTree` returns on two file systems that inspect the root
alike and whose listings are the same up to the order of the entries differ
only in the order of children, in the sense of `Reordered`. -/
theorem buildTree_reordered (fs fs2 : FileSystem) (path : String) (printFiles : Bool)
    (fuel fuel2 : Nat) (root root2 : TreeItem) (err err2 : Option IOError)
    (hstat : fs.lstat path = fs2.lstat path) (hsame : SameListings fs fs2)
    (h : buildTree fs fuel path printFiles = .ok (root, err))
    (h2 : buildTree fs2 fuel2 path printFiles = .ok (root2, err2)) :
    Reordered root root2 := by
  obtain ⟨_, hl, hp, hs, _⟩ := buildTree_spec fs fuel path printFiles root err h
  obtain ⟨_, hl2, hp2, hs2, _⟩ := buildTree_spec fs2 fuel2 path printFiles root2 err2 h2
  have hc := buildTree_conforms fs fuel path printFiles root err h
  have hc2 := buildTree_conforms fs2 fuel2 path printFiles root2 err2 h2
  have hf : root.fileInfo = root2.fileInfo := by
    rw [hstat, hs2] at hs
    injection hs with hs
    exact hs.symm
  have := conforms_reordered_forest fs fs2 printFiles hsame [root] [root2]
    (List.Forall₂.cons ⟨hf, by rw [hp, hp2], by rw [hl, hl2]⟩ List.Forall₂.nil)
    (fun c hc0 => by rw [List.mem_singleton] at hc0; rw [hc0]; exact hc)
    (fun c hc0 => by rw [List.mem_singleton] at hc0; rw [hc0]; exact hc2)
  cases this with
  | cons hr _ => exact hr

end Tree
